import Mathlib

/-!
# cryptix/canvas: a shallow embedding of `canvas.go`

`Canvas` embeds `image.RGBA` of Go's standard library (modelled after its
current sources): a byte buffer `Pix`, a `Stride` and a bounding rectangle
`Rect`.  The methods of `canvas.go` have value receivers,
so they work on a copy of the struct that shares the backing array of `Pix`;
here every method takes the canvas and returns the canvas after the call.

Conventions of the embedding:

* Go's `int` is the 64-bit two's-complement integer: values are `Int`s and
  every `+`, `-`, `*` of the source is followed by `wrap`.
* A call that panics (index out of range, failed allocation) or that never
  returns has result `none`.
* `float64` arithmetic is not fixed: the operations the source uses are the
  fields of a `Float64Ops` record, so the theorems hold for every
  implementation of them.
-/

set_option linter.dupNamespace false
set_option linter.unusedVariables false

namespace Canvas2D

/-! ## Machine integers -/

/-- Smallest value of Go's `int` on a 64-bit target. -/
def intMin : Int := -9223372036854775808

/-- Largest value of Go's `int` on a 64-bit target. -/
def intMax : Int := 9223372036854775807

/-- Reduction of an integer to the 64-bit two's-complement range, the value Go
keeps after an overflowing `int` operation. -/
def wrap (z : Int) : Int :=
  (z + 9223372036854775808) % 18446744073709551616 - 9223372036854775808

/-- The value is representable as a Go `int`. -/
def IsInt (z : Int) : Prop := intMin ≤ z ∧ z ≤ intMax

instance (z : Int) : Decidable (IsInt z) := by unfold IsInt; infer_instance

/-- Go `a + b` on `int`. -/
def iadd (a b : Int) : Int := wrap (a + b)

/-- Go `a - b` on `int`. -/
def isub (a b : Int) : Int := wrap (a - b)

/-- Go `a * b` on `int`. -/
def imul (a b : Int) : Int := wrap (a * b)

/-- Go unary `-a` on `int`. -/
def ineg (a : Int) : Int := wrap (-a)

/-- Go `a / b` on `int` for `b ≠ 0`: the quotient truncated toward zero. -/
def idiv (a b : Int) : Int := wrap (Int.tdiv a b)

/-- A byte, Go's `uint8`. -/
abbrev Byte := Fin 256

/-- Go's conversion `uint8(z)` of an `int`: the low eight bits. -/
def toUint8 (z : Int) : Byte := ⟨(z % 256).toNat, by omega⟩

/-! ## Loops -/

/-- Run `body` for each index of the list in turn, threading the state; stops
with `none` as soon as one iteration does. -/
def forEach {σ : Type} (body : Int → σ → Option σ) : List Int → σ → Option σ
  | [], s => some s
  | i :: is, s => (body i s).bind (forEach body is)

/-- The integers `lo, lo+1, …, hi-1` in increasing order. -/
def intRange (lo hi : Int) : List Int :=
  (List.range (hi - lo).toNat).map (fun (k : Nat) => lo + (k : Int))

/-- Go `for i := lo; i < hi; i += 1 { body }`.  While the guard holds `i` is
below `hi`, so the increment cannot overflow. -/
def forLT {σ : Type} (lo hi : Int) (body : Int → σ → Option σ) (s : σ) : Option σ :=
  forEach body (intRange lo hi) s

/-- Go `for i := lo; i <= hi; i += 1 { body }`.  When `hi` is the largest `int`
the guard `i <= hi` can never fail (the increment wraps around), so once
entered the loop does not return. -/
def forLE {σ : Type} (lo hi : Int) (body : Int → σ → Option σ) (s : σ) : Option σ :=
  if lo ≤ hi ∧ hi = intMax then none else forEach body (intRange lo (hi + 1)) s

/-! ### The loops step by step

The two loop forms once more, as Go runs them: one evaluation of the guard and
one increment (which wraps) at a time.  `forLT_adequate` and `forLE_adequate`
below show that `forLT` and `forLE` return exactly what these loops exit with. -/

/-- The loop `for i := lo; i <= hi; i += 1 { body }` started at `i`, run for at
most `fuel` evaluations of the guard: `none` when the fuel runs out,
`some none` when the body panics, `some (some s)` when the guard fails and the
loop exits with state `s`. -/
def runLE {σ : Type} (body : Int → σ → Option σ) (hi : Int) : Nat → Int → σ → Option (Option σ)
  | 0, _, _ => none
  | fuel + 1, i, s =>
    if i ≤ hi then
      match body i s with
      | none => some none
      | some s1 => runLE body hi fuel (iadd i 1) s1
    else some (some s)

/-- The loop `for i := lo; i < hi; i += 1 { body }` started at `i`, run for at
most `fuel` evaluations of the guard, with the results of `runLE`. -/
def runLT {σ : Type} (body : Int → σ → Option σ) (hi : Int) : Nat → Int → σ → Option (Option σ)
  | 0, _, _ => none
  | fuel + 1, i, s =>
    if i < hi then
      match body i s with
      | none => some none
      | some s1 => runLT body hi fuel (iadd i 1) s1
    else some (some s)

/-! ## Geometry and colours (Go packages `image` and `image/color`) -/

/-- Go `image.Point`. -/
structure Point where
  X : Int
  Y : Int
deriving DecidableEq, Repr

/-- Go `image.Rectangle`: the points with `Min.X ≤ x < Max.X`, `Min.Y ≤ y < Max.Y`. -/
structure Rectangle where
  Min : Point
  Max : Point
deriving DecidableEq, Repr

/-- Go `Point.In`. -/
def Point.In (p : Point) (r : Rectangle) : Prop :=
  r.Min.X ≤ p.X ∧ p.X < r.Max.X ∧ r.Min.Y ≤ p.Y ∧ p.Y < r.Max.Y

instance (p : Point) (r : Rectangle) : Decidable (p.In r) := by
  unfold Point.In; infer_instance

/-- Go `Rectangle.Dx`. -/
def Rectangle.Dx (r : Rectangle) : Int := isub r.Max.X r.Min.X

/-- Go `Rectangle.Dy`. -/
def Rectangle.Dy (r : Rectangle) : Int := isub r.Max.Y r.Min.Y

/-- Go `Rectangle.Size`. -/
def Rectangle.Size (r : Rectangle) : Point := ⟨isub r.Max.X r.Min.X, isub r.Max.Y r.Min.Y⟩

/-- Go `color.RGBA`. -/
structure RGBA where
  R : Byte
  G : Byte
  B : Byte
  A : Byte
deriving DecidableEq, Repr

/-- Go `color.RGBA.RGBA()`: each channel widened to 16 bits (`r |= r << 8`). -/
def RGBA.RGBA (c : RGBA) : Int × Int × Int × Int :=
  ((c.R.val : Int) * 257, (c.G.val : Int) * 257, (c.B.val : Int) * 257, (c.A.val : Int) * 257)

/-! ## The canvas -/

/-- The struct `Canvas` of `canvas.go`, which embeds `image.RGBA`. -/
structure Canvas where
  Pix : List Byte
  Stride : Int
  Rect : Rectangle
deriving DecidableEq, Repr

namespace Canvas

/-- Go `RGBA.Bounds`. -/
def Bounds (c : Canvas) : Rectangle := c.Rect

/-- Go `RGBA.PixOffset`: `(y-Rect.Min.Y)*Stride + (x-Rect.Min.X)*4`. -/
def PixOffset (c : Canvas) (x y : Int) : Int :=
  iadd (imul (isub y c.Rect.Min.Y) c.Stride) (imul (isub x c.Rect.Min.X) 4)

/-- Overwrite the four bytes at `i .. i+3`. -/
def write4 (pix : List Byte) (i : Nat) (col : RGBA) : List Byte :=
  (((pix.set i col.R).set (i + 1) col.G).set (i + 2) col.B).set (i + 3) col.A

/-- Read the four bytes at `i .. i+3`. -/
def read4 (pix : List Byte) (i : Nat) : RGBA :=
  ⟨pix.getD i 0, pix.getD (i + 1) 0, pix.getD (i + 2) 0, pix.getD (i + 3) 0⟩

/-- Go `RGBA.Set` with a `color.RGBA` argument: nothing happens outside the
rectangle; inside, the four bytes at the pixel offset are overwritten, and
slicing `Pix[i : i+4]` panics when that range is not inside the buffer. -/
def Set (c : Canvas) (x y : Int) (col : RGBA) : Option Canvas :=
  if (Point.mk x y).In c.Rect then
    let i := c.PixOffset x y
    if 0 ≤ i ∧ i + 4 ≤ (c.Pix.length : Int) then
      some ⟨write4 c.Pix i.toNat col, c.Stride, c.Rect⟩
    else none
  else some c

/-- Go `RGBA.At`: the zero colour outside the rectangle; inside, the four bytes
at the pixel offset, and slicing `Pix[i : i+4]` panics when that range is not
inside the buffer. -/
def At (c : Canvas) (x y : Int) : Option RGBA :=
  if (Point.mk x y).In c.Rect then
    let i := c.PixOffset x y
    if 0 ≤ i ∧ i + 4 ≤ (c.Pix.length : Int) then some (read4 c.Pix i.toNat) else none
  else some ⟨0, 0, 0, 0⟩

end Canvas

/-- Go's built-in `copy(dst, src)`: the first `min (len dst) (len src)` elements
of `dst` are replaced by those of `src`; the result is the new content of `dst`. -/
def copy (dst src : List Byte) : List Byte :=
  src.take dst.length ++ dst.drop src.length

/-- Largest number of bytes one allocation can have in Go's runtime on a 64-bit
target (`maxAlloc`, 48 address bits): `make` panics beyond it. -/
def maxAlloc : Int := 281474976710656

/-- Go `image.mul3NonNeg`: the product `x * y * z`, or `-1` when an argument is
negative or a product does not fit (`bits.Mul64` returns a non-zero high word,
or the low word is negative as an `int`). -/
def mul3NonNeg (x y z : Int) : Int :=
  if x < 0 ∨ y < 0 ∨ z < 0 then -1
  else if 18446744073709551616 ≤ x * y then -1
  else if 18446744073709551616 ≤ x * y * z then -1
  else if intMax < x * y * z then -1
  else x * y * z

/-- Go `image.NewRGBA`: a zeroed buffer of `4 * Dx * Dy` bytes with stride
`4 * Dx`.  `pixelBufferLength` panics when `mul3NonNeg` reports a negative or
huge dimension, and `make` panics when the length exceeds `maxAlloc`. -/
def NewRGBA (r : Rectangle) : Option Canvas :=
  let totalLength := mul3NonNeg 4 r.Dx r.Dy
  if totalLength < 0 then none
  else if maxAlloc < totalLength then none
  else some ⟨List.replicate totalLength.toNat 0, imul 4 r.Dx, r⟩

/-- `NewCanvas` of `canvas.go`. -/
def NewCanvas (r : Rectangle) : Option Canvas := NewRGBA r

/-- `Canvas.Clone` of `canvas.go`. -/
def Canvas.Clone (c : Canvas) : Option Canvas :=
  (NewCanvas c.Bounds).bind fun clone =>
    some ⟨copy clone.Pix c.Pix, clone.Stride, clone.Rect⟩

/-- `Canvas.DrawGradient` of `canvas.go`. -/
def Canvas.DrawGradient (c : Canvas) : Option Canvas :=
  let size := c.Bounds.Size
  forLT 0 size.X (fun x c =>
    forLT 0 size.Y (fun y c =>
      let col : RGBA :=
        ⟨toUint8 (idiv (imul 255 x) size.X), toUint8 (idiv (imul 255 y) size.Y), 155, 255⟩
      c.Set x y col) c) c

/-! ## Floating point and vectors -/

/-- The `float64` operations used by `canvas.go`.  `ofInt` is the conversion
`float64(i)`, `ofRat` the value of a decimal constant, `toInt` the conversion
`int(f)` (truncation toward zero where the value fits) and `toUint8` the
conversion `uint8(f)`. -/
structure Float64Ops (F : Type) where
  ofInt : Int → F
  ofRat : Rat → F
  add : F → F → F
  sub : F → F → F
  mul : F → F → F
  div : F → F → F
  sqrt : F → F
  cos : F → F
  sin : F → F
  toInt : F → Int
  toUint8 : F → Byte
  toInt_isInt : ∀ f, IsInt (toInt f)

/-- Square root on the rationals: exact on squares, rounded down to a multiple
of `2⁻³²` of the denominator otherwise. -/
def ratSqrt (q : Rat) : Rat :=
  if q ≤ 0 then 0
  else (Nat.sqrt (q.num.toNat * q.den * 18446744073709551616) : Rat) / ((q.den : Rat) * 4294967296)

/-- Truncation of a rational toward zero. -/
def ratTrunc (q : Rat) : Int := Int.tdiv q.num q.den

/-- An implementation of the `float64` operations by exact rational
arithmetic (cosine and sine by their Taylor polynomials of degree 7), used to
run the definitions on concrete inputs.  Conversions to integers truncate
toward zero and keep the low bits. -/
def exactOps : Float64Ops Rat where
  ofInt := fun i => (i : Rat)
  ofRat := fun q => q
  add := fun a b => a + b
  sub := fun a b => a - b
  mul := fun a b => a * b
  div := fun a b => a / b
  sqrt := ratSqrt
  cos := fun a => 1 - a ^ 2 / 2 + a ^ 4 / 24 - a ^ 6 / 720
  sin := fun a => a - a ^ 3 / 6 + a ^ 5 / 120 - a ^ 7 / 5040
  toInt := fun q => wrap (ratTrunc q)
  toUint8 := fun q => toUint8 (ratTrunc q)
  toInt_isInt := fun q => by
    show IsInt (wrap (ratTrunc q))
    unfold IsInt wrap intMin intMax; omega

/-- Modelled from the spec: the type `Vector` (its file is not part of the
sources at hand), "two floating-point coordinates (X, Y)". -/
structure Vector (F : Type) where
  X : F
  Y : F

/-- Modelled from the spec: `Vector.Add`, which returns the sum as a new vector. -/
def Vector.Add {F : Type} (fl : Float64Ops F) (v w : Vector F) : Vector F :=
  ⟨fl.add v.X w.X, fl.add v.Y w.Y⟩

/-- Modelled from the spec: `Vector.Sub`, which returns the difference as a new
vector. -/
def Vector.Sub {F : Type} (fl : Float64Ops F) (v w : Vector F) : Vector F :=
  ⟨fl.sub v.X w.X, fl.sub v.Y w.Y⟩

/-- Modelled from the spec: `Vector.Scale`, "in-place multiply both components". -/
def Vector.Scale {F : Type} (fl : Float64Ops F) (v : Vector F) (factor : F) : Vector F :=
  ⟨fl.mul v.X factor, fl.mul v.Y factor⟩

/-- Modelled from the spec: `Vector.Rotate`, "in-place 2D rotation about origin
using standard rotation matrix". -/
def Vector.Rotate {F : Type} (fl : Float64Ops F) (v : Vector F) (angle : F) : Vector F :=
  ⟨fl.sub (fl.mul v.X (fl.cos angle)) (fl.mul v.Y (fl.sin angle)),
   fl.add (fl.mul v.X (fl.sin angle)) (fl.mul v.Y (fl.cos angle))⟩

/-- Modelled from the spec: `Vector.Length`, the Euclidean norm. -/
def Vector.Length {F : Type} (fl : Float64Ops F) (v : Vector F) : F :=
  fl.sqrt (fl.add (fl.mul v.X v.X) (fl.mul v.Y v.Y))

/-! ## Drawing -/

/-- `Canvas.DrawLine` of `canvas.go`. -/
def Canvas.DrawLine {F : Type} (fl : Float64Ops F) (c : Canvas) (col : RGBA)
    (from_ to_ : Vector F) : Option Canvas :=
  let delta := to_.Sub fl from_
  let length := delta.Length fl
  let x_step := fl.div delta.X length
  let y_step := fl.div delta.Y length
  let limit := fl.toInt (fl.add length (fl.ofRat (1 / 2)))
  forLT 0 limit (fun i c =>
    let x := fl.add from_.X (fl.mul (fl.ofInt i) x_step)
    let y := fl.add from_.Y (fl.mul (fl.ofInt i) y_step)
    c.Set (fl.toInt x) (fl.toInt y) col) c

/-- Loop state of `DrawSpiral`: the canvas and the variables `dir` and `last`. -/
structure SpiralState (F : Type) where
  canvas : Canvas
  dir : Vector F
  last : Vector F

/-- One iteration of the loop of `DrawSpiral`. -/
def spiralStep {F : Type} (fl : Float64Ops F) (col : RGBA) (s : SpiralState F) :
    Option (SpiralState F) :=
  let next := s.last.Add fl s.dir
  (s.canvas.DrawLine fl col s.last next).bind fun c =>
    let dir := s.dir.Rotate fl (fl.ofRat (3 / 100))
    let dir := dir.Scale fl (fl.ofRat (999 / 1000))
    some ⟨c, dir, next⟩

/-- `Canvas.DrawSpiral` of `canvas.go`. -/
def Canvas.DrawSpiral {F : Type} (fl : Float64Ops F) (c : Canvas) (col : RGBA)
    (start : Vector F) : Option Canvas :=
  (forLT 0 10000 (fun _ s => spiralStep fl col s)
    ⟨c, ⟨fl.ofInt 0, fl.ofInt 5⟩, start⟩).map fun s => s.canvas

/-- `Canvas.DrawCircle` of `canvas.go`. -/
def Canvas.DrawCircle {F : Type} (fl : Float64Ops F) (c : Canvas) (color : RGBA)
    (center : Vector F) (radius : Int) : Option Canvas :=
  forLE (ineg radius) radius (fun x c =>
    forLE (ineg radius) radius (fun y c =>
      if iadd (imul x x) (imul y y) ≤ imul radius radius then
        c.Set (iadd (fl.toInt center.X) x) (iadd (fl.toInt center.Y) y) color
      else some c) c) c

/-- `Canvas.DrawRect` of `canvas.go`. -/
def Canvas.DrawRect {F : Type} (fl : Float64Ops F) (c : Canvas) (col : RGBA)
    (from_ to_ : Vector F) : Option Canvas :=
  forLE (fl.toInt from_.X) (fl.toInt to_.X) (fun x c =>
    forLE (fl.toInt from_.Y) (fl.toInt to_.Y) (fun y c => c.Set x y col) c) c

/-! ## Blur -/

/-- The interface `WeightFunction` of `canvas.go`; an implementation is taken
to be a function of the two offsets. -/
structure WeightFunction (F : Type) where
  Weight : Int → Int → F

/-- The accumulators of `BlurPixel`. -/
structure BlurAcc (F : Type) where
  outR : F
  outG : F
  outB : F
  weightSum : F

/-- Body of the inner loop of `BlurPixel` at the neighbour `(i, j)`. -/
def blurStep {F : Type} (fl : Float64Ops F) (c : Canvas) (x y : Int)
    (weight : WeightFunction F) (i j : Int) (acc : BlurAcc F) : Option (BlurAcc F) :=
  let w := weight.Weight (isub i x) (isub j y)
  (c.At i j).bind fun p =>
    let rgba := p.RGBA
    some ⟨fl.add acc.outR (fl.mul (fl.ofInt rgba.1) w),
          fl.add acc.outG (fl.mul (fl.ofInt rgba.2.1) w),
          fl.add acc.outB (fl.mul (fl.ofInt rgba.2.2.1) w),
          fl.add acc.weightSum w⟩

/-- The two loops of `BlurPixel`: the sums over the neighbourhood. -/
def blurSums {F : Type} (fl : Float64Ops F) (c : Canvas) (x y radius : Int)
    (weight : WeightFunction F) : Option (BlurAcc F) :=
  forLT (isub x radius) (iadd (iadd x radius) 1) (fun i acc =>
    forLT (isub y radius) (iadd (iadd y radius) 1) (fun j acc =>
      blurStep fl c x y weight i j acc) acc)
    ⟨fl.ofInt 0, fl.ofInt 0, fl.ofInt 0, fl.ofInt 0⟩

/-- The quotient `out / (weightSum * 0xFF)` that `BlurPixel` converts to a byte. -/
def blurQuot {F : Type} (fl : Float64Ops F) (out weightSum : F) : F :=
  fl.div out (fl.mul weightSum (fl.ofInt 255))

/-- `Canvas.BlurPixel` of `canvas.go`. -/
def Canvas.BlurPixel {F : Type} (fl : Float64Ops F) (c : Canvas) (x y radius : Int)
    (weight : WeightFunction F) : Option RGBA :=
  (blurSums fl c x y radius weight).bind fun acc =>
    some ⟨fl.toUint8 (blurQuot fl acc.outR acc.weightSum),
          fl.toUint8 (blurQuot fl acc.outG acc.weightSum),
          fl.toUint8 (blurQuot fl acc.outB acc.weightSum),
          255⟩

/-- `Canvas.Blur` of `canvas.go`. -/
def Canvas.Blur {F : Type} (fl : Float64Ops F) (c : Canvas) (radius : Int)
    (weight : WeightFunction F) : Option Canvas :=
  c.Clone.bind fun clone =>
    let size := c.Bounds.Size
    (forLT 0 size.X (fun x clone =>
      forLT 0 size.Y (fun y clone =>
        (c.BlurPixel fl x y radius weight).bind fun col => clone.Set x y col) clone) clone).bind
      fun clone => some ⟨copy c.Pix clone.Pix, c.Stride, c.Rect⟩

/-! ## Well-formed canvases -/

/-- The layout that `NewRGBA` gives a canvas: coordinates that are `int`s,
non-negative dimensions, a buffer of `4 * Dx * Dy` bytes that can be
allocated, and stride `4 * Dx`. -/
def Canvas.WellFormed (c : Canvas) : Prop :=
  IsInt c.Rect.Min.X ∧ IsInt c.Rect.Min.Y ∧ IsInt c.Rect.Max.X ∧ IsInt c.Rect.Max.Y ∧
  0 ≤ c.Rect.Dx ∧ 0 ≤ c.Rect.Dy ∧ 4 * c.Rect.Dx * c.Rect.Dy ≤ maxAlloc ∧
  c.Stride = imul 4 c.Rect.Dx ∧ (c.Pix.length : Int) = 4 * c.Rect.Dx * c.Rect.Dy ∧
  4 * c.Rect.Dx < 18446744073709551616

instance (c : Canvas) : Decidable c.WellFormed := by
  unfold Canvas.WellFormed; infer_instance

/-- Index of the pixel `(x, y)` in row-major order. -/
def Canvas.pixIdx (c : Canvas) (x y : Int) : Nat :=
  ((y - c.Rect.Min.Y) * (c.Rect.Max.X - c.Rect.Min.X) + (x - c.Rect.Min.X)).toNat

/-- The canvas `c1` is `c` with the in-bounds pixels of the region `S` set to
the colour `f x y`, and every other pixel as in `c`; buffer size, stride and
bounds are those of `c`. -/
def Painted (c c1 : Canvas) (S : Int → Int → Prop) (f : Int → Int → RGBA) : Prop :=
  c1.WellFormed ∧ c1.Rect = c.Rect ∧ c1.Stride = c.Stride ∧ c1.Pix.length = c.Pix.length ∧
  (∀ x y, (Point.mk x y).In c.Rect → S x y → c1.At x y = some (f x y)) ∧
  (∀ x y, ¬ ((Point.mk x y).In c.Rect ∧ S x y) → c1.At x y = c.At x y)

/-- The canvas `c1` has the bounds, stride and buffer length of `c` and is well formed. -/
def SameShape (c c1 : Canvas) : Prop :=
  c1.WellFormed ∧ c1.Rect = c.Rect ∧ c1.Stride = c.Stride ∧ c1.Pix.length = c.Pix.length

/-! ## Reachable canvases and the heap -/

/-- The coordinates of the rectangle are Go `int`s. -/
def Rectangle.Representable (r : Rectangle) : Prop :=
  IsInt r.Min.X ∧ IsInt r.Min.Y ∧ IsInt r.Max.X ∧ IsInt r.Max.Y

instance (r : Rectangle) : Decidable r.Representable := by
  unfold Rectangle.Representable; infer_instance

/-- The canvases a program can obtain: those returned by `NewCanvas`, and those
obtained from such a canvas by `Clone`, `Set`, a drawing operation or `Blur`. -/
inductive Built {F : Type} (fl : Float64Ops F) : Canvas → Prop
  | newCanvas (r : Rectangle) (c : Canvas) :
      r.Representable → NewCanvas r = some c → Built fl c
  | clone (c c1 : Canvas) : Built fl c → c.Clone = some c1 → Built fl c1
  | set (c c1 : Canvas) (x y : Int) (col : RGBA) :
      Built fl c → c.Set x y col = some c1 → Built fl c1
  | drawGradient (c c1 : Canvas) : Built fl c → c.DrawGradient = some c1 → Built fl c1
  | drawLine (c c1 : Canvas) (col : RGBA) (from_ to_ : Vector F) :
      Built fl c → c.DrawLine fl col from_ to_ = some c1 → Built fl c1
  | drawSpiral (c c1 : Canvas) (col : RGBA) (start : Vector F) :
      Built fl c → c.DrawSpiral fl col start = some c1 → Built fl c1
  | drawCircle (c c1 : Canvas) (color : RGBA) (center : Vector F) (radius : Int) :
      Built fl c → c.DrawCircle fl color center radius = some c1 → Built fl c1
  | drawRect (c c1 : Canvas) (col : RGBA) (from_ to_ : Vector F) :
      Built fl c → c.DrawRect fl col from_ to_ = some c1 → Built fl c1
  | blur (c c1 : Canvas) (radius : Int) (weight : WeightFunction F) :
      Built fl c → c.Blur fl radius weight = some c1 → Built fl c1

/-- The memory that holds the backing arrays of the `Pix` slices, by address. -/
abbrev Heap := List (List Byte)

/-- A `Canvas` value as the program holds it: the address of the backing array
of `Pix`, and the fields `Stride` and `Rect`. -/
structure CanvasRef where
  pix : Nat
  Stride : Int
  Rect : Rectangle
deriving DecidableEq

/-- The canvas that the value `v` denotes in the heap `h`. -/
def Heap.load (h : Heap) (v : CanvasRef) : Option Canvas :=
  (h[v.pix]?).map fun p => ⟨p, v.Stride, v.Rect⟩

/-- A call of the method `m` on the value `v`: the receiver is a copy of the
struct that shares the backing array, so the bytes the method writes are
stored in that array. -/
def Heap.call (h : Heap) (v : CanvasRef) (m : Canvas → Option Canvas) : Option Heap :=
  (h.load v).bind fun c => (m c).map fun c1 => h.set v.pix c1.Pix

/-- The call `v.Clone()`: `NewCanvas` allocates a fresh backing array, which
receives the bytes of the clone. -/
def Heap.Clone (h : Heap) (v : CanvasRef) : Option (Heap × CanvasRef) :=
  (h.load v).bind fun c => c.Clone.map fun cl => (h ++ [cl.Pix], ⟨h.length, cl.Stride, cl.Rect⟩)

/-- One call on a canvas: `c1` is what `Clone`, `Set`, a drawing operation or
`Blur` returns on `c`. -/
inductive Step {F : Type} (fl : Float64Ops F) : Canvas → Canvas → Prop
  | clone (c c1 : Canvas) : c.Clone = some c1 → Step fl c c1
  | set (c c1 : Canvas) (x y : Int) (col : RGBA) : c.Set x y col = some c1 → Step fl c c1
  | drawGradient (c c1 : Canvas) : c.DrawGradient = some c1 → Step fl c c1
  | drawLine (c c1 : Canvas) (col : RGBA) (from_ to_ : Vector F) :
      c.DrawLine fl col from_ to_ = some c1 → Step fl c c1
  | drawSpiral (c c1 : Canvas) (col : RGBA) (start : Vector F) :
      c.DrawSpiral fl col start = some c1 → Step fl c c1
  | drawCircle (c c1 : Canvas) (color : RGBA) (center : Vector F) (radius : Int) :
      c.DrawCircle fl color center radius = some c1 → Step fl c c1
  | drawRect (c c1 : Canvas) (col : RGBA) (from_ to_ : Vector F) :
      c.DrawRect fl col from_ to_ = some c1 → Step fl c c1
  | blur (c c1 : Canvas) (radius : Int) (weight : WeightFunction F) :
      c.Blur fl radius weight = some c1 → Step fl c c1

/-- The canvases obtained from the one that `NewCanvas r` returns by any number
of calls of `Clone`, `Set`, the drawing operations and `Blur`. -/
inductive BuiltFrom {F : Type} (fl : Float64Ops F) (r : Rectangle) : Canvas → Prop
  | newCanvas (c : Canvas) : NewCanvas r = some c → BuiltFrom fl r c
  | step (c c1 : Canvas) : BuiltFrom fl r c → Step fl c c1 → BuiltFrom fl r c1

/-- The pixels `(x, y)` with `fx ≤ x ≤ tx` and `fy ≤ y ≤ ty`, column by column. -/
def rectBlock (fx tx fy ty : Int) : List (Int × Int) :=
  (intRange fx (tx + 1)) ×ˢ (intRange fy (ty + 1))

/-- The disc that `DrawCircle` paints when nothing overflows: the points
`(cx+dx, cy+dy)` with `dx² + dy² ≤ r²`; no point when `r` is negative. -/
def discRegion (cx cy r : Int) (a b : Int) : Prop :=
  0 ≤ r ∧ ∃ dx dy : Int, dx * dx + dy * dy ≤ r * r ∧ a = cx + dx ∧ b = cy + dy

/-! ## Instrumented drawing

`DrawLine` and `DrawSpiral` once more, with the call they make on the canvas
(`Set`, respectively `DrawLine`) as a parameter: with the method itself they
are the operations above, with a recording hook they yield the list of calls. -/

/-- `Canvas.DrawLine` of `canvas.go` with the pixel write `set` as a parameter. -/
def drawLineWith {F σ : Type} (fl : Float64Ops F) (set : σ → Int → Int → RGBA → Option σ)
    (s : σ) (col : RGBA) (from_ to_ : Vector F) : Option σ :=
  let delta := to_.Sub fl from_
  let length := delta.Length fl
  let x_step := fl.div delta.X length
  let y_step := fl.div delta.Y length
  let limit := fl.toInt (fl.add length (fl.ofRat (1 / 2)))
  forLT 0 limit (fun i s =>
    let x := fl.add from_.X (fl.mul (fl.ofInt i) x_step)
    let y := fl.add from_.Y (fl.mul (fl.ofInt i) y_step)
    set s (fl.toInt x) (fl.toInt y) col) s

/-- A hook for `Set` that appends the call to a log and does nothing else. -/
def recordSet (log : List (Int × Int × RGBA)) (x y : Int) (col : RGBA) :
    Option (List (Int × Int × RGBA)) :=
  some (log ++ [(x, y, col)])

/-- The step count `int(length + 0.5)` of `DrawLine`. -/
def lineCount {F : Type} (fl : Float64Ops F) (from_ to_ : Vector F) : Int :=
  fl.toInt (fl.add ((to_.Sub fl from_).Length fl) (fl.ofRat (1 / 2)))

/-- The pixel `int(from + i·(delta/length))` of the `i`-th step of `DrawLine`. -/
def lineSample {F : Type} (fl : Float64Ops F) (from_ to_ : Vector F) (i : Int) : Int × Int :=
  (fl.toInt (fl.add from_.X (fl.mul (fl.ofInt i)
      (fl.div (to_.Sub fl from_).X ((to_.Sub fl from_).Length fl)))),
   fl.toInt (fl.add from_.Y (fl.mul (fl.ofInt i)
      (fl.div (to_.Sub fl from_).Y ((to_.Sub fl from_).Length fl)))))

/-- The `float64` operations are exact on the integers between `-N` and `N`, as
far as `DrawLine` uses them on a line along an axis: sums, differences and
products of such integers that stay in the range, the quotients `a/a` and
`0/a`, the length of a vector along an axis, and the conversions of `a` and of
`a + 0.5` to `int`.  IEEE `float64` arithmetic has these properties for
`N = 2⁵² - 1`. -/
structure ExactOnIntegers {F : Type} (fl : Float64Ops F) (N : Int) : Prop where
  ofInt_sub : ∀ a b : Int, -N ≤ a → a ≤ N → -N ≤ b → b ≤ N → -N ≤ a - b → a - b ≤ N →
    fl.sub (fl.ofInt a) (fl.ofInt b) = fl.ofInt (a - b)
  ofInt_add : ∀ a b : Int, -N ≤ a → a ≤ N → -N ≤ b → b ≤ N → -N ≤ a + b → a + b ≤ N →
    fl.add (fl.ofInt a) (fl.ofInt b) = fl.ofInt (a + b)
  ofInt_mul : ∀ a b : Int, -N ≤ a → a ≤ N → -N ≤ b → b ≤ N → -N ≤ a * b → a * b ≤ N →
    fl.mul (fl.ofInt a) (fl.ofInt b) = fl.ofInt (a * b)
  div_self : ∀ a : Int, 0 < a → a ≤ N → fl.div (fl.ofInt a) (fl.ofInt a) = fl.ofInt 1
  zero_div : ∀ a : Int, 0 < a → a ≤ N → fl.div (fl.ofInt 0) (fl.ofInt a) = fl.ofInt 0
  length_x : ∀ a : Int, 0 ≤ a → a ≤ N →
    (Vector.mk (fl.ofInt a) (fl.ofInt 0)).Length fl = fl.ofInt a
  length_y : ∀ a : Int, 0 ≤ a → a ≤ N →
    (Vector.mk (fl.ofInt 0) (fl.ofInt a)).Length fl = fl.ofInt a
  toInt_ofInt : ∀ a : Int, -N ≤ a → a ≤ N → fl.toInt (fl.ofInt a) = a
  toInt_half : ∀ a : Int, 0 ≤ a → a ≤ N →
    fl.toInt (fl.add (fl.ofInt a) (fl.ofRat (1 / 2))) = a

/-- Loop state of `DrawSpiral` with the receiver of the `DrawLine` calls left
open: the receiver and the variables `dir` and `last`. -/
structure SpiralStateWith (σ F : Type) where
  target : σ
  dir : Vector F
  last : Vector F

/-- One iteration of the loop of `DrawSpiral` with the call `DrawLine` as a
parameter. -/
def spiralStepWith {F σ : Type} (fl : Float64Ops F)
    (line : σ → RGBA → Vector F → Vector F → Option σ) (col : RGBA)
    (st : SpiralStateWith σ F) : Option (SpiralStateWith σ F) :=
  let next := st.last.Add fl st.dir
  (line st.target col st.last next).bind fun t =>
    let dir := st.dir.Rotate fl (fl.ofRat (3 / 100))
    let dir := dir.Scale fl (fl.ofRat (999 / 1000))
    some ⟨t, dir, next⟩

/-- `Canvas.DrawSpiral` of `canvas.go` with the call `DrawLine` as a parameter. -/
def drawSpiralWith {F σ : Type} (fl : Float64Ops F)
    (line : σ → RGBA → Vector F → Vector F → Option σ) (s : σ) (col : RGBA)
    (start : Vector F) : Option σ :=
  (forLT 0 10000 (fun _ st => spiralStepWith fl line col st)
    ⟨s, ⟨fl.ofInt 0, fl.ofInt 5⟩, start⟩).map fun st => st.target

/-- A hook for `DrawLine` that appends the call to a log and does nothing else. -/
def recordLine {F : Type} (log : List (RGBA × Vector F × Vector F)) (col : RGBA)
    (from_ to_ : Vector F) : Option (List (RGBA × Vector F × Vector F)) :=
  some (log ++ [(col, from_, to_)])

/-- The value of `dir` after `k` iterations of the loop of `DrawSpiral`. -/
def spiralDir {F : Type} (fl : Float64Ops F) : Nat → Vector F
  | 0 => ⟨fl.ofInt 0, fl.ofInt 5⟩
  | k + 1 => ((spiralDir fl k).Rotate fl (fl.ofRat (3 / 100))).Scale fl (fl.ofRat (999 / 1000))

/-- The value of `last` after `k` iterations of the loop of `DrawSpiral`. -/
def spiralPos {F : Type} (fl : Float64Ops F) (start : Vector F) : Nat → Vector F
  | 0 => start
  | k + 1 => (spiralPos fl start k).Add fl (spiralDir fl k)

/-! ## The sums of the blur, offset by offset -/

/-- The colour read at `(a, b)` as the specification describes it: the four
stored bytes of the pixel inside the bounds, the zero colour outside. -/
def Canvas.stored (c : Canvas) (a b : Int) : RGBA :=
  if (Point.mk a b).In c.Rect then Canvas.read4 c.Pix (4 * c.pixIdx a b) else ⟨0, 0, 0, 0⟩

/-- What the offset `(dx, dy)` adds to the sums of `BlurPixel` at `(x, y)`
according to the specification: the weight `w dx dy` to the weight sum and
`channel · w dx dy` to each channel sum, where `channel` is `257 ×` the stored
byte of the neighbour `(x + dx, y + dy)` inside the canvas and `0` outside. -/
def offsetStep {F : Type} (fl : Float64Ops F) (c : Canvas) (x y : Int)
    (weight : WeightFunction F) (acc : BlurAcc F) (d : Int × Int) : BlurAcc F :=
  let w := weight.Weight d.1 d.2
  let p := c.stored (x + d.1) (y + d.2)
  ⟨fl.add acc.outR (fl.mul (fl.ofInt ((p.R.val : Int) * 257)) w),
   fl.add acc.outG (fl.mul (fl.ofInt ((p.G.val : Int) * 257)) w),
   fl.add acc.outB (fl.mul (fl.ofInt ((p.B.val : Int) * 257)) w),
   fl.add acc.weightSum w⟩

/-- The sums of `BlurPixel` as the specification describes them: starting from
zero, one `offsetStep` for each offset `(dx, dy)` with `-r ≤ dx, dy ≤ r`, in
the order of the loops. -/
def sumsByOffsets {F : Type} (fl : Float64Ops F) (c : Canvas) (x y r : Int)
    (weight : WeightFunction F) : BlurAcc F :=
  (rectBlock (-r) r (-r) r).foldl (offsetStep fl c x y weight)
    ⟨fl.ofInt 0, fl.ofInt 0, fl.ofInt 0, fl.ofInt 0⟩

/-- The term `channel · w dx dy` of the offset `d` in exact arithmetic, for the
colour channel selected by `ch`. -/
def channelTerm (c : Canvas) (x y : Int) (weight : WeightFunction Rat) (ch : RGBA → Byte)
    (d : Int × Int) : Rat :=
  ((((ch (c.stored (x + d.1) (y + d.2))).val : Int) * 257 : Int) : Rat) * weight.Weight d.1 d.2

/-- The offsets `(dx, dy)` with `-r ≤ dx, dy ≤ r` whose neighbour `(x + dx, y + dy)`
lies inside the canvas. -/
def inBoundsOffsets (c : Canvas) (x y r : Int) : List (Int × Int) :=
  (rectBlock (-r) r (-r) r).filter fun d => decide ((Point.mk (x + d.1) (y + d.2)).In c.Rect)

/-- The sum of the terms `t d` over the offsets `d` of the list `l`, as a loop
computes it: starting from `float64(0)`, one `+=` per offset in list order. -/
def sumOver {F : Type} (fl : Float64Ops F) (l : List (Int × Int)) (t : Int × Int → F) : F :=
  l.foldl (fun a d => fl.add a (t d)) (fl.ofInt 0)

/-- The term `channel · w(dx, dy)` of the offset `d = (dx, dy)` in the sums of
`BlurPixel` at `(x, y)`, for the colour channel selected by `ch`: `channel` is
`257 ×` the byte of the colour read at `(x + dx, y + dy)`. -/
def channelProduct {F : Type} (fl : Float64Ops F) (c : Canvas) (x y : Int)
    (weight : WeightFunction F) (ch : RGBA → Byte) (d : Int × Int) : F :=
  fl.mul (fl.ofInt (((ch (c.stored (x + d.1) (y + d.2))).val : Int) * 257))
    (weight.Weight d.1 d.2)

/-! ## Sample inputs -/

/-- A 2×2 canvas with origin `(0,0)` and all bytes zero. -/
def blank2x2 : Canvas :=
  ⟨[0, 0, 0, 0, 0, 0, 0, 0, 0, 0, 0, 0, 0, 0, 0, 0], 8, ⟨⟨0, 0⟩, ⟨2, 2⟩⟩⟩

/-- A 2×2 canvas with origin `(0,0)` whose bytes are all 7. -/
def sevens2x2 : Canvas :=
  ⟨[7, 7, 7, 7, 7, 7, 7, 7, 7, 7, 7, 7, 7, 7, 7, 7], 8, ⟨⟨0, 0⟩, ⟨2, 2⟩⟩⟩

/-- A 1×1 canvas whose only pixel is `(2⁶³-2, 0)`, all bytes zero. -/
def edge1x1 : Canvas :=
  ⟨[0, 0, 0, 0], 4, ⟨⟨9223372036854775806, 0⟩, ⟨9223372036854775807, 1⟩⟩⟩

/-- A 1×1 canvas whose only pixel is `(2³¹, 2³¹)`, all bytes zero. -/
def corner1x1 : Canvas :=
  ⟨[0, 0, 0, 0], 4, ⟨⟨2147483648, 2147483648⟩, ⟨2147483649, 2147483649⟩⟩⟩

/-- A 3×3 canvas with origin `(0,0)` in which every pixel is `(200, 200, 200, 255)`. -/
def grey3x3 : Canvas :=
  ⟨[200, 200, 200, 255, 200, 200, 200, 255, 200, 200, 200, 255,
    200, 200, 200, 255, 200, 200, 200, 255, 200, 200, 200, 255,
    200, 200, 200, 255, 200, 200, 200, 255, 200, 200, 200, 255], 12, ⟨⟨0, 0⟩, ⟨3, 3⟩⟩⟩

/-- A 1×1 canvas with origin `(0,0)` whose pixel is white, `(255, 255, 255, 255)`. -/
def white1x1 : Canvas := ⟨[255, 255, 255, 255], 4, ⟨⟨0, 0⟩, ⟨1, 1⟩⟩⟩

/-- The constant kernel `Weight(dx, dy) = 1`. -/
def constantKernel : WeightFunction Rat := ⟨fun _ _ => 1⟩

/-- An 8×8 canvas with origin `(0,0)` and all bytes zero. -/
def blank8x8 : Canvas := ⟨List.replicate 256 0, 32, ⟨⟨0, 0⟩, ⟨8, 8⟩⟩⟩

/-- A canvas of width 129 and height 128 with origin `(0,0)` in which every pixel
is `(200, 200, 200, 255)`. -/
def grey129x128 : Canvas :=
  ⟨(List.replicate 16512 [200, 200, 200, 255]).flatten, 516, ⟨⟨0, 0⟩, ⟨129, 128⟩⟩⟩

/-! ## Theorems -/

/-! ### Integers -/

theorem wrap_isInt (z : Int) : IsInt (wrap z) := by
  unfold IsInt wrap intMin intMax
  omega

theorem wrap_of_isInt {z : Int} (h : IsInt z) : wrap z = z := by
  unfold IsInt intMin intMax at h
  unfold wrap
  omega

/-! ### Pixel offsets -/

theorem wf_dims {c : Canvas} (hwf : c.WellFormed) {x y : Int} (hin : (Point.mk x y).In c.Rect) :
    c.Rect.Dx = c.Rect.Max.X - c.Rect.Min.X ∧ c.Rect.Dy = c.Rect.Max.Y - c.Rect.Min.Y ∧
    0 < c.Rect.Max.X - c.Rect.Min.X ∧ 0 < c.Rect.Max.Y - c.Rect.Min.Y ∧
    4 * (c.Rect.Max.X - c.Rect.Min.X) ≤ maxAlloc ∧ 4 * (c.Rect.Max.Y - c.Rect.Min.Y) ≤ maxAlloc := by
  obtain ⟨h1, h2, h3, h4, h5, h6, h7, -, -⟩ := hwf
  obtain ⟨i1, i2, i3, i4⟩ := hin
  simp only [] at i1 i2 i3 i4
  unfold IsInt intMin intMax at h1 h2 h3 h4
  have hx : c.Rect.Dx = c.Rect.Max.X - c.Rect.Min.X := by
    unfold Rectangle.Dx isub wrap at h5 ⊢; omega
  have hy : c.Rect.Dy = c.Rect.Max.Y - c.Rect.Min.Y := by
    unfold Rectangle.Dy isub wrap at h6 ⊢; omega
  rw [hx, hy] at h7
  have px : 0 < c.Rect.Max.X - c.Rect.Min.X := by omega
  have py : 0 < c.Rect.Max.Y - c.Rect.Min.Y := by omega
  unfold maxAlloc at h7 ⊢
  have e1 := Int.mul_le_mul_of_nonneg_left (show 1 ≤ c.Rect.Max.Y - c.Rect.Min.Y by omega)
    (show (0 : Int) ≤ 4 * (c.Rect.Max.X - c.Rect.Min.X) by omega)
  have e2 := Int.mul_le_mul_of_nonneg_right (show 1 ≤ c.Rect.Max.X - c.Rect.Min.X by omega)
    (show (0 : Int) ≤ c.Rect.Max.Y - c.Rect.Min.Y by omega)
  have e3 : 4 * (c.Rect.Max.X - c.Rect.Min.X) * (c.Rect.Max.Y - c.Rect.Min.Y)
      = 4 * ((c.Rect.Max.X - c.Rect.Min.X) * (c.Rect.Max.Y - c.Rect.Min.Y)) := by ring
  refine ⟨hx, hy, px, py, ?_, ?_⟩
  · omega
  · omega

theorem pixOffset_eq {c : Canvas} (hwf : c.WellFormed) {x y : Int}
    (hin : (Point.mk x y).In c.Rect) :
    c.PixOffset x y = ((4 * c.pixIdx x y : Nat) : Int) ∧
      4 * c.pixIdx x y + 4 ≤ c.Pix.length := by
  obtain ⟨hx, hy, px, py, bx, bEy⟩ := wf_dims hwf hin
  obtain ⟨h1, h2, h3, h4, h5, h6, h7, h8, h9, -⟩ := hwf
  obtain ⟨i1, i2, i3, i4⟩ := hin
  simp only [] at i1 i2 i3 i4
  rw [hx] at h8
  rw [hx, hy] at h7 h9
  unfold maxAlloc at h7 bx bEy
  unfold IsInt intMin intMax at h1 h2 h3 h4
  set W := c.Rect.Max.X - c.Rect.Min.X with hW
  set H := c.Rect.Max.Y - c.Rect.Min.Y with hH
  have hrow : 0 ≤ (y - c.Rect.Min.Y) * W := by
    apply mul_nonneg <;> omega
  have hrow2 : (y - c.Rect.Min.Y) * W + W ≤ W * H := by
    have h := Int.mul_le_mul_of_nonneg_right (show y - c.Rect.Min.Y ≤ H - 1 by omega)
      (show (0 : Int) ≤ W by omega)
    have e : (H - 1) * W + W = W * H := by ring
    omega
  have hWH : 4 * (W * H) ≤ 281474976710656 := by
    have e : 4 * W * H = 4 * (W * H) := by ring
    omega
  have hS : c.Stride = 4 * W := by
    rw [h8]; unfold imul wrap; omega
  have hmul : (y - c.Rect.Min.Y) * (4 * W) = 4 * ((y - c.Rect.Min.Y) * W) := by ring
  have hlen : (c.Pix.length : Int) = 4 * (W * H) := by rw [h9]; ring
  have hidx : ((c.pixIdx x y : Nat) : Int) = (y - c.Rect.Min.Y) * W + (x - c.Rect.Min.X) := by
    unfold Canvas.pixIdx
    rw [Int.toNat_of_nonneg]
    show 0 ≤ (y - c.Rect.Min.Y) * W + (x - c.Rect.Min.X)
    omega
  constructor
  · unfold Canvas.PixOffset iadd imul isub
    have e1 : wrap (y - c.Rect.Min.Y) = y - c.Rect.Min.Y := by unfold wrap; omega
    have e2 : wrap (x - c.Rect.Min.X) = x - c.Rect.Min.X := by unfold wrap; omega
    rw [e1, e2, hS, hmul]
    push_cast
    rw [hidx]
    generalize (y - c.Rect.Min.Y) * W = P at *
    unfold wrap
    omega
  · have : ((4 * c.pixIdx x y + 4 : Nat) : Int) ≤ (c.Pix.length : Int) := by
      push_cast
      rw [hidx, hlen]
      generalize (y - c.Rect.Min.Y) * W = P at *
      generalize W * H = Q at *
      omega
    exact_mod_cast this

theorem pixIdx_inj {c : Canvas} {x y x1 y1 : Int}
    (hin : (Point.mk x y).In c.Rect) (hin1 : (Point.mk x1 y1).In c.Rect)
    (h : c.pixIdx x y = c.pixIdx x1 y1) : x = x1 ∧ y = y1 := by
  obtain ⟨i1, i2, i3, i4⟩ := hin
  obtain ⟨j1, j2, j3, j4⟩ := hin1
  simp only [] at i1 i2 i3 i4 j1 j2 j3 j4
  unfold Canvas.pixIdx at h
  set W := c.Rect.Max.X - c.Rect.Min.X with hW
  have hW0 : 0 < W := by omega
  have a1 : 0 ≤ (y - c.Rect.Min.Y) * W := by apply mul_nonneg <;> omega
  have a2 : 0 ≤ (y1 - c.Rect.Min.Y) * W := by apply mul_nonneg <;> omega
  have h2 : (y - c.Rect.Min.Y) * W + (x - c.Rect.Min.X) = (y1 - c.Rect.Min.Y) * W + (x1 - c.Rect.Min.X) := by
    have := congrArg (fun n : Nat => (n : Int)) h
    simp only [] at this
    rw [Int.toNat_of_nonneg (by omega), Int.toNat_of_nonneg (by omega)] at this
    exact this
  have hy : y = y1 := by
    by_contra hne
    rcases lt_or_gt_of_ne hne with hlt | hgt
    · have h := Int.mul_le_mul_of_nonneg_right
        (show y - c.Rect.Min.Y + 1 ≤ y1 - c.Rect.Min.Y by omega) (show (0 : Int) ≤ W by omega)
      have e : (y - c.Rect.Min.Y + 1) * W = (y - c.Rect.Min.Y) * W + W := by ring
      omega
    · have h := Int.mul_le_mul_of_nonneg_right
        (show y1 - c.Rect.Min.Y + 1 ≤ y - c.Rect.Min.Y by omega) (show (0 : Int) ≤ W by omega)
      have e : (y1 - c.Rect.Min.Y + 1) * W = (y1 - c.Rect.Min.Y) * W + W := by ring
      omega
  subst hy
  exact ⟨by omega, rfl⟩


/-! ### Reading and writing four bytes -/


theorem length_write4 (pix : List Byte) (i : Nat) (col : RGBA) :
    (Canvas.write4 pix i col).length = pix.length := by
  simp [Canvas.write4]

theorem read4_write4_same (pix : List Byte) (i : Nat) (col : RGBA)
    (h : i + 4 ≤ pix.length) : Canvas.read4 (Canvas.write4 pix i col) i = col := by
  cases col with
  | mk r g b a =>
    simp only [Canvas.read4, Canvas.write4, List.getD_eq_getElem?_getD, List.getElem?_set,
      List.length_set]
    have h0 : i < pix.length := by omega
    have h1 : i + 1 < pix.length := by omega
    have h2 : i + 2 < pix.length := by omega
    have h3 : i + 3 < pix.length := by omega
    simp [h0, h1, h2, h3]

theorem read4_write4_ne (pix : List Byte) (a b : Nat) (col : RGBA) (h : a ≠ b) :
    Canvas.read4 (Canvas.write4 pix (4 * a) col) (4 * b) = Canvas.read4 pix (4 * b) := by
  simp only [Canvas.read4, Canvas.write4, List.getD_eq_getElem?_getD, List.getElem?_set,
    List.length_set]
  have e : ∀ (p q : Nat), p < 4 → q < 4 → ¬ (4 * a + p = 4 * b + q) := by
    intro p q hp hq; omega
  have e00 := e 0 0 (by omega) (by omega)
  have e01 := e 0 1 (by omega) (by omega)
  have e02 := e 0 2 (by omega) (by omega)
  have e03 := e 0 3 (by omega) (by omega)
  have e10 := e 1 0 (by omega) (by omega)
  have e11 := e 1 1 (by omega) (by omega)
  have e12 := e 1 2 (by omega) (by omega)
  have e13 := e 1 3 (by omega) (by omega)
  have e20 := e 2 0 (by omega) (by omega)
  have e21 := e 2 1 (by omega) (by omega)
  have e22 := e 2 2 (by omega) (by omega)
  have e23 := e 2 3 (by omega) (by omega)
  have e30 := e 3 0 (by omega) (by omega)
  have e31 := e 3 1 (by omega) (by omega)
  have e32 := e 3 2 (by omega) (by omega)
  have e33 := e 3 3 (by omega) (by omega)
  simp only [Nat.add_zero] at e00 e01 e02 e03 e10 e20 e30
  simp [e00, e01, e02, e03, e10, e11, e12, e13, e20, e21, e22, e23, e30, e31, e32, e33]


/-! ### `Set`, `At` and painted regions -/


theorem set_inb {c : Canvas} (hwf : c.WellFormed) {x y : Int}
    (hin : (Point.mk x y).In c.Rect) (col : RGBA) :
    c.Set x y col = some ⟨Canvas.write4 c.Pix (4 * c.pixIdx x y) col, c.Stride, c.Rect⟩ := by
  obtain ⟨ho, hl⟩ := pixOffset_eq hwf hin
  have hl2 : ((4 * c.pixIdx x y : Nat) : Int) + 4 ≤ (c.Pix.length : Int) := by exact_mod_cast hl
  unfold Canvas.Set
  rw [if_pos hin]
  simp only [ho]
  rw [if_pos ⟨Int.ofNat_nonneg _, hl2⟩, Int.toNat_ofNat]

theorem at_inb {c : Canvas} (hwf : c.WellFormed) {x y : Int}
    (hin : (Point.mk x y).In c.Rect) :
    c.At x y = some (Canvas.read4 c.Pix (4 * c.pixIdx x y)) := by
  obtain ⟨ho, hl⟩ := pixOffset_eq hwf hin
  have hl2 : ((4 * c.pixIdx x y : Nat) : Int) + 4 ≤ (c.Pix.length : Int) := by exact_mod_cast hl
  unfold Canvas.At
  rw [if_pos hin]
  simp only [ho]
  rw [if_pos ⟨Int.ofNat_nonneg _, hl2⟩, Int.toNat_ofNat]

theorem at_outside {c : Canvas} {x y : Int} (hout : ¬ (Point.mk x y).In c.Rect) :
    c.At x y = some ⟨0, 0, 0, 0⟩ := by
  unfold Canvas.At
  rw [if_neg hout]

theorem at_total {c : Canvas} (hwf : c.WellFormed) (x y : Int) :
    ∃ col, c.At x y = some col := by
  by_cases hin : (Point.mk x y).In c.Rect
  · exact ⟨_, at_inb hwf hin⟩
  · exact ⟨_, at_outside hin⟩

theorem wellFormed_of_layout {c c1 : Canvas} (hwf : c.WellFormed) (hr : c1.Rect = c.Rect)
    (hs : c1.Stride = c.Stride) (hl : c1.Pix.length = c.Pix.length) : c1.WellFormed := by
  unfold Canvas.WellFormed at hwf ⊢
  rw [hr, hs, hl]
  exact hwf

theorem painted_refl {c : Canvas} (hwf : c.WellFormed) (f : Int → Int → RGBA) :
    Painted c c (fun _ _ => False) f :=
  ⟨hwf, rfl, rfl, rfl, fun _ _ _ h => h.elim, fun _ _ _ => rfl⟩

theorem painted_trans {c c1 c2 : Canvas} {S T : Int → Int → Prop} {f : Int → Int → RGBA}
    (h1 : Painted c c1 S f) (h2 : Painted c1 c2 T f) :
    Painted c c2 (fun x y => S x y ∨ T x y) f := by
  obtain ⟨-, r1, s1, l1, p1, q1⟩ := h1
  obtain ⟨w2, r2, s2, l2, p2, q2⟩ := h2
  refine ⟨w2, r2.trans r1, s2.trans s1, l2.trans l1, ?_, ?_⟩
  · intro x y hin hST
    by_cases hT : T x y
    · exact p2 x y (r1 ▸ hin) hT
    · rw [q2 x y (fun h => hT h.2)]
      rcases hST with hS | hT1
      · exact p1 x y hin hS
      · exact absurd hT1 hT
  · intro x y hn
    rw [q2 x y (fun h => hn ⟨r1 ▸ h.1, Or.inr h.2⟩)]
    exact q1 x y (fun h => hn ⟨h.1, Or.inl h.2⟩)

theorem painted_congr {c c1 : Canvas} {S T : Int → Int → Prop} {f : Int → Int → RGBA}
    (h : Painted c c1 S f) (hST : ∀ x y, (Point.mk x y).In c.Rect → (S x y ↔ T x y)) :
    Painted c c1 T f := by
  obtain ⟨w, r, s, l, p, q⟩ := h
  refine ⟨w, r, s, l, ?_, ?_⟩
  · intro x y hin hT
    exact p x y hin ((hST x y hin).2 hT)
  · intro x y hn
    exact q x y (fun h => hn ⟨h.1, (hST x y h.1).1 h.2⟩)

theorem set_painted {c : Canvas} (hwf : c.WellFormed) (x y : Int) (col : RGBA)
    (f : Int → Int → RGBA) (hf : f x y = col) :
    ∃ c1, c.Set x y col = some c1 ∧ Painted c c1 (fun a b => a = x ∧ b = y) f := by
  by_cases hin : (Point.mk x y).In c.Rect
  · refine ⟨_, set_inb hwf hin col, ?_⟩
    have hw1 : (Canvas.mk (Canvas.write4 c.Pix (4 * c.pixIdx x y) col) c.Stride c.Rect).WellFormed :=
      wellFormed_of_layout hwf rfl rfl (length_write4 _ _ _)
    refine ⟨hw1, rfl, rfl, length_write4 _ _ _, ?_, ?_⟩
    · rintro a b hab ⟨rfl, rfl⟩
      rw [at_inb hw1 hab]
      show some (Canvas.read4 (Canvas.write4 c.Pix (4 * c.pixIdx a b) col) (4 * c.pixIdx a b)) = _
      rw [read4_write4_same _ _ _ (pixOffset_eq hwf hin).2, hf]
    · intro a b hn
      by_cases hab : (Point.mk a b).In c.Rect
      · rw [at_inb hw1 hab, at_inb hwf hab]
        show some (Canvas.read4 (Canvas.write4 c.Pix (4 * c.pixIdx x y) col) (4 * c.pixIdx a b)) = _
        have hne : c.pixIdx x y ≠ c.pixIdx a b := by
          intro he
          obtain ⟨e1, e2⟩ := pixIdx_inj hin hab he
          exact hn ⟨hab, e1.symm, e2.symm⟩
        rw [read4_write4_ne _ _ _ _ hne]
      · rw [at_outside hab]
        exact at_outside (c := Canvas.mk _ c.Stride c.Rect) hab
  · have hs : c.Set x y col = some c := by
      unfold Canvas.Set; rw [if_neg hin]
    refine ⟨c, hs, hwf, rfl, rfl, rfl, ?_, fun _ _ _ => rfl⟩
    rintro a b hab ⟨rfl, rfl⟩
    exact absurd hab hin

theorem forEach_painted {b : Int → Canvas → Option Canvas} {S : Int → Int → Int → Prop}
    {f : Int → Int → RGBA} (xs : List Int) :
    ∀ (c : Canvas), c.WellFormed →
    (∀ i ∈ xs, ∀ c0 : Canvas, c0.WellFormed → c0.Rect = c.Rect →
      ∃ c1, b i c0 = some c1 ∧ Painted c0 c1 (S i) f) →
    ∃ c1, forEach b xs c = some c1 ∧ Painted c c1 (fun x y => ∃ i ∈ xs, S i x y) f := by
  induction xs with
  | nil =>
    intro c hwf _
    refine ⟨c, rfl, painted_congr (painted_refl hwf f) ?_⟩
    intro x y _
    simp
  | cons i is ih =>
    intro c hwf hbody
    obtain ⟨c1, hb, hp⟩ := hbody i (List.mem_cons_self _ _) c hwf rfl
    obtain ⟨c2, hb2, hp2⟩ := ih c1 hp.1 (fun j hj c0 hw0 hr0 =>
      hbody j (List.mem_cons_of_mem _ hj) c0 hw0 (hr0.trans hp.2.1))
    refine ⟨c2, ?_, painted_congr (painted_trans hp hp2) ?_⟩
    · show (b i c).bind (forEach b is) = some c2
      rw [hb]; exact hb2
    · intro x y _
      simp only [List.mem_cons]
      constructor
      · rintro (h | ⟨j, hj, h⟩)
        · exact ⟨i, Or.inl rfl, h⟩
        · exact ⟨j, Or.inr hj, h⟩
      · rintro ⟨j, hj | hj, h⟩
        · exact Or.inl (hj ▸ h)
        · exact Or.inr ⟨j, hj, h⟩

theorem mem_intRange {lo hi i : Int} : i ∈ intRange lo hi ↔ lo ≤ i ∧ i < hi := by
  unfold intRange
  simp only [List.mem_map, List.mem_range]
  constructor
  · rintro ⟨k, hk, rfl⟩
    omega
  · rintro ⟨h1, h2⟩
    exact ⟨(i - lo).toNat, by omega, by omega⟩


/-! ### Nested loops and the gradient -/


theorem forEach2_painted {g : Int → Int → Canvas → Option Canvas}
    {S : Int → Int → Int → Int → Prop} {f : Int → Int → RGBA} (xs ys : List Int)
    (c : Canvas) (hwf : c.WellFormed)
    (h : ∀ x ∈ xs, ∀ y ∈ ys, ∀ c0 : Canvas, c0.WellFormed → c0.Rect = c.Rect →
      ∃ c1, g x y c0 = some c1 ∧ Painted c0 c1 (S x y) f) :
    ∃ c1, forEach (fun x c => forEach (fun y c => g x y c) ys c) xs c = some c1 ∧
      Painted c c1 (fun a b => ∃ x ∈ xs, ∃ y ∈ ys, S x y a b) f := by
  apply forEach_painted xs c hwf
  intro x hx c0 hw0 hr0
  apply forEach_painted ys c0 hw0
  intro y hy c2 hw2 hr2
  exact h x hx y hy c2 hw2 (hr2.trans hr0)

theorem toUint8_val {q : Int} (h0 : 0 ≤ q) (h1 : q < 256) : ((toUint8 q).val : Int) = q := by
  unfold toUint8
  show (((q % 256).toNat : Nat) : Int) = q
  omega

theorem gradient_channel {x W : Int} (h0 : 0 ≤ x) (h1 : x < W) (hW : 4 * W ≤ maxAlloc) :
    ((toUint8 (idiv (imul 255 x) W)).val : Int) = 255 * x / W := by
  unfold maxAlloc at hW
  have e1 : imul 255 x = 255 * x := by unfold imul wrap; omega
  have hq0 : 0 ≤ 255 * x / W := Int.ediv_nonneg (by omega) (by omega)
  have hq1 : 255 * x / W < 255 := Int.ediv_lt_of_lt_mul (by omega) (by omega)
  have e2 : Int.tdiv (255 * x) W = 255 * x / W := Int.tdiv_eq_ediv (by omega) (by omega)
  have e3 : idiv (imul 255 x) W = 255 * x / W := by
    unfold idiv; rw [e1, e2]; unfold wrap; omega
  rw [e3]
  exact toUint8_val hq0 (by omega)

/-- The size of the bounds of a well-formed canvas with origin `(0,0)`. -/
theorem size_of_origin {c : Canvas} {W H : Int} (hwf : c.WellFormed)
    (hrect : c.Rect = ⟨⟨0, 0⟩, ⟨W, H⟩⟩) : c.Bounds.Size = ⟨W, H⟩ := by
  obtain ⟨-, -, h3, h4, -⟩ := hwf
  rw [hrect] at h3 h4
  unfold Canvas.Bounds Rectangle.Size isub
  rw [hrect]
  simp only [sub_zero]
  rw [wrap_of_isInt h3, wrap_of_isInt h4]

theorem gradient_painted (c : Canvas) (W H : Int) (hwf : c.WellFormed)
    (hrect : c.Rect = ⟨⟨0, 0⟩, ⟨W, H⟩⟩) :
    ∃ c1, c.DrawGradient = some c1 ∧
      Painted c c1 (fun _ _ => True)
        (fun x y => ⟨toUint8 (idiv (imul 255 x) W), toUint8 (idiv (imul 255 y) H), 155, 255⟩) := by
  unfold Canvas.DrawGradient forLT
  rw [size_of_origin hwf hrect]
  obtain ⟨c1, h1, hp⟩ := forEach2_painted
    (g := fun x y c => c.Set x y
      ⟨toUint8 (idiv (imul 255 x) W), toUint8 (idiv (imul 255 y) H), 155, 255⟩)
    (S := fun x y a b => a = x ∧ b = y)
    (f := fun x y => ⟨toUint8 (idiv (imul 255 x) W), toUint8 (idiv (imul 255 y) H), 155, 255⟩)
    (intRange 0 W) (intRange 0 H) c hwf
    (fun x _ y _ c0 hw0 _ => set_painted hw0 x y _ _ rfl)
  refine ⟨c1, h1, painted_congr hp ?_⟩
  intro x y hin
  rw [hrect] at hin
  obtain ⟨i1, i2, i3, i4⟩ := hin
  simp only [] at i1 i2 i3 i4
  simp only [iff_true]
  exact ⟨x, mem_intRange.2 ⟨i1, i2⟩, y, mem_intRange.2 ⟨i3, i4⟩, rfl, rfl⟩

/-! ### Blur -/


theorem forEach_total {σ : Type} {body : Int → σ → Option σ}
    (h : ∀ i s, ∃ s1, body i s = some s1) (xs : List Int) :
    ∀ s, ∃ s1, forEach body xs s = some s1 := by
  induction xs with
  | nil => intro s; exact ⟨s, rfl⟩
  | cons i is ih =>
    intro s
    obtain ⟨s1, h1⟩ := h i s
    obtain ⟨s2, h2⟩ := ih s1
    exact ⟨s2, by show (body i s).bind (forEach body is) = some s2; rw [h1]; exact h2⟩

theorem blurSums_total {F : Type} (fl : Float64Ops F) {c : Canvas} (hwf : c.WellFormed)
    (x y radius : Int) (weight : WeightFunction F) :
    ∃ acc, blurSums fl c x y radius weight = some acc := by
  unfold blurSums forLT
  apply forEach_total
  intro i acc
  apply forEach_total
  intro j acc1
  obtain ⟨p, hp⟩ := at_total hwf i j
  unfold blurStep
  rw [hp]
  exact ⟨_, rfl⟩

theorem blurPixel_total {F : Type} (fl : Float64Ops F) {c : Canvas} (hwf : c.WellFormed)
    (x y radius : Int) (weight : WeightFunction F) :
    ∃ col, c.BlurPixel fl x y radius weight = some col ∧ col.A = 255 := by
  obtain ⟨acc, h⟩ := blurSums_total fl hwf x y radius weight
  unfold Canvas.BlurPixel
  rw [h]
  exact ⟨_, rfl, rfl⟩

theorem blurPixel_alpha {F : Type} (fl : Float64Ops F) (c : Canvas)
    (x y radius : Int) (weight : WeightFunction F) (col : RGBA)
    (h : c.BlurPixel fl x y radius weight = some col) : col.A = 255 := by
  unfold Canvas.BlurPixel at h
  cases hs : blurSums fl c x y radius weight with
  | none => rw [hs] at h; cases h
  | some acc =>
    rw [hs] at h
    simp only [Option.some_bind, Option.some.injEq] at h
    rw [← h]

theorem copy_of_length_eq (dst src : List Byte) (h : dst.length = src.length) :
    copy dst src = src := by
  unfold copy
  rw [h, List.take_length, List.drop_eq_nil_of_le (by omega), List.append_nil]

theorem mul3NonNeg_of_fits {w h : Int} (hw : 0 ≤ w) (hh : 0 ≤ h)
    (h4 : 4 * w < 18446744073709551616) (ha : 4 * w * h ≤ maxAlloc) :
    mul3NonNeg 4 w h = 4 * w * h := by
  unfold maxAlloc at ha
  unfold mul3NonNeg intMax
  rw [if_neg (by omega), if_neg (by omega), if_neg (by omega), if_neg (by omega)]

theorem newRGBA_of_fits {r : Rectangle} (hw : 0 ≤ r.Dx) (hh : 0 ≤ r.Dy)
    (h4 : 4 * r.Dx < 18446744073709551616) (ha : 4 * r.Dx * r.Dy ≤ maxAlloc) :
    NewRGBA r = some ⟨List.replicate (4 * r.Dx * r.Dy).toNat 0, imul 4 r.Dx, r⟩ := by
  have h0 : 0 ≤ 4 * r.Dx * r.Dy := by positivity
  unfold NewRGBA
  simp only []
  rw [mul3NonNeg_of_fits hw hh h4 ha, if_neg (by omega), if_neg (by omega)]

theorem clone_of_wellFormed {c : Canvas} (hwf : c.WellFormed) : c.Clone = some c := by
  obtain ⟨-, -, -, -, h5, h6, h7, h8, h9, h10⟩ := hwf
  unfold Canvas.Clone NewCanvas Canvas.Bounds
  rw [newRGBA_of_fits h5 h6 h10 h7]
  simp only [Option.some_bind]
  have hl : (List.replicate (4 * c.Rect.Dx * c.Rect.Dy).toNat (0 : Byte)).length = c.Pix.length := by
    rw [List.length_replicate]
    omega
  rw [copy_of_length_eq _ _ hl, ← h8]

theorem blur_painted_region {F : Type} (fl : Float64Ops F) (c : Canvas) (hwf : c.WellFormed)
    (radius : Int) (weight : WeightFunction F) :
    ∃ c1, c.Blur fl radius weight = some c1 ∧
      Painted c c1
        (fun a b => a ∈ intRange 0 c.Bounds.Size.X ∧ b ∈ intRange 0 c.Bounds.Size.Y)
        (fun x y => (c.BlurPixel fl x y radius weight).getD ⟨0, 0, 0, 0⟩) := by
  unfold Canvas.Blur forLT
  rw [clone_of_wellFormed hwf]
  simp only [Option.some_bind]
  obtain ⟨c1, h1, hp⟩ := forEach2_painted
    (g := fun x y clone => (c.BlurPixel fl x y radius weight).bind fun col => clone.Set x y col)
    (S := fun x y a b => a = x ∧ b = y)
    (f := fun x y => (c.BlurPixel fl x y radius weight).getD ⟨0, 0, 0, 0⟩)
    (intRange 0 c.Bounds.Size.X) (intRange 0 c.Bounds.Size.Y) c hwf
    (fun x _ y _ c0 hw0 _ => by
      obtain ⟨col, hc, -⟩ := blurPixel_total fl hwf x y radius weight
      simp only [hc, Option.some_bind]
      exact set_painted hw0 x y col _ (by simp [hc]))
  rw [h1]
  simp only [Option.some_bind]
  have e : (Canvas.mk (copy c.Pix c1.Pix) c.Stride c.Rect) = c1 := by
    obtain ⟨-, r, s, l, -, -⟩ := hp
    rw [copy_of_length_eq _ _ l.symm, ← r, ← s]
  rw [e]
  refine ⟨c1, rfl, painted_congr hp ?_⟩
  intro a b _
  constructor
  · rintro ⟨x, hx, y, hy, rfl, rfl⟩
    exact ⟨hx, hy⟩
  · rintro ⟨ha, hb⟩
    exact ⟨a, ha, b, hb, rfl, rfl⟩

theorem blur_painted {F : Type} (fl : Float64Ops F) (c : Canvas) (W H : Int)
    (hwf : c.WellFormed) (hrect : c.Rect = ⟨⟨0, 0⟩, ⟨W, H⟩⟩) (radius : Int)
    (weight : WeightFunction F) :
    ∃ c1, c.Blur fl radius weight = some c1 ∧
      Painted c c1 (fun _ _ => True)
        (fun x y => (c.BlurPixel fl x y radius weight).getD ⟨0, 0, 0, 0⟩) := by
  obtain ⟨c1, h1, hp⟩ := blur_painted_region fl c hwf radius weight
  refine ⟨c1, h1, painted_congr hp ?_⟩
  intro x y hin
  rw [size_of_origin hwf hrect]
  rw [hrect] at hin
  obtain ⟨i1, i2, i3, i4⟩ := hin
  simp only [] at i1 i2 i3 i4
  simp only [iff_true]
  exact ⟨mem_intRange.2 ⟨i1, i2⟩, mem_intRange.2 ⟨i3, i4⟩⟩

/-! ### Discs -/


theorem abs_bound_of_sq_le {d r : Int} (hr : 0 ≤ r) (h : d * d ≤ r * r) : -r ≤ d ∧ d ≤ r := by
  constructor <;> nlinarith

theorem sq_le_of_abs_bound {d r : Int} (h1 : -r ≤ d) (h2 : d ≤ r) : d * d ≤ r * r := by
  nlinarith

theorem drawCircle_painted {F : Type} (fl : Float64Ops F) {c : Canvas} (hwf : c.WellFormed)
    (color : RGBA) (center : Vector F) (radius : Int) (hr : radius ≠ intMax) :
    ∃ c1, c.DrawCircle fl color center radius = some c1 ∧
      Painted c c1
        (fun a b => ∃ x ∈ intRange (ineg radius) (radius + 1),
          ∃ y ∈ intRange (ineg radius) (radius + 1),
            iadd (imul x x) (imul y y) ≤ imul radius radius ∧
              a = iadd (fl.toInt center.X) x ∧ b = iadd (fl.toInt center.Y) y)
        (fun _ _ => color) := by
  unfold Canvas.DrawCircle forLE
  have hne : ¬ (ineg radius ≤ radius ∧ radius = intMax) := fun h => hr h.2
  simp only [if_neg hne]
  apply forEach2_painted _ _ c hwf
  intro x _ y _ c0 hw0 _
  by_cases hc : iadd (imul x x) (imul y y) ≤ imul radius radius
  · simp only [if_pos hc]
    obtain ⟨c1, h1, hp⟩ := set_painted hw0 (iadd (fl.toInt center.X) x)
      (iadd (fl.toInt center.Y) y) color (fun _ _ => color) rfl
    refine ⟨c1, h1, painted_congr hp ?_⟩
    intro a b _
    simp only [hc, true_and]
  · simp only [if_neg hc]
    refine ⟨c0, rfl, painted_congr (painted_refl hw0 _) ?_⟩
    intro a b _
    simp only [hc, false_and]

/-- Without overflow the test of `DrawCircle` is the test on the integers. -/
theorem circle_test_exact {x y r : Int} (hr : 2 * (r * r) ≤ intMax)
    (hx1 : -r ≤ x) (hx2 : x ≤ r) (hy1 : -r ≤ y) (hy2 : y ≤ r) :
    (iadd (imul x x) (imul y y) ≤ imul r r) ↔ x * x + y * y ≤ r * r := by
  have hxx := sq_le_of_abs_bound hx1 hx2
  have hyy := sq_le_of_abs_bound hy1 hy2
  have px : 0 ≤ x * x := mul_self_nonneg x
  have py : 0 ≤ y * y := mul_self_nonneg y
  unfold intMax at hr
  have e1 : imul x x = x * x := by
    unfold imul wrap; generalize x * x = p at *; generalize r * r = q at *; omega
  have e2 : imul y y = y * y := by
    unfold imul wrap; generalize y * y = p at *; generalize r * r = q at *; omega
  have e3 : imul r r = r * r := by
    unfold imul wrap; generalize r * r = q at *; omega
  have e4 : iadd (x * x) (y * y) = x * x + y * y := by
    unfold iadd wrap
    generalize x * x = p at *; generalize y * y = p1 at *; generalize r * r = q at *; omega
  rw [e1, e2, e3, e4]



theorem forEach_singleton {σ : Type} (body : Int → σ → Option σ) (i : Int) (s : σ) :
    forEach body [i] s = body i s := by
  show (body i s).bind (forEach body []) = body i s
  cases body i s <;> rfl

theorem intRange_empty {lo hi : Int} (h : hi ≤ lo) : intRange lo hi = [] := by
  unfold intRange
  have : (hi - lo).toNat = 0 := by omega
  rw [this]
  rfl

theorem drawCircle_zero {F : Type} (fl : Float64Ops F) (c : Canvas) (color : RGBA)
    (center : Vector F) :
    c.DrawCircle fl color center 0 = c.Set (fl.toInt center.X) (fl.toInt center.Y) color := by
  have e0 : ineg 0 = 0 := by decide
  have e1 : intRange 0 (0 + 1) = [0] := by decide
  have e2 : ¬ ((0 : Int) ≤ 0 ∧ (0 : Int) = intMax) := by decide
  have e3 : iadd (imul 0 0) (imul 0 0) ≤ imul 0 0 := by decide
  have ex : iadd (fl.toInt center.X) 0 = fl.toInt center.X := by
    unfold iadd; rw [add_zero]; exact wrap_of_isInt (fl.toInt_isInt _)
  have ey : iadd (fl.toInt center.Y) 0 = fl.toInt center.Y := by
    unfold iadd; rw [add_zero]; exact wrap_of_isInt (fl.toInt_isInt _)
  unfold Canvas.DrawCircle forLE
  simp only [e0, e1, if_neg e2, forEach_singleton, if_pos e3, ex, ey]

theorem drawCircle_negative {F : Type} (fl : Float64Ops F) (c : Canvas) (color : RGBA)
    (center : Vector F) (r : Int) (h1 : intMin < r) (h2 : r < 0) :
    c.DrawCircle fl color center r = some c ∧ intRange (ineg r) (r + 1) = [] := by
  have hneg : ineg r = -r := by
    unfold intMin at h1; unfold ineg wrap; omega
  have hemp : intRange (ineg r) (r + 1) = [] := intRange_empty (by omega)
  have hne : ¬ (ineg r ≤ r ∧ r = intMax) := by
    intro h; omega
  refine ⟨?_, hemp⟩
  unfold Canvas.DrawCircle forLE
  rw [if_neg hne, hemp]
  rfl

/-! ### Every operation keeps the shape of the canvas -/

theorem sameShape_of_painted {c c1 : Canvas} {S : Int → Int → Prop} {f : Int → Int → RGBA}
    (h : Painted c c1 S f) : SameShape c c1 :=
  ⟨h.1, h.2.1, h.2.2.1, h.2.2.2.1⟩

theorem sameShape_refl {c : Canvas} (hwf : c.WellFormed) : SameShape c c := ⟨hwf, rfl, rfl, rfl⟩

theorem sameShape_trans {c c1 c2 : Canvas} (h1 : SameShape c c1) (h2 : SameShape c1 c2) :
    SameShape c c2 :=
  ⟨h2.1, h2.2.1.trans h1.2.1, h2.2.2.1.trans h1.2.2.1, h2.2.2.2.trans h1.2.2.2⟩

theorem set_shape {c : Canvas} (hwf : c.WellFormed) (x y : Int) (col : RGBA) :
    ∃ c1, c.Set x y col = some c1 ∧ SameShape c c1 := by
  obtain ⟨c1, h1, hp⟩ := set_painted hwf x y col (fun _ _ => col) rfl
  exact ⟨c1, h1, sameShape_of_painted hp⟩

theorem drawGradient_shape {c : Canvas} (hwf : c.WellFormed) :
    ∃ c1, c.DrawGradient = some c1 ∧ SameShape c c1 := by
  unfold Canvas.DrawGradient forLT
  obtain ⟨c1, h1, hp⟩ := forEach2_painted
    (g := fun x y c0 => c0.Set x y
      ⟨toUint8 (idiv (imul 255 x) c.Bounds.Size.X), toUint8 (idiv (imul 255 y) c.Bounds.Size.Y),
        155, 255⟩)
    (S := fun x y a b => a = x ∧ b = y)
    (f := fun x y => ⟨toUint8 (idiv (imul 255 x) c.Bounds.Size.X),
      toUint8 (idiv (imul 255 y) c.Bounds.Size.Y), 155, 255⟩)
    (intRange 0 c.Bounds.Size.X) (intRange 0 c.Bounds.Size.Y) c hwf
    (fun x _ y _ c0 hw0 _ => set_painted hw0 x y _ _ rfl)
  exact ⟨c1, h1, sameShape_of_painted hp⟩

theorem drawLine_shape {F : Type} (fl : Float64Ops F) {c : Canvas} (hwf : c.WellFormed)
    (col : RGBA) (from_ to_ : Vector F) :
    ∃ c1, c.DrawLine fl col from_ to_ = some c1 ∧ SameShape c c1 := by
  unfold Canvas.DrawLine forLT
  simp only []
  obtain ⟨c1, h1, hp⟩ := forEach_painted
    (b := fun i c0 => c0.Set
      (fl.toInt (fl.add from_.X (fl.mul (fl.ofInt i)
        (fl.div (to_.Sub fl from_).X ((to_.Sub fl from_).Length fl)))))
      (fl.toInt (fl.add from_.Y (fl.mul (fl.ofInt i)
        (fl.div (to_.Sub fl from_).Y ((to_.Sub fl from_).Length fl))))) col)
    (S := fun i a b =>
      a = fl.toInt (fl.add from_.X (fl.mul (fl.ofInt i)
        (fl.div (to_.Sub fl from_).X ((to_.Sub fl from_).Length fl)))) ∧
      b = fl.toInt (fl.add from_.Y (fl.mul (fl.ofInt i)
        (fl.div (to_.Sub fl from_).Y ((to_.Sub fl from_).Length fl)))))
    (f := fun _ _ => col)
    (intRange 0 (fl.toInt (fl.add ((to_.Sub fl from_).Length fl) (fl.ofRat (1 / 2))))) c hwf
    (fun i _ c0 hw0 _ => set_painted hw0 _ _ col _ rfl)
  exact ⟨c1, h1, sameShape_of_painted hp⟩

theorem forEach_inv {σ : Type} {b : Int → σ → Option σ} (P : σ → Prop)
    (h : ∀ i s, P s → ∃ s1, b i s = some s1 ∧ P s1) (xs : List Int) :
    ∀ s, P s → ∃ s1, forEach b xs s = some s1 ∧ P s1 := by
  induction xs with
  | nil => intro s hs; exact ⟨s, rfl, hs⟩
  | cons i is ih =>
    intro s hs
    obtain ⟨s1, h1, hp1⟩ := h i s hs
    obtain ⟨s2, h2, hp2⟩ := ih s1 hp1
    exact ⟨s2, by show (b i s).bind (forEach b is) = some s2; rw [h1]; exact h2, hp2⟩

theorem drawSpiral_shape {F : Type} (fl : Float64Ops F) {c : Canvas} (hwf : c.WellFormed)
    (col : RGBA) (start : Vector F) :
    ∃ c1, c.DrawSpiral fl col start = some c1 ∧ SameShape c c1 := by
  unfold Canvas.DrawSpiral forLT
  obtain ⟨s1, h1, hp⟩ := forEach_inv (b := fun _ s => spiralStep fl col s)
    (fun s : SpiralState F => SameShape c s.canvas)
    (fun i s hs => by
      obtain ⟨c1, hl, hsh⟩ := drawLine_shape fl hs.1 col s.last (s.last.Add fl s.dir)
      unfold spiralStep
      simp only [hl, Option.some_bind]
      exact ⟨_, rfl, sameShape_trans hs hsh⟩)
    (intRange 0 10000) ⟨c, ⟨fl.ofInt 0, fl.ofInt 5⟩, start⟩ (sameShape_refl hwf)
  rw [h1]
  exact ⟨s1.canvas, rfl, hp⟩

theorem drawCircle_shape {F : Type} (fl : Float64Ops F) {c : Canvas} (hwf : c.WellFormed)
    (color : RGBA) (center : Vector F) (radius : Int) :
    (radius ≠ intMax → ∃ c1, c.DrawCircle fl color center radius = some c1) ∧
    ∀ c1, c.DrawCircle fl color center radius = some c1 → SameShape c c1 := by
  by_cases hr : radius = intMax
  · refine ⟨fun h => absurd hr h, ?_⟩
    intro c1 h
    have hle : ineg radius ≤ radius := by rw [hr]; decide
    unfold Canvas.DrawCircle forLE at h
    rw [if_pos ⟨hle, hr⟩] at h
    cases h
  · obtain ⟨c1, h1, hp⟩ := drawCircle_painted fl hwf color center radius hr
    refine ⟨fun _ => ⟨c1, h1⟩, ?_⟩
    intro c2 h2
    rw [h1] at h2
    cases h2
    exact sameShape_of_painted hp

theorem drawRect_painted {F : Type} (fl : Float64Ops F) {c : Canvas} (hwf : c.WellFormed)
    (col : RGBA) (from_ to_ : Vector F) (hx : fl.toInt to_.X ≠ intMax)
    (hy : fl.toInt to_.Y ≠ intMax) :
    ∃ c1, c.DrawRect fl col from_ to_ = some c1 ∧
      Painted c c1
        (fun a b => a ∈ intRange (fl.toInt from_.X) (fl.toInt to_.X + 1) ∧
          b ∈ intRange (fl.toInt from_.Y) (fl.toInt to_.Y + 1))
        (fun _ _ => col) := by
  unfold Canvas.DrawRect forLE
  have hnx : ¬ (fl.toInt from_.X ≤ fl.toInt to_.X ∧ fl.toInt to_.X = intMax) := fun h => hx h.2
  have hny : ¬ (fl.toInt from_.Y ≤ fl.toInt to_.Y ∧ fl.toInt to_.Y = intMax) := fun h => hy h.2
  simp only [if_neg hnx, if_neg hny]
  obtain ⟨c1, h1, hp⟩ := forEach2_painted
    (g := fun x y c0 => c0.Set x y col) (S := fun x y a b => a = x ∧ b = y)
    (f := fun _ _ => col)
    (intRange (fl.toInt from_.X) (fl.toInt to_.X + 1))
    (intRange (fl.toInt from_.Y) (fl.toInt to_.Y + 1)) c hwf
    (fun x _ y _ c0 hw0 _ => set_painted hw0 x y col _ rfl)
  refine ⟨c1, h1, painted_congr hp ?_⟩
  intro a b _
  constructor
  · rintro ⟨x, hx, y, hy, rfl, rfl⟩
    exact ⟨hx, hy⟩
  · rintro ⟨ha, hb⟩
    exact ⟨a, ha, b, hb, rfl, rfl⟩

theorem forEach_none {σ : Type} (xs : List Int) (s : σ) :
    forEach (fun _ _ => (none : Option σ)) xs s = some s ∨
      forEach (fun _ _ => (none : Option σ)) xs s = none := by
  cases xs with
  | nil => exact Or.inl rfl
  | cons i is => exact Or.inr rfl

theorem drawRect_shape {F : Type} (fl : Float64Ops F) {c : Canvas} (hwf : c.WellFormed)
    (col : RGBA) (from_ to_ : Vector F) :
    (fl.toInt to_.X ≠ intMax → fl.toInt to_.Y ≠ intMax →
      ∃ c1, c.DrawRect fl col from_ to_ = some c1) ∧
    ∀ c1, c.DrawRect fl col from_ to_ = some c1 → SameShape c c1 := by
  constructor
  · intro hx hy
    obtain ⟨c1, h1, -⟩ := drawRect_painted fl hwf col from_ to_ hx hy
    exact ⟨c1, h1⟩
  · intro c1 h
    by_cases hx : fl.toInt to_.X = intMax
    · have hle : fl.toInt from_.X ≤ fl.toInt to_.X := by
        rw [hx]; exact (fl.toInt_isInt _).2
      unfold Canvas.DrawRect forLE at h
      rw [if_pos ⟨hle, hx⟩] at h
      cases h
    · by_cases hy : fl.toInt to_.Y = intMax
      · have hle : fl.toInt from_.Y ≤ fl.toInt to_.Y := by
          rw [hy]; exact (fl.toInt_isInt _).2
        unfold Canvas.DrawRect forLE at h
        simp only [if_pos (And.intro hle hy)] at h
        rw [if_neg (fun h => hx h.2)] at h
        rcases forEach_none (intRange (fl.toInt from_.X) (fl.toInt to_.X + 1)) c with h0 | h0
        · rw [h0] at h
          cases h
          exact sameShape_refl hwf
        · rw [h0] at h
          cases h
      · obtain ⟨c2, h2, hp⟩ := drawRect_painted fl hwf col from_ to_ hx hy
        rw [h2] at h
        cases h
        exact sameShape_of_painted hp

/-! ### `NewCanvas`, reachable canvases and clones in the heap -/

theorem newCanvas_spec {r : Rectangle} (hw : 0 ≤ r.Dx) (hh : 0 ≤ r.Dy)
    (h4 : 4 * r.Dx < 18446744073709551616) (ha : 4 * r.Dx * r.Dy ≤ maxAlloc) :
    NewCanvas r = some ⟨List.replicate (4 * r.Dx * r.Dy).toNat 0, imul 4 r.Dx, r⟩ :=
  newRGBA_of_fits hw hh h4 ha

theorem newCanvas_fits {r : Rectangle} {c : Canvas} (h : NewCanvas r = some c) :
    0 ≤ r.Dx ∧ 0 ≤ r.Dy ∧ 4 * r.Dx < 18446744073709551616 ∧ 4 * r.Dx * r.Dy ≤ maxAlloc := by
  unfold NewCanvas NewRGBA at h
  simp only [] at h
  by_cases hneg : mul3NonNeg 4 r.Dx r.Dy < 0
  · rw [if_pos hneg] at h
    cases h
  · rw [if_neg hneg] at h
    by_cases hbig : maxAlloc < mul3NonNeg 4 r.Dx r.Dy
    · rw [if_pos hbig] at h
      cases h
    · unfold mul3NonNeg at hneg hbig
      unfold maxAlloc at hbig ⊢
      split_ifs at hneg hbig with g1 g2 g3 g4
      all_goals omega

theorem newCanvas_wellFormed {r : Rectangle} {c : Canvas} (hr : r.Representable)
    (h : NewCanvas r = some c) : c.WellFormed := by
  obtain ⟨h1, h2, h3, h4⟩ := newCanvas_fits h
  rw [newCanvas_spec h1 h2 h3 h4] at h
  cases h
  refine ⟨hr.1, hr.2.1, hr.2.2.1, hr.2.2.2, h1, h2, h4, rfl, ?_, h3⟩
  show ((List.replicate (4 * r.Dx * r.Dy).toNat (0 : Byte)).length : Int) = 4 * r.Dx * r.Dy
  rw [List.length_replicate]
  have : 0 ≤ 4 * r.Dx * r.Dy := by positivity
  omega

theorem built_wellFormed {F : Type} {fl : Float64Ops F} {c : Canvas} (h : Built fl c) :
    c.WellFormed := by
  induction h with
  | newCanvas r c hr hn => exact newCanvas_wellFormed hr hn
  | clone c c1 _ hc ih =>
    rw [clone_of_wellFormed ih] at hc
    cases hc
    exact ih
  | set c c1 x y col _ hs ih =>
    obtain ⟨c2, h2, hsh⟩ := set_shape ih x y col
    rw [h2] at hs; cases hs; exact hsh.1
  | drawGradient c c1 _ hs ih =>
    obtain ⟨c2, h2, hsh⟩ := drawGradient_shape ih
    rw [h2] at hs; cases hs; exact hsh.1
  | drawLine c c1 col from_ to_ _ hs ih =>
    obtain ⟨c2, h2, hsh⟩ := drawLine_shape fl ih col from_ to_
    rw [h2] at hs; cases hs; exact hsh.1
  | drawSpiral c c1 col start _ hs ih =>
    obtain ⟨c2, h2, hsh⟩ := drawSpiral_shape fl ih col start
    rw [h2] at hs; cases hs; exact hsh.1
  | drawCircle c c1 color center radius _ hs ih =>
    exact ((drawCircle_shape fl ih color center radius).2 c1 hs).1
  | drawRect c c1 col from_ to_ _ hs ih =>
    exact ((drawRect_shape fl ih col from_ to_).2 c1 hs).1
  | blur c c1 radius weight _ hs ih =>
    obtain ⟨c2, h2, hp⟩ := blur_painted_region fl c ih radius weight
    rw [h2] at hs; cases hs; exact hp.1

theorem heap_clone_spec (h : Heap) (v : CanvasRef) (c : Canvas) (hload : h.load v = some c)
    (hwf : c.WellFormed) :
    h.Clone v = some (h ++ [c.Pix], ⟨h.length, c.Stride, c.Rect⟩) ∧ v.pix < h.length := by
  constructor
  · unfold Heap.Clone
    rw [hload, Option.some_bind, clone_of_wellFormed hwf]
    rfl
  · unfold Heap.load at hload
    by_contra hge
    rw [List.getElem?_eq_none (by omega)] at hload
    cases hload

theorem heap_load_append (h : Heap) (p : List Byte) (v : CanvasRef) (hv : v.pix < h.length) :
    Heap.load (h ++ [p]) v = Heap.load h v := by
  unfold Heap.load
  rw [List.getElem?_append_left hv]

theorem heap_load_fresh (h : Heap) (p : List Byte) (s : Int) (r : Rectangle) :
    Heap.load (h ++ [p]) ⟨h.length, s, r⟩ = some ⟨p, s, r⟩ := by
  unfold Heap.load
  simp

theorem heap_load_set_ne (h : Heap) (p : List Byte) (v w : CanvasRef) (hne : w.pix ≠ v.pix) :
    Heap.load (h.set w.pix p) v = Heap.load h v := by
  unfold Heap.load
  rw [List.getElem?_set_ne hne]

theorem heap_call_other (h h2 : Heap) (v w : CanvasRef) (m : Canvas → Option Canvas)
    (hne : w.pix ≠ v.pix) (hc : Heap.call h w m = some h2) : Heap.load h2 v = Heap.load h v := by
  unfold Heap.call at hc
  cases hl : Heap.load h w with
  | none => rw [hl] at hc; cases hc
  | some c =>
    rw [hl, Option.some_bind] at hc
    cases hm : m c with
    | none => rw [hm] at hc; cases hc
    | some c1 =>
      rw [hm] at hc
      simp only [Option.map_some', Option.some.injEq] at hc
      rw [← hc]
      exact heap_load_set_ne h _ v w hne

/-! ### Adequacy of the loop forms -/

theorem intRange_cons {lo hi : Int} (h : lo < hi) :
    intRange lo hi = lo :: intRange (lo + 1) hi := by
  unfold intRange
  have e : (hi - lo).toNat = (hi - (lo + 1)).toNat + 1 := by omega
  rw [e, List.range_succ_eq_map, List.map_cons, List.map_map]
  congr 1
  · simp
  · apply List.map_congr_left
    intro k _
    simp only [Function.comp, Nat.cast_succ]
    omega

theorem runLT_spec {σ : Type} (body : Int → σ → Option σ) (hi : Int) (hhi : IsInt hi) :
    ∀ (fuel : Nat) (i : Int) (s : σ), IsInt i →
      (runLT body hi fuel i s = none ∨ runLT body hi fuel i s = some (forLT i hi body s)) ∧
      ((hi - i).toNat < fuel → runLT body hi fuel i s = some (forLT i hi body s)) := by
  intro fuel
  induction fuel with
  | zero =>
    intro i s _
    exact ⟨Or.inl rfl, fun h => absurd h (Nat.not_lt_zero _)⟩
  | succ n ih =>
    intro i s hi1
    unfold forLT
    by_cases hg : i < hi
    · have hstep : IsInt (iadd i 1) := wrap_isInt _
      have hadd : iadd i 1 = i + 1 := by
        unfold IsInt intMin intMax at hi1 hhi
        unfold iadd wrap; omega
      rw [intRange_cons hg]
      show (runLT body hi (n + 1) i s = none ∨
          runLT body hi (n + 1) i s = some ((body i s).bind (forEach body (intRange (i + 1) hi)))) ∧
        ((hi - i).toNat < n + 1 →
          runLT body hi (n + 1) i s = some ((body i s).bind (forEach body (intRange (i + 1) hi))))
      unfold runLT
      rw [if_pos hg]
      cases hb : body i s with
      | none => exact ⟨Or.inr rfl, fun _ => rfl⟩
      | some s1 =>
        simp only [Option.some_bind]
        obtain ⟨h1, h2⟩ := ih (iadd i 1) s1 hstep
        unfold forLT at h1 h2
        rw [hadd] at h1 h2 ⊢
        exact ⟨h1, fun hf => h2 (by omega)⟩
    · rw [intRange_empty (by omega)]
      unfold runLT
      rw [if_neg hg]
      exact ⟨Or.inr rfl, fun _ => rfl⟩

/-- Adequacy of `forLT`: it returns the state `s1` exactly when the loop, given
enough fuel, exits with `s1`. -/
theorem forLT_adequate {σ : Type} (body : Int → σ → Option σ) (lo hi : Int) (hlo : IsInt lo)
    (hhi : IsInt hi) (s s1 : σ) :
    forLT lo hi body s = some s1 ↔ ∃ fuel, runLT body hi fuel lo s = some (some s1) := by
  constructor
  · intro h
    refine ⟨(hi - lo).toNat + 1, ?_⟩
    rw [(runLT_spec body hi hhi _ lo s hlo).2 (by omega), h]
  · rintro ⟨fuel, h⟩
    rcases (runLT_spec body hi hhi fuel lo s hlo).1 with h0 | h0
    · rw [h0] at h; cases h
    · rw [h0] at h
      exact Option.some.inj h

theorem runLE_spec {σ : Type} (body : Int → σ → Option σ) (hi : Int) (hhi : hi < intMax) :
    ∀ (fuel : Nat) (i : Int) (s : σ), IsInt i →
      (runLE body hi fuel i s = none ∨ runLE body hi fuel i s = some (forLE i hi body s)) ∧
      ((hi + 1 - i).toNat < fuel → runLE body hi fuel i s = some (forLE i hi body s)) := by
  have hne : ∀ i : Int, ¬ (i ≤ hi ∧ hi = intMax) := fun i h => by omega
  intro fuel
  induction fuel with
  | zero =>
    intro i s _
    exact ⟨Or.inl rfl, fun h => absurd h (Nat.not_lt_zero _)⟩
  | succ n ih =>
    intro i s hi1
    unfold forLE
    rw [if_neg (hne i)]
    by_cases hg : i ≤ hi
    · have hstep : IsInt (iadd i 1) := wrap_isInt _
      have hadd : iadd i 1 = i + 1 := by
        unfold IsInt intMin intMax at hi1
        unfold intMax at hhi
        unfold iadd wrap; omega
      rw [intRange_cons (by omega)]
      show (runLE body hi (n + 1) i s = none ∨
          runLE body hi (n + 1) i s =
            some ((body i s).bind (forEach body (intRange (i + 1) (hi + 1))))) ∧
        ((hi + 1 - i).toNat < n + 1 →
          runLE body hi (n + 1) i s =
            some ((body i s).bind (forEach body (intRange (i + 1) (hi + 1)))))
      unfold runLE
      rw [if_pos hg]
      cases hb : body i s with
      | none => exact ⟨Or.inr rfl, fun _ => rfl⟩
      | some s1 =>
        simp only [Option.some_bind]
        obtain ⟨h1, h2⟩ := ih (iadd i 1) s1 hstep
        unfold forLE at h1 h2
        rw [if_neg (hne _), hadd] at h1 h2
        rw [hadd]
        exact ⟨h1, fun hf => h2 (by omega)⟩
    · rw [intRange_empty (by omega)]
      unfold runLE
      rw [if_neg hg]
      exact ⟨Or.inr rfl, fun _ => rfl⟩

theorem runLE_intMax {σ : Type} (body : Int → σ → Option σ) :
    ∀ (fuel : Nat) (i : Int) (s : σ), IsInt i →
      runLE body intMax fuel i s = none ∨ runLE body intMax fuel i s = some none := by
  intro fuel
  induction fuel with
  | zero => intro i s _; exact Or.inl rfl
  | succ n ih =>
    intro i s hi1
    unfold runLE
    rw [if_pos hi1.2]
    cases hb : body i s with
    | none => exact Or.inr rfl
    | some s1 => exact ih (iadd i 1) s1 (wrap_isInt _)

/-- Adequacy of `forLE`: it returns the state `s1` exactly when the loop, given
enough fuel, exits with `s1`; with the largest `int` as bound the loop never
exits. -/
theorem forLE_adequate {σ : Type} (body : Int → σ → Option σ) (lo hi : Int) (hlo : IsInt lo)
    (hhi : IsInt hi) (s s1 : σ) :
    forLE lo hi body s = some s1 ↔ ∃ fuel, runLE body hi fuel lo s = some (some s1) := by
  by_cases hmax : hi = intMax
  · subst hmax
    constructor
    · intro h
      unfold forLE at h
      rw [if_pos ⟨hlo.2, rfl⟩] at h
      cases h
    · rintro ⟨fuel, h⟩
      rcases runLE_intMax body fuel lo s hlo with h0 | h0
      · rw [h0] at h; cases h
      · rw [h0] at h; cases h
  · have hlt : hi < intMax := lt_of_le_of_ne hhi.2 hmax
    constructor
    · intro h
      refine ⟨(hi + 1 - lo).toNat + 1, ?_⟩
      rw [(runLE_spec body hi hlt _ lo s hlo).2 (by omega), h]
    · rintro ⟨fuel, h⟩
      rcases (runLE_spec body hi hlt fuel lo s hlo).1 with h0 | h0
      · rw [h0] at h; cases h
      · rw [h0] at h
        exact Option.some.inj h

/-! ### The bounds of a canvas never change -/

theorem step_shape {F : Type} {fl : Float64Ops F} {c c1 : Canvas} (hwf : c.WellFormed)
    (h : Step fl c c1) : SameShape c c1 := by
  cases h with
  | clone hc =>
    rw [clone_of_wellFormed hwf] at hc
    cases hc
    exact sameShape_refl hwf
  | set x y col hs =>
    obtain ⟨c2, h2, hsh⟩ := set_shape hwf x y col
    rw [h2] at hs; cases hs; exact hsh
  | drawGradient hs =>
    obtain ⟨c2, h2, hsh⟩ := drawGradient_shape hwf
    rw [h2] at hs; cases hs; exact hsh
  | drawLine col from_ to_ hs =>
    obtain ⟨c2, h2, hsh⟩ := drawLine_shape fl hwf col from_ to_
    rw [h2] at hs; cases hs; exact hsh
  | drawSpiral col start hs =>
    obtain ⟨c2, h2, hsh⟩ := drawSpiral_shape fl hwf col start
    rw [h2] at hs; cases hs; exact hsh
  | drawCircle color center radius hs =>
    exact (drawCircle_shape fl hwf color center radius).2 c1 hs
  | drawRect col from_ to_ hs =>
    exact (drawRect_shape fl hwf col from_ to_).2 c1 hs
  | blur radius weight hs =>
    obtain ⟨c2, h2, hp⟩ := blur_painted_region fl c hwf radius weight
    rw [h2] at hs; cases hs; exact sameShape_of_painted hp

theorem newCanvas_rect {r : Rectangle} {c : Canvas} (h : NewCanvas r = some c) : c.Rect = r := by
  obtain ⟨h1, h2, h3, h4⟩ := newCanvas_fits h
  rw [newCanvas_spec h1 h2 h3 h4] at h
  cases h
  rfl

theorem builtFrom_rect {F : Type} {fl : Float64Ops F} {r : Rectangle} {c : Canvas}
    (hr : r.Representable) (h : BuiltFrom fl r c) : c.WellFormed ∧ c.Rect = r := by
  induction h with
  | newCanvas c hn => exact ⟨newCanvas_wellFormed hr hn, newCanvas_rect hn⟩
  | step c c1 _ hs ih =>
    have hsh := step_shape ih.1 hs
    exact ⟨hsh.1, hsh.2.1.trans ih.2⟩

/-! ### Rectangles -/

theorem forEach_same {σ : Type} (xs : List Int) (s : σ) :
    forEach (fun _ t => some t) xs s = some s := by
  induction xs with
  | nil => rfl
  | cons i is ih => exact ih

theorem forLE_empty {σ : Type} {lo hi : Int} (h : hi < lo) (body : Int → σ → Option σ) (s : σ) :
    forLE lo hi body s = some s := by
  unfold forLE
  rw [if_neg (fun hc => by omega), intRange_empty (by omega)]
  rfl

theorem length_intRange (lo hi : Int) : ((intRange lo hi).length : Int) = max (hi - lo) 0 := by
  unfold intRange
  rw [List.length_map, List.length_range]
  omega

theorem nodup_intRange (lo hi : Int) : (intRange lo hi).Nodup := by
  unfold intRange
  apply List.Nodup.map _ (List.nodup_range _)
  intro a b h
  simp only [] at h
  omega

theorem mem_rectBlock {fx tx fy ty x y : Int} :
    (x, y) ∈ rectBlock fx tx fy ty ↔ fx ≤ x ∧ x ≤ tx ∧ fy ≤ y ∧ y ≤ ty := by
  unfold rectBlock
  rw [List.mem_product, mem_intRange, mem_intRange]
  constructor
  · rintro ⟨⟨h1, h2⟩, h3, h4⟩
    exact ⟨h1, by omega, h3, by omega⟩
  · rintro ⟨h1, h2, h3, h4⟩
    exact ⟨⟨h1, by omega⟩, h3, by omega⟩

theorem length_rectBlock {fx tx fy ty : Int} (hx : fx ≤ tx) (hy : fy ≤ ty) :
    ((rectBlock fx tx fy ty).length : Int) = (tx - fx + 1) * (ty - fy + 1) := by
  unfold rectBlock
  rw [List.length_product]
  push_cast
  rw [length_intRange, length_intRange, max_eq_left (by omega), max_eq_left (by omega)]
  ring

theorem nodup_rectBlock (fx tx fy ty : Int) : (rectBlock fx tx fy ty).Nodup :=
  List.Nodup.product (nodup_intRange _ _) (nodup_intRange _ _)

/-! ### Canvases with the same pixels are the same -/

theorem read4_eq_getElem {p q : List Byte} {i : Nat} (hp : i + 4 ≤ p.length)
    (hq : i + 4 ≤ q.length) (h : Canvas.read4 p i = Canvas.read4 q i) (j : Nat) (hj : j < 4) :
    p[i + j]? = q[i + j]? := by
  unfold Canvas.read4 at h
  simp only [RGBA.mk.injEq, List.getD_eq_getElem?_getD] at h
  obtain ⟨h0, h1, h2, h3⟩ := h
  have key : ∀ k, k < 4 → p[i + k]?.getD 0 = q[i + k]?.getD 0 → p[i + k]? = q[i + k]? := by
    intro k hk he
    rw [List.getElem?_eq_getElem (by omega), List.getElem?_eq_getElem (by omega)] at he ⊢
    simpa using he
  have hj4 : j = 0 ∨ j = 1 ∨ j = 2 ∨ j = 3 := by omega
  rcases hj4 with rfl | rfl | rfl | rfl
  · exact key 0 (by omega) h0
  · exact key 1 (by omega) h1
  · exact key 2 (by omega) h2
  · exact key 3 (by omega) h3

theorem canvas_ext {c1 c2 : Canvas} (h1 : c1.WellFormed) (h2 : c2.WellFormed)
    (hr : c2.Rect = c1.Rect) {x0 y0 : Int} (hin0 : (Point.mk x0 y0).In c1.Rect)
    (hat : ∀ x y, c1.At x y = c2.At x y) : c1 = c2 := by
  obtain ⟨hdx, hdy, pw, ph, -, -⟩ := wf_dims h1 hin0
  have hs : c2.Stride = c1.Stride := by
    rw [h1.2.2.2.2.2.2.2.1, h2.2.2.2.2.2.2.2.1, hr]
  have hl : (c1.Pix.length : Int) = (c2.Pix.length : Int) := by
    rw [h1.2.2.2.2.2.2.2.2.1, h2.2.2.2.2.2.2.2.2.1, hr]
  have hlen : (c1.Pix.length : Int) =
      4 * ((c1.Rect.Max.X - c1.Rect.Min.X) * (c1.Rect.Max.Y - c1.Rect.Min.Y)) := by
    rw [h1.2.2.2.2.2.2.2.2.1, hdx, hdy]; ring
  have hpix : c1.Pix = c2.Pix := by
    apply List.ext_getElem?
    intro n
    by_cases hn : n < c1.Pix.length
    · set W := c1.Rect.Max.X - c1.Rect.Min.X with hW
      set H := c1.Rect.Max.Y - c1.Rect.Min.Y with hH
      have hk : ((n / 4 : Nat) : Int) < W * H := by
        have : (n : Int) < 4 * (W * H) := by rw [← hlen]; exact_mod_cast hn
        generalize W * H = Q at *
        omega
      set k : Int := ((n / 4 : Nat) : Int) with hkdef
      have hk0 : 0 ≤ k := Int.ofNat_nonneg _
      have hmod0 : 0 ≤ k % W := Int.emod_nonneg _ (by omega)
      have hmod1 : k % W < W := Int.emod_lt_of_pos _ pw
      have hdiv0 : 0 ≤ k / W := Int.ediv_nonneg hk0 (by omega)
      have hdiv1 : k / W < H := Int.ediv_lt_of_lt_mul pw (by rw [mul_comm] at hk; exact hk)
      have hin : (Point.mk (c1.Rect.Min.X + k % W) (c1.Rect.Min.Y + k / W)).In c1.Rect := by
        refine ⟨?_, ?_, ?_, ?_⟩
        · show c1.Rect.Min.X ≤ c1.Rect.Min.X + k % W; omega
        · show c1.Rect.Min.X + k % W < c1.Rect.Max.X; omega
        · show c1.Rect.Min.Y ≤ c1.Rect.Min.Y + k / W; omega
        · show c1.Rect.Min.Y + k / W < c1.Rect.Max.Y; omega
      have hidx : c1.pixIdx (c1.Rect.Min.X + k % W) (c1.Rect.Min.Y + k / W) = n / 4 := by
        unfold Canvas.pixIdx
        have e : (c1.Rect.Min.Y + k / W - c1.Rect.Min.Y) * (c1.Rect.Max.X - c1.Rect.Min.X) +
            (c1.Rect.Min.X + k % W - c1.Rect.Min.X) = k := by
          have := Int.ediv_add_emod k W
          rw [← hW]
          linarith [Int.ediv_add_emod k W, mul_comm W (k / W)]
        rw [e, hkdef]
        exact Int.toNat_ofNat _
      have hidx2 : c2.pixIdx (c1.Rect.Min.X + k % W) (c1.Rect.Min.Y + k / W) = n / 4 := by
        rw [← hidx]; unfold Canvas.pixIdx; rw [hr]
      have hin2 : (Point.mk (c1.Rect.Min.X + k % W) (c1.Rect.Min.Y + k / W)).In c2.Rect := by
        rw [hr]; exact hin
      have ha := hat (c1.Rect.Min.X + k % W) (c1.Rect.Min.Y + k / W)
      rw [at_inb h1 hin, at_inb h2 hin2, hidx, hidx2] at ha
      have hb1 := (pixOffset_eq h1 hin).2
      have hb2 := (pixOffset_eq h2 hin2).2
      rw [hidx] at hb1
      rw [hidx2] at hb2
      have := read4_eq_getElem hb1 hb2 (Option.some.inj ha) (n % 4) (Nat.mod_lt _ (by omega))
      have en : 4 * (n / 4) + n % 4 = n := Nat.div_add_mod n 4
      rw [en] at this
      exact this
    · have hn2 : ¬ n < c2.Pix.length := by
        have : (c1.Pix.length : Int) = c2.Pix.length := hl
        omega
      rw [List.getElem?_eq_none (by omega), List.getElem?_eq_none (by omega)]
  cases c1
  cases c2
  simp only [Canvas.mk.injEq]
  exact ⟨hpix, hs.symm, hr.symm⟩

/-! ### Discs of two radii -/

theorem drawCircle_disc {F : Type} (fl : Float64Ops F) {c : Canvas} (hwf : c.WellFormed)
    (color : RGBA) (center : Vector F) (r R : Int) (hrR : r ≤ R)
    (hr : 2 * (r * r) ≤ intMax)
    (hcx1 : intMin ≤ fl.toInt center.X - R) (hcx2 : fl.toInt center.X + R ≤ intMax)
    (hcy1 : intMin ≤ fl.toInt center.Y - R) (hcy2 : fl.toInt center.Y + R ≤ intMax) :
    ∃ c1, c.DrawCircle fl color center r = some c1 ∧
      Painted c c1 (discRegion (fl.toInt center.X) (fl.toInt center.Y) r) (fun _ _ => color) := by
  by_cases hr0 : 0 ≤ r
  · have hrr : r * r ≤ intMax := by
      have := mul_self_nonneg r
      omega
    have hr1 : r < intMax := by
      have hle : r ≤ r * r := by nlinarith
      unfold intMax at hr ⊢
      omega
    obtain ⟨c1, h1, hp⟩ := drawCircle_painted fl hwf color center r (by omega)
    have hneg : ineg r = -r := by
      unfold ineg wrap; unfold intMax at hr1; omega
    refine ⟨c1, h1, painted_congr hp ?_⟩
    intro a b _
    have hadd : ∀ (z d : Int), intMin ≤ z - R → z + R ≤ intMax → -r ≤ d → d ≤ r →
        iadd z d = z + d := by
      intro z d h1 h2 h3 h4
      unfold intMin at h1; unfold intMax at h2
      unfold iadd wrap; omega
    unfold discRegion
    constructor
    · rintro ⟨x, hx, y, hy, ht, ha, hb⟩
      rw [hneg] at hx hy
      obtain ⟨hx1, hx2⟩ := mem_intRange.1 hx
      obtain ⟨hy1, hy2⟩ := mem_intRange.1 hy
      refine ⟨hr0, x, y, (circle_test_exact hr hx1 (by omega) hy1 (by omega)).1 ht, ?_, ?_⟩
      · rw [ha, hadd _ _ hcx1 hcx2 hx1 (by omega)]
      · rw [hb, hadd _ _ hcy1 hcy2 hy1 (by omega)]
    · rintro ⟨-, dx, dy, ht, ha, hb⟩
      have hxb := abs_bound_of_sq_le hr0 (by have := mul_self_nonneg dy; omega : dx * dx ≤ r * r)
      have hyb := abs_bound_of_sq_le hr0 (by have := mul_self_nonneg dx; omega : dy * dy ≤ r * r)
      refine ⟨dx, ?_, dy, ?_, ?_, ?_, ?_⟩
      · rw [hneg]; exact mem_intRange.2 ⟨hxb.1, by omega⟩
      · rw [hneg]; exact mem_intRange.2 ⟨hyb.1, by omega⟩
      · exact (circle_test_exact hr hxb.1 hxb.2 hyb.1 hyb.2).2 ht
      · rw [ha, hadd _ _ hcx1 hcx2 hxb.1 hxb.2]
      · rw [hb, hadd _ _ hcy1 hcy2 hyb.1 hyb.2]
  · have hmin : intMin < r := by
      have hle : -r ≤ r * r := by nlinarith
      unfold intMax at hr
      unfold intMin
      omega
    obtain ⟨h1, -⟩ := drawCircle_negative fl c color center r hmin (by omega)
    refine ⟨c, h1, painted_congr (painted_refl hwf _) ?_⟩
    intro a b _
    unfold discRegion
    constructor
    · exact fun h => h.elim
    · exact fun h => hr0 h.1

theorem discRegion_mono {cx cy r1 r2 a b : Int} (h : r1 ≤ r2)
    (hd : discRegion cx cy r1 a b) : discRegion cx cy r2 a b := by
  obtain ⟨h0, dx, dy, ht, ha, hb⟩ := hd
  exact ⟨by omega, dx, dy, le_trans ht (by nlinarith), ha, hb⟩

theorem forEach_fixed {σ : Type} {body : Int → σ → Option σ} {s : σ}
    (h : ∀ i, body i s = some s) (xs : List Int) : forEach body xs s = some s := by
  induction xs with
  | nil => rfl
  | cons i is ih =>
    show (body i s).bind (forEach body is) = some s
    rw [h i]
    exact ih

theorem drawCircle_of_empty {F : Type} (fl : Float64Ops F) {c : Canvas}
    (hemp : ∀ x y, ¬ (Point.mk x y).In c.Rect) (color : RGBA) (center : Vector F) (r : Int)
    (hr : r ≠ intMax) : c.DrawCircle fl color center r = some c := by
  unfold Canvas.DrawCircle forLE
  have hne : ¬ (ineg r ≤ r ∧ r = intMax) := fun h => hr h.2
  simp only [if_neg hne]
  apply forEach_fixed
  intro x
  apply forEach_fixed
  intro y
  split_ifs
  · unfold Canvas.Set
    rw [if_neg (hemp _ _)]
  · rfl

/-! ### Lines -/

theorem drawLine_eq_with {F : Type} (fl : Float64Ops F) (c : Canvas) (col : RGBA)
    (from_ to_ : Vector F) :
    c.DrawLine fl col from_ to_ = drawLineWith fl Canvas.Set c col from_ to_ := rfl

theorem drawLineWith_eq {F σ : Type} (fl : Float64Ops F)
    (set : σ → Int → Int → RGBA → Option σ) (s : σ) (col : RGBA) (from_ to_ : Vector F) :
    drawLineWith fl set s col from_ to_ =
      forEach (fun i s => set s (lineSample fl from_ to_ i).1 (lineSample fl from_ to_ i).2 col)
        (intRange 0 (lineCount fl from_ to_)) s := rfl

theorem forEach_record (g : Int → Int × Int) (col : RGBA) (xs : List Int) :
    ∀ log : List (Int × Int × RGBA),
      forEach (fun i s => recordSet s (g i).1 (g i).2 col) xs log =
        some (log ++ xs.map (fun i => ((g i).1, (g i).2, col))) := by
  induction xs with
  | nil => intro log; simp [forEach]
  | cons i is ih =>
    intro log
    show (recordSet log (g i).1 (g i).2 col).bind _ = _
    have e : recordSet log (g i).1 (g i).2 col = some (log ++ [((g i).1, (g i).2, col)]) := rfl
    rw [e, Option.some_bind, ih]
    simp

theorem getElem?_intRange {lo hi : Int} {k : Nat} (h : (k : Int) < hi - lo) :
    (intRange lo hi)[k]? = some (lo + k) := by
  unfold intRange
  rw [List.getElem?_map, List.getElem?_range (by omega)]
  rfl

theorem drawLine_painted {F : Type} (fl : Float64Ops F) {c : Canvas} (hwf : c.WellFormed)
    (col : RGBA) (from_ to_ : Vector F) :
    ∃ c1, c.DrawLine fl col from_ to_ = some c1 ∧
      Painted c c1
        (fun a b => ∃ i ∈ intRange 0 (lineCount fl from_ to_), (a, b) = lineSample fl from_ to_ i)
        (fun _ _ => col) := by
  rw [drawLine_eq_with, drawLineWith_eq]
  obtain ⟨c1, h1, hp⟩ := forEach_painted
    (b := fun i c0 => c0.Set (lineSample fl from_ to_ i).1 (lineSample fl from_ to_ i).2 col)
    (S := fun i a b => a = (lineSample fl from_ to_ i).1 ∧ b = (lineSample fl from_ to_ i).2)
    (f := fun _ _ => col)
    (intRange 0 (lineCount fl from_ to_)) c hwf
    (fun i _ c0 hw0 _ => set_painted hw0 _ _ col _ rfl)
  refine ⟨c1, h1, painted_congr hp ?_⟩
  intro a b _
  constructor
  · rintro ⟨i, hi, ha, hb⟩
    exact ⟨i, hi, by rw [ha, hb]⟩
  · rintro ⟨i, hi, h⟩
    exact ⟨i, hi, congrArg Prod.fst h, congrArg Prod.snd h⟩

/-! ### Exact arithmetic -/

theorem ratSqrt_mul_self (q : Rat) (hq : 0 ≤ q) : ratSqrt (q * q) = q := by
  unfold ratSqrt
  rcases eq_or_lt_of_le hq with h0 | hpos
  · rw [← h0]; simp
  · have hqq : ¬ (q * q ≤ 0) := not_le.2 (mul_pos hpos hpos)
    rw [if_neg hqq, Rat.mul_self_num, Rat.mul_self_den]
    have hnum : 0 < q.num := Rat.num_pos.2 hpos
    have e1 : (q.num * q.num).toNat = q.num.toNat * q.num.toNat := by
      obtain ⟨n, hn⟩ := Int.eq_ofNat_of_zero_le hnum.le
      rw [hn]
      exact Int.toNat_ofNat (n * n)
    have e2 : q.num.toNat * q.num.toNat * (q.den * q.den) * 18446744073709551616 =
        (q.num.toNat * q.den * 4294967296) * (q.num.toNat * q.den * 4294967296) := by ring
    rw [e1, e2, Nat.sqrt_eq]
    have hden : (q.den : Rat) ≠ 0 := Nat.cast_ne_zero.2 q.den_nz
    have hn : ((q.num.toNat : Nat) : Rat) = (q.num : Rat) := by
      have : ((q.num.toNat : Nat) : Int) = q.num := Int.toNat_of_nonneg hnum.le
      exact_mod_cast congrArg (fun z : Int => (z : Rat)) this
    push_cast
    rw [hn]
    have hq2 : (q.num : Rat) / (q.den : Rat) = q := Rat.num_div_den q
    conv_rhs => rw [← hq2]
    field_simp
    ring

theorem ratTrunc_of_nonneg {q : Rat} (hq : 0 ≤ q) : ratTrunc q = ⌊q⌋ := by
  unfold ratTrunc
  rw [Int.tdiv_eq_ediv (Rat.num_nonneg.2 hq) (Int.ofNat_nonneg _), Rat.floor_def]

theorem ratTrunc_intCast (a : Int) : ratTrunc (a : Rat) = a := by
  unfold ratTrunc
  rw [Rat.num_intCast, Rat.den_intCast]
  simp

theorem exactOps_exactOnIntegers (N : Int) (hN : N ≤ intMax) : ExactOnIntegers exactOps N where
  ofInt_sub := fun a b _ _ _ _ _ _ => (Int.cast_sub a b).symm
  ofInt_add := fun a b _ _ _ _ _ _ => (Int.cast_add a b).symm
  ofInt_mul := fun a b _ _ _ _ _ _ => (Int.cast_mul a b).symm
  div_self := fun a h _ => by
    show ((a : Rat)) / (a : Rat) = ((1 : Int) : Rat)
    have : (a : Rat) ≠ 0 := by exact_mod_cast h.ne'
    rw [div_self this]; simp
  zero_div := fun a _ _ => by
    show (((0 : Int) : Rat)) / (a : Rat) = ((0 : Int) : Rat)
    simp
  length_x := fun a h _ => by
    show ratSqrt ((a : Rat) * (a : Rat) + ((0 : Int) : Rat) * ((0 : Int) : Rat)) = (a : Rat)
    have e : (a : Rat) * (a : Rat) + ((0 : Int) : Rat) * ((0 : Int) : Rat) = (a : Rat) * a := by
      simp
    rw [e, ratSqrt_mul_self _ (by exact_mod_cast h)]
  length_y := fun a h _ => by
    show ratSqrt (((0 : Int) : Rat) * ((0 : Int) : Rat) + (a : Rat) * (a : Rat)) = (a : Rat)
    have e : ((0 : Int) : Rat) * ((0 : Int) : Rat) + (a : Rat) * (a : Rat) = (a : Rat) * a := by
      simp
    rw [e, ratSqrt_mul_self _ (by exact_mod_cast h)]
  toInt_ofInt := fun a h1 h2 => by
    show wrap (ratTrunc (a : Rat)) = a
    rw [ratTrunc_intCast]
    unfold intMax at hN
    unfold wrap; omega
  toInt_half := fun a h1 h2 => by
    show wrap (ratTrunc ((a : Rat) + 1 / 2)) = a
    have h0 : (0 : Rat) ≤ (a : Rat) + 1 / 2 := by
      have : (0 : Rat) ≤ (a : Rat) := by exact_mod_cast h1
      linarith
    have hf : ⌊(a : Rat) + 1 / 2⌋ = a := by
      rw [Int.floor_eq_iff]
      constructor <;> linarith
    rw [ratTrunc_of_nonneg h0, hf]
    unfold intMax at hN
    unfold wrap; omega

theorem exactOps_length_horizontal (a b y : Rat) (h : a ≤ b) :
    ((Vector.mk b y).Sub exactOps ⟨a, y⟩).Length exactOps = b - a := by
  show ratSqrt ((b - a) * (b - a) + (y - y) * (y - y)) = b - a
  have e : (b - a) * (b - a) + (y - y) * (y - y) = (b - a) * (b - a) := by ring
  rw [e, ratSqrt_mul_self _ (by linarith)]

theorem exactOps_lineCount_same (p : Vector Rat) : lineCount exactOps p p = 0 := by
  unfold lineCount
  rw [exactOps_length_horizontal p.X p.X p.Y le_rfl]
  show wrap (ratTrunc (p.X - p.X + 1 / 2)) = 0
  have e : p.X - p.X + 1 / 2 = (1 / 2 : Rat) := by ring
  rw [e]
  decide!

theorem drawLineWith_of_count_nonpos {F σ : Type} (fl : Float64Ops F)
    (set : σ → Int → Int → RGBA → Option σ) (s : σ) (col : RGBA) (from_ to_ : Vector F)
    (h : lineCount fl from_ to_ ≤ 0) : drawLineWith fl set s col from_ to_ = some s := by
  rw [drawLineWith_eq, intRange_empty (by omega)]
  rfl

theorem exact_line_horizontal {F : Type} {fl : Float64Ops F} {N : Int}
    (hex : ExactOnIntegers fl N) (x0 x1 y : Int) (hlt : x0 < x1)
    (hx0 : -N ≤ x0) (hx1 : x1 ≤ N) (hy0 : -N ≤ y) (hy1 : y ≤ N) (hd : x1 - x0 ≤ N) :
    lineCount fl ⟨fl.ofInt x0, fl.ofInt y⟩ ⟨fl.ofInt x1, fl.ofInt y⟩ = x1 - x0 ∧
    ∀ i, 0 ≤ i → i < x1 - x0 →
      lineSample fl ⟨fl.ofInt x0, fl.ofInt y⟩ ⟨fl.ofInt x1, fl.ofInt y⟩ i = (x0 + i, y) := by
  have hsub : (Vector.mk (fl.ofInt x1) (fl.ofInt y)).Sub fl ⟨fl.ofInt x0, fl.ofInt y⟩ =
      ⟨fl.ofInt (x1 - x0), fl.ofInt 0⟩ := by
    show Vector.mk (fl.sub (fl.ofInt x1) (fl.ofInt x0)) (fl.sub (fl.ofInt y) (fl.ofInt y)) = _
    rw [hex.ofInt_sub x1 x0 (by omega) hx1 hx0 (by omega) (by omega) hd,
      hex.ofInt_sub y y hy0 hy1 hy0 hy1 (by omega) (by omega), sub_self]
  constructor
  · unfold lineCount
    rw [hsub, hex.length_x _ (by omega) hd, hex.toInt_half _ (by omega) hd]
  · intro i hi0 hi1
    unfold lineSample
    rw [hsub]
    show (fl.toInt (fl.add (fl.ofInt x0) (fl.mul (fl.ofInt i)
        (fl.div (fl.ofInt (x1 - x0)) ((Vector.mk (fl.ofInt (x1 - x0)) (fl.ofInt 0)).Length fl)))),
      fl.toInt (fl.add (fl.ofInt y) (fl.mul (fl.ofInt i)
        (fl.div (fl.ofInt 0) ((Vector.mk (fl.ofInt (x1 - x0)) (fl.ofInt 0)).Length fl))))) = _
    rw [hex.length_x _ (by omega) hd, hex.div_self _ (by omega) hd,
      hex.zero_div _ (by omega) hd,
      hex.ofInt_mul i 1 (by omega) (by omega) (by omega) (by omega) (by omega) (by omega),
      hex.ofInt_mul i 0 (by omega) (by omega) (by omega) (by omega) (by omega) (by omega),
      mul_one, mul_zero,
      hex.ofInt_add x0 i hx0 (by omega) (by omega) (by omega) (by omega) (by omega),
      hex.ofInt_add y 0 hy0 hy1 (by omega) (by omega) (by omega) (by omega), add_zero,
      hex.toInt_ofInt _ (by omega) (by omega), hex.toInt_ofInt _ hy0 hy1]

theorem exact_line_vertical {F : Type} {fl : Float64Ops F} {N : Int}
    (hex : ExactOnIntegers fl N) (y0 y1 x : Int) (hlt : y0 < y1)
    (hy0 : -N ≤ y0) (hy1 : y1 ≤ N) (hx0 : -N ≤ x) (hx1 : x ≤ N) (hd : y1 - y0 ≤ N) :
    lineCount fl ⟨fl.ofInt x, fl.ofInt y0⟩ ⟨fl.ofInt x, fl.ofInt y1⟩ = y1 - y0 ∧
    ∀ i, 0 ≤ i → i < y1 - y0 →
      lineSample fl ⟨fl.ofInt x, fl.ofInt y0⟩ ⟨fl.ofInt x, fl.ofInt y1⟩ i = (x, y0 + i) := by
  have hsub : (Vector.mk (fl.ofInt x) (fl.ofInt y1)).Sub fl ⟨fl.ofInt x, fl.ofInt y0⟩ =
      ⟨fl.ofInt 0, fl.ofInt (y1 - y0)⟩ := by
    show Vector.mk (fl.sub (fl.ofInt x) (fl.ofInt x)) (fl.sub (fl.ofInt y1) (fl.ofInt y0)) = _
    rw [hex.ofInt_sub y1 y0 (by omega) hy1 hy0 (by omega) (by omega) hd,
      hex.ofInt_sub x x hx0 hx1 hx0 hx1 (by omega) (by omega), sub_self]
  constructor
  · unfold lineCount
    rw [hsub, hex.length_y _ (by omega) hd, hex.toInt_half _ (by omega) hd]
  · intro i hi0 hi1
    unfold lineSample
    rw [hsub]
    show (fl.toInt (fl.add (fl.ofInt x) (fl.mul (fl.ofInt i)
        (fl.div (fl.ofInt 0) ((Vector.mk (fl.ofInt 0) (fl.ofInt (y1 - y0))).Length fl)))),
      fl.toInt (fl.add (fl.ofInt y0) (fl.mul (fl.ofInt i)
        (fl.div (fl.ofInt (y1 - y0))
          ((Vector.mk (fl.ofInt 0) (fl.ofInt (y1 - y0))).Length fl))))) = _
    rw [hex.length_y _ (by omega) hd, hex.div_self _ (by omega) hd,
      hex.zero_div _ (by omega) hd,
      hex.ofInt_mul i 1 (by omega) (by omega) (by omega) (by omega) (by omega) (by omega),
      hex.ofInt_mul i 0 (by omega) (by omega) (by omega) (by omega) (by omega) (by omega),
      mul_one, mul_zero,
      hex.ofInt_add y0 i hy0 (by omega) (by omega) (by omega) (by omega) (by omega),
      hex.ofInt_add x 0 hx0 hx1 (by omega) (by omega) (by omega) (by omega), add_zero,
      hex.toInt_ofInt _ (by omega) (by omega), hex.toInt_ofInt _ (by omega) (by omega)]

theorem drawLine_of_samples {F : Type} (fl : Float64Ops F) {c : Canvas} (hwf : c.WellFormed)
    (col : RGBA) (from_ to_ : Vector F) (n : Int) (g : Int → Int × Int)
    (hn : lineCount fl from_ to_ = n)
    (hg : ∀ i, 0 ≤ i → i < n → lineSample fl from_ to_ i = g i) :
    ∃ c1, c.DrawLine fl col from_ to_ = some c1 ∧
      Painted c c1 (fun a b => ∃ i, 0 ≤ i ∧ i < n ∧ (a, b) = g i) (fun _ _ => col) := by
  obtain ⟨c1, h1, hp⟩ := drawLine_painted fl hwf col from_ to_
  refine ⟨c1, h1, painted_congr hp ?_⟩
  intro a b _
  rw [hn]
  constructor
  · rintro ⟨i, hi, h⟩
    rw [mem_intRange] at hi
    exact ⟨i, hi.1, hi.2, by rw [h, hg i hi.1 hi.2]⟩
  · rintro ⟨i, hi0, hi1, h⟩
    exact ⟨i, mem_intRange.2 ⟨hi0, hi1⟩, by rw [h, hg i hi0 hi1]⟩

/-! ### Spirals -/

theorem forEach_map_state {σ τ : Type} (φ : σ → τ) (b1 : Int → σ → Option σ)
    (b2 : Int → τ → Option τ) (h : ∀ i s, b2 i (φ s) = (b1 i s).map φ) (xs : List Int) :
    ∀ s, forEach b2 xs (φ s) = (forEach b1 xs s).map φ := by
  induction xs with
  | nil => intro s; rfl
  | cons i is ih =>
    intro s
    show (b2 i (φ s)).bind (forEach b2 is) = ((b1 i s).bind (forEach b1 is)).map φ
    rw [h]
    cases hb : b1 i s with
    | none => rfl
    | some s1 => exact ih s1

theorem drawSpiral_eq_with {F : Type} (fl : Float64Ops F) (c : Canvas) (col : RGBA)
    (start : Vector F) :
    c.DrawSpiral fl col start =
      drawSpiralWith fl (fun c0 col0 a b => c0.DrawLine fl col0 a b) c col start := by
  unfold Canvas.DrawSpiral drawSpiralWith forLT
  have h := forEach_map_state
    (fun s : SpiralState F => (⟨s.canvas, s.dir, s.last⟩ : SpiralStateWith Canvas F))
    (fun _ s => spiralStep fl col s)
    (fun _ st => spiralStepWith fl (fun c0 col0 a b => c0.DrawLine fl col0 a b) col st)
    (fun i s => by
      show Option.bind (s.canvas.DrawLine fl col s.last (s.last.Add fl s.dir)) _ =
        Option.map _ (Option.bind (s.canvas.DrawLine fl col s.last (s.last.Add fl s.dir)) _)
      generalize s.canvas.DrawLine fl col s.last (s.last.Add fl s.dir) = o
      cases o <;> rfl)
    (intRange 0 10000) ⟨c, ⟨fl.ofInt 0, fl.ofInt 5⟩, start⟩
  show _ = Option.map _ (forEach _ (intRange 0 10000)
    ((fun s : SpiralState F => (⟨s.canvas, s.dir, s.last⟩ : SpiralStateWith Canvas F))
      ⟨c, ⟨fl.ofInt 0, fl.ofInt 5⟩, start⟩))
  rw [h, Option.map_map]
  rfl

theorem forEach_recordLine {F : Type} (fl : Float64Ops F) (col : RGBA) (start : Vector F)
    (xs : List Int) :
    ∀ (n m : Nat) (log : List (RGBA × Vector F × Vector F)), xs.length = n →
      forEach (fun _ st => spiralStepWith fl recordLine col st)
        xs ⟨log, spiralDir fl m, spiralPos fl start m⟩ =
      some ⟨log ++ (List.range' m n).map
          (fun k => (col, spiralPos fl start k, spiralPos fl start (k + 1))),
        spiralDir fl (m + n), spiralPos fl start (m + n)⟩ := by
  induction xs with
  | nil =>
    intro n m log hn
    subst hn
    simp [forEach]
  | cons i is ih =>
    intro n m log hn
    obtain ⟨n1, rfl⟩ : ∃ n1, n = n1 + 1 := ⟨is.length, by rw [← hn]; rfl⟩
    have hn1 : is.length = n1 := by
      rw [List.length_cons] at hn
      omega
    have e : spiralStepWith fl recordLine col ⟨log, spiralDir fl m, spiralPos fl start m⟩ =
        some ⟨log ++ [(col, spiralPos fl start m, spiralPos fl start (m + 1))],
          spiralDir fl (m + 1), spiralPos fl start (m + 1)⟩ := rfl
    show (spiralStepWith fl recordLine col ⟨log, spiralDir fl m, spiralPos fl start m⟩).bind _ = _
    rw [e, Option.some_bind]
    have ih1 := ih n1 (m + 1) (log ++ [(col, spiralPos fl start m, spiralPos fl start (m + 1))])
      hn1
    have e2 : m + 1 + n1 = m + (n1 + 1) := by omega
    rw [e2] at ih1
    exact ih1.trans (by rw [List.append_assoc]; rfl)

theorem drawSpiralWith_record {F : Type} (fl : Float64Ops F) (col : RGBA) (start : Vector F) :
    ∃ calls, drawSpiralWith fl recordLine [] col start = some calls ∧
      calls.length = 10000 ∧
      ∀ k : Nat, k < 10000 →
        calls[k]? = some (col, spiralPos fl start k, spiralPos fl start (k + 1)) := by
  have hl : (intRange 0 10000).length = 10000 := by
    have := length_intRange 0 10000
    omega
  have key : ∀ n : Nat, (intRange 0 10000).length = n →
      drawSpiralWith fl recordLine [] col start =
        some ((List.range' 0 n).map
          (fun k => (col, spiralPos fl start k, spiralPos fl start (k + 1)))) := by
    intro n hn
    have h := forEach_recordLine fl col start (intRange 0 10000) n 0 [] hn
    rw [List.nil_append] at h
    have h0 : spiralDir fl 0 = ⟨fl.ofInt 0, fl.ofInt 5⟩ := rfl
    have h1 : spiralPos fl start 0 = start := rfl
    rw [h0, h1] at h
    unfold drawSpiralWith forLT
    rw [h]
    rfl
  generalize (10000 : Nat) = N at hl ⊢
  refine ⟨_, key N hl, by simp, ?_⟩
  intro k hk
  rw [List.getElem?_map, List.getElem?_range' _ _ hk]
  simp

/-! ### The sums of the blur -/

theorem at_stored {c : Canvas} (hwf : c.WellFormed) (a b : Int) :
    c.At a b = some (c.stored a b) := by
  unfold Canvas.stored
  by_cases hin : (Point.mk a b).In c.Rect
  · rw [if_pos hin, at_inb hwf hin]
  · rw [if_neg hin, at_outside hin]

theorem forEach_pure {σ : Type} {body : Int → σ → Option σ} {f : σ → Int → σ}
    (xs : List Int) (h : ∀ i ∈ xs, ∀ s, body i s = some (f s i)) :
    ∀ s, forEach body xs s = some (xs.foldl f s) := by
  induction xs with
  | nil => intro s; rfl
  | cons i is ih =>
    intro s
    show (body i s).bind (forEach body is) = _
    rw [h i (List.mem_cons_self _ _) s, Option.some_bind,
      ih (fun j hj => h j (List.mem_cons_of_mem _ hj))]
    rfl

theorem foldl_product {σ : Type} (g : σ → Int × Int → σ) (xs ys : List Int) :
    ∀ s, (xs ×ˢ ys).foldl g s = xs.foldl (fun s i => ys.foldl (fun s j => g s (i, j)) s) s := by
  induction xs with
  | nil => intro s; rfl
  | cons i is ih =>
    intro s
    rw [List.product_cons, List.foldl_append, List.foldl_map, List.foldl_cons, ih]

theorem intRange_shift (x lo hi : Int) :
    intRange (x + lo) (x + hi) = (intRange lo hi).map (fun d => x + d) := by
  unfold intRange
  rw [List.map_map]
  have e : x + hi - (x + lo) = hi - lo := by ring
  rw [e]
  apply List.map_congr_left
  intro k _
  show x + lo + (k : Int) = x + (lo + (k : Int))
  ring

theorem blurSums_eq_byOffsets {F : Type} (fl : Float64Ops F) {c : Canvas} (hwf : c.WellFormed)
    (x y r : Int) (weight : WeightFunction F) (hr : 0 ≤ r)
    (hx0 : intMin ≤ x - r) (hx1 : x + r + 1 ≤ intMax)
    (hy0 : intMin ≤ y - r) (hy1 : y + r + 1 ≤ intMax) :
    blurSums fl c x y r weight = some (sumsByOffsets fl c x y r weight) := by
  unfold intMin at hx0 hy0
  unfold intMax at hx1 hy1
  have isInt_of : ∀ z : Int, -9223372036854775808 ≤ z → z ≤ 9223372036854775807 → wrap z = z :=
    fun z h0 h1 => wrap_of_isInt ⟨h0, h1⟩
  have ex0 : isub x r = x + -r := by
    rw [← sub_eq_add_neg]
    exact isInt_of _ hx0 (by omega)
  have ex1 : iadd (iadd x r) 1 = x + (r + 1) := by
    have e1 : iadd x r = x + r := isInt_of _ (by omega) (by omega)
    rw [e1, ← add_assoc]
    exact isInt_of _ (by omega) hx1
  have ey0 : isub y r = y + -r := by
    rw [← sub_eq_add_neg]
    exact isInt_of _ hy0 (by omega)
  have ey1 : iadd (iadd y r) 1 = y + (r + 1) := by
    have e1 : iadd y r = y + r := isInt_of _ (by omega) (by omega)
    rw [e1, ← add_assoc]
    exact isInt_of _ (by omega) hy1
  have inner : ∀ i ∈ (intRange (-r) (r + 1)).map (fun d => x + d), ∀ acc,
      forEach (fun j acc => blurStep fl c x y weight i j acc)
        ((intRange (-r) (r + 1)).map (fun d => y + d)) acc =
      some (((intRange (-r) (r + 1)).map (fun d => y + d)).foldl
        (fun acc j => offsetStep fl c x y weight acc (i - x, j - y)) acc) := by
    intro i hi acc
    apply forEach_pure
    intro j hj acc1
    rw [List.mem_map] at hi hj
    obtain ⟨dx, hdx, rfl⟩ := hi
    obtain ⟨dy, hdy, rfl⟩ := hj
    rw [mem_intRange] at hdx hdy
    have e1 : isub (x + dx) x = dx := by
      unfold isub
      rw [add_sub_cancel_left]
      exact isInt_of _ (by omega) (by omega)
    have e2 : isub (y + dy) y = dy := by
      unfold isub
      rw [add_sub_cancel_left]
      exact isInt_of _ (by omega) (by omega)
    unfold blurStep offsetStep
    simp only [e1, e2, at_stored hwf, Option.some_bind, add_sub_cancel_left, RGBA.RGBA]
  unfold blurSums forLT sumsByOffsets rectBlock
  rw [ex0, ex1, ey0, ey1, intRange_shift, intRange_shift, foldl_product]
  refine Eq.trans (forEach_pure
    (f := fun acc i => ((intRange (-r) (r + 1)).map (fun d => y + d)).foldl
        (fun acc j => offsetStep fl c x y weight acc (i - x, j - y)) acc) _ inner _) ?_
  rw [List.foldl_map]
  refine congrArg some ?_
  apply List.foldl_ext
  intro acc dx _
  rw [List.foldl_map]
  apply List.foldl_ext
  intro acc1 dy _
  simp only [add_sub_cancel_left]

theorem foldl_offsetStep_exact (c : Canvas) (x y : Int) (weight : WeightFunction Rat)
    (l : List (Int × Int)) :
    ∀ acc : BlurAcc Rat, l.foldl (offsetStep exactOps c x y weight) acc =
      ⟨acc.outR + (l.map (channelTerm c x y weight RGBA.R)).sum,
       acc.outG + (l.map (channelTerm c x y weight RGBA.G)).sum,
       acc.outB + (l.map (channelTerm c x y weight RGBA.B)).sum,
       acc.weightSum + (l.map (fun d => weight.Weight d.1 d.2)).sum⟩ := by
  induction l with
  | nil => intro acc; simp
  | cons d ds ih =>
    intro acc
    rw [List.foldl_cons, ih]
    simp only [List.map_cons, List.sum_cons]
    have e : offsetStep exactOps c x y weight acc d =
        ⟨acc.outR + channelTerm c x y weight RGBA.R d,
         acc.outG + channelTerm c x y weight RGBA.G d,
         acc.outB + channelTerm c x y weight RGBA.B d,
         acc.weightSum + weight.Weight d.1 d.2⟩ := rfl
    rw [e]
    simp only [add_assoc]

theorem sum_map_filter {α : Type} (p : α → Bool) (t : α → Rat) (l : List α)
    (h : ∀ d, p d = false → t d = 0) : (l.map t).sum = ((l.filter p).map t).sum := by
  induction l with
  | nil => rfl
  | cons d ds ih =>
    cases hp : p d with
    | true => rw [List.filter_cons_of_pos hp, List.map_cons, List.map_cons, List.sum_cons,
        List.sum_cons, ih]
    | false => rw [List.filter_cons_of_neg (by simp [hp]), List.map_cons, List.sum_cons, ih,
        h d hp, zero_add]

theorem channelTerm_outside (c : Canvas) (x y : Int) (weight : WeightFunction Rat)
    (ch : RGBA → Byte) (hch : ch ⟨0, 0, 0, 0⟩ = 0) (d : Int × Int)
    (h : decide ((Point.mk (x + d.1) (y + d.2)).In c.Rect) = false) :
    channelTerm c x y weight ch d = 0 := by
  have hout : ¬ (Point.mk (x + d.1) (y + d.2)).In c.Rect := of_decide_eq_false h
  unfold channelTerm Canvas.stored
  rw [if_neg hout, hch]
  simp

theorem sumsByOffsets_exact (c : Canvas) (x y r : Int) (weight : WeightFunction Rat) :
    sumsByOffsets exactOps c x y r weight =
      ⟨((inBoundsOffsets c x y r).map (channelTerm c x y weight RGBA.R)).sum,
       ((inBoundsOffsets c x y r).map (channelTerm c x y weight RGBA.G)).sum,
       ((inBoundsOffsets c x y r).map (channelTerm c x y weight RGBA.B)).sum,
       ((rectBlock (-r) r (-r) r).map (fun d => weight.Weight d.1 d.2)).sum⟩ := by
  unfold sumsByOffsets inBoundsOffsets
  rw [foldl_offsetStep_exact]
  rw [← sum_map_filter _ _ _ (channelTerm_outside c x y weight RGBA.R rfl),
    ← sum_map_filter _ _ _ (channelTerm_outside c x y weight RGBA.G rfl),
    ← sum_map_filter _ _ _ (channelTerm_outside c x y weight RGBA.B rfl)]
  show BlurAcc.mk (((0 : Int) : Rat) + _) (((0 : Int) : Rat) + _) (((0 : Int) : Rat) + _)
    (((0 : Int) : Rat) + _) = _
  simp only [Int.cast_zero, zero_add]

/-! ### Uniform canvases -/

theorem read4_flatten_replicate (a b c d : Byte) (n : Nat) :
    ∀ k : Nat, k < n →
      Canvas.read4 ((List.replicate n [a, b, c, d]).flatten) (4 * k) = ⟨a, b, c, d⟩ := by
  induction n with
  | zero => intro k hk; omega
  | succ n ih =>
    intro k hk
    rw [List.replicate_succ, List.flatten_cons]
    cases k with
    | zero => rfl
    | succ k =>
      have h := ih k (by omega)
      have e : 4 * (k + 1) = 4 * k + 4 := by ring
      rw [e]
      unfold Canvas.read4 at h ⊢
      simpa [List.getD_cons_succ, Nat.add_right_comm _ 4] using h

theorem length_flatten_replicate (l : List Byte) (n : Nat) :
    ((List.replicate n l).flatten).length = n * l.length := by
  induction n with
  | zero => simp
  | succ n ih => rw [List.replicate_succ, List.flatten_cons, List.length_append, ih]; ring

theorem blurPixel_uniform (c : Canvas) (hwf : c.WellFormed) (col : RGBA)
    (hcol : ∀ a b, (Point.mk a b).In c.Rect → c.stored a b = col)
    (x y r : Int) (hr : 0 ≤ r) (hx0 : intMin ≤ x - r) (hx1 : x + r + 1 ≤ intMax)
    (hy0 : intMin ≤ y - r) (hy1 : y + r + 1 ≤ intMax) :
    c.BlurPixel exactOps x y r constantKernel = some
      ⟨toUint8 (ratTrunc (((inBoundsOffsets c x y r).length * (((col.R.val : Int) * 257 : Int) : Rat)) /
        (((rectBlock (-r) r (-r) r).length : Rat) * 255))),
       toUint8 (ratTrunc (((inBoundsOffsets c x y r).length * (((col.G.val : Int) * 257 : Int) : Rat)) /
        (((rectBlock (-r) r (-r) r).length : Rat) * 255))),
       toUint8 (ratTrunc (((inBoundsOffsets c x y r).length * (((col.B.val : Int) * 257 : Int) : Rat)) /
        (((rectBlock (-r) r (-r) r).length : Rat) * 255))),
       255⟩ := by
  have h2 := blurSums_eq_byOffsets exactOps hwf x y r constantKernel hr hx0 hx1 hy0 hy1
  have hterm : ∀ ch : RGBA → Byte,
      ((inBoundsOffsets c x y r).map (channelTerm c x y constantKernel ch)).sum =
        (inBoundsOffsets c x y r).length * ((((ch col).val : Int) * 257 : Int) : Rat) := by
    intro ch
    have e : (inBoundsOffsets c x y r).map (channelTerm c x y constantKernel ch) =
        (inBoundsOffsets c x y r).map (fun _ => ((((ch col).val : Int) * 257 : Int) : Rat)) := by
      apply List.map_congr_left
      intro d hd
      have hin : (Point.mk (x + d.1) (y + d.2)).In c.Rect := by
        unfold inBoundsOffsets at hd
        exact of_decide_eq_true (List.mem_filter.1 hd).2
      unfold channelTerm
      rw [hcol _ _ hin]
      show _ * (1 : Rat) = _
      rw [mul_one]
    rw [e, List.map_const', List.sum_replicate, nsmul_eq_mul]
  have hw : ((rectBlock (-r) r (-r) r).map (fun d => constantKernel.Weight d.1 d.2)).sum =
      ((rectBlock (-r) r (-r) r).length : Rat) := by
    have e : (rectBlock (-r) r (-r) r).map (fun d => constantKernel.Weight d.1 d.2) =
        (rectBlock (-r) r (-r) r).map (fun _ => (1 : Rat)) := rfl
    rw [e, List.map_const', List.sum_replicate, nsmul_eq_mul, mul_one]
  unfold Canvas.BlurPixel
  rw [h2, sumsByOffsets_exact, hterm, hterm, hterm, hw]
  rfl

theorem grey129x128_wellFormed : grey129x128.WellFormed := by
  have hl : grey129x128.Pix.length = 66048 := length_flatten_replicate _ _
  refine ⟨by decide, by decide, by decide, by decide, by decide, by decide, by decide, by decide,
    ?_, by decide⟩
  rw [hl]
  decide

theorem grey129x128_stored (a b : Int) (h : (Point.mk a b).In grey129x128.Rect) :
    grey129x128.stored a b = ⟨200, 200, 200, 255⟩ := by
  unfold Canvas.stored
  rw [if_pos h]
  have h1 : 0 ≤ a ∧ a < 129 ∧ 0 ≤ b ∧ b < 128 := h
  apply read4_flatten_replicate
  unfold Canvas.pixIdx
  show ((b - 0) * (129 - 0) + (a - 0)).toNat < 16512
  omega

theorem length_filter_product (p1 p2 : Int → Bool) (xs ys : List Int) :
    ((xs ×ˢ ys).filter (fun d => p1 d.1 && p2 d.2)).length =
      (xs.filter p1).length * (ys.filter p2).length := by
  induction xs with
  | nil => simp
  | cons i is ih =>
    rw [List.product_cons, List.filter_append, List.length_append, ih, List.filter_map,
      List.length_map]
    cases hp : p1 i with
    | true =>
      rw [List.filter_cons_of_pos hp, List.length_cons]
      have e : (fun d : Int × Int => p1 d.1 && p2 d.2) ∘ Prod.mk i = p2 := by
        funext j
        simp [hp]
      rw [e]
      ring
    | false =>
      rw [List.filter_cons_of_neg (by simp [hp])]
      have e : (fun d : Int × Int => p1 d.1 && p2 d.2) ∘ Prod.mk i = fun _ => false := by
        funext j
        simp [hp]
      rw [e]
      simp

theorem grey129x128_inBounds : (inBoundsOffsets grey129x128 64 63 64).length = 16512 := by
  have e : inBoundsOffsets grey129x128 64 63 64 =
      ((intRange (-64) (64 + 1)) ×ˢ (intRange (-64) (64 + 1))).filter
        (fun d => decide (0 ≤ 64 + d.1 ∧ 64 + d.1 < 129) &&
          decide (0 ≤ 63 + d.2 ∧ 63 + d.2 < 128)) := by
    unfold inBoundsOffsets rectBlock
    apply List.filter_congr
    intro d _
    show decide ((0 : Int) ≤ 64 + d.1 ∧ 64 + d.1 < 129 ∧ (0 : Int) ≤ 63 + d.2 ∧ 63 + d.2 < 128) = _
    simp only [Bool.decide_and, Bool.and_assoc]
  rw [e, length_filter_product (fun dx => decide (0 ≤ 64 + dx ∧ 64 + dx < 129))
    (fun dy => decide (0 ≤ 63 + dy ∧ 63 + dy < 128))]
  decide!

theorem grey129x128_blurPixel :
    grey129x128.BlurPixel exactOps 64 63 64 constantKernel = some ⟨200, 200, 200, 255⟩ := by
  have hN : (rectBlock (-64) 64 (-64) 64).length = 16641 := by
    have h := @length_rectBlock (-64) 64 (-64) 64 (by decide) (by decide)
    have h2 : ((rectBlock (-64) 64 (-64) 64).length : Int) = ((16641 : Nat) : Int) := by
      rw [h]
      decide
    exact_mod_cast h2
  rw [blurPixel_uniform grey129x128 grey129x128_wellFormed ⟨200, 200, 200, 255⟩
    grey129x128_stored 64 63 64 (by decide) (by decide) (by decide) (by decide) (by decide),
    grey129x128_inBounds, hN]
  decide!

theorem foldl_offsetStep {F : Type} (fl : Float64Ops F) (c : Canvas) (x y : Int)
    (weight : WeightFunction F) (l : List (Int × Int)) :
    ∀ acc : BlurAcc F, l.foldl (offsetStep fl c x y weight) acc =
      ⟨l.foldl (fun a d => fl.add a (channelProduct fl c x y weight RGBA.R d)) acc.outR,
       l.foldl (fun a d => fl.add a (channelProduct fl c x y weight RGBA.G d)) acc.outG,
       l.foldl (fun a d => fl.add a (channelProduct fl c x y weight RGBA.B d)) acc.outB,
       l.foldl (fun a d => fl.add a (weight.Weight d.1 d.2)) acc.weightSum⟩ := by
  induction l with
  | nil => intro acc; rfl
  | cons d ds ih =>
    intro acc
    rw [List.foldl_cons, ih]
    rfl

theorem sumsByOffsets_eq_sumOver {F : Type} (fl : Float64Ops F) (c : Canvas) (x y r : Int)
    (weight : WeightFunction F) :
    sumsByOffsets fl c x y r weight =
      ⟨sumOver fl (rectBlock (-r) r (-r) r) (channelProduct fl c x y weight RGBA.R),
       sumOver fl (rectBlock (-r) r (-r) r) (channelProduct fl c x y weight RGBA.G),
       sumOver fl (rectBlock (-r) r (-r) r) (channelProduct fl c x y weight RGBA.B),
       sumOver fl (rectBlock (-r) r (-r) r) (fun d => weight.Weight d.1 d.2)⟩ := by
  unfold sumsByOffsets sumOver
  rw [foldl_offsetStep]

theorem foldl_filter_of_fixed {α β : Type} (g : β → α → β) (p : α → Bool) (l : List α)
    (h : ∀ a, ∀ d ∈ l, p d = false → g a d = a) :
    ∀ a, l.foldl g a = (l.filter p).foldl g a := by
  induction l with
  | nil => intro a; rfl
  | cons d ds ih =>
    intro a
    have ih1 := ih (fun a e he => h a e (List.mem_cons_of_mem _ he))
    cases hp : p d with
    | true => rw [List.filter_cons_of_pos hp, List.foldl_cons, List.foldl_cons, ih1]
    | false =>
      rw [List.filter_cons_of_neg (by simp [hp]), List.foldl_cons,
        h a d (List.mem_cons_self _ _) hp, ih1]

theorem channelProduct_outside {F : Type} (fl : Float64Ops F) (c : Canvas) (x y : Int)
    (weight : WeightFunction F) (ch : RGBA → Byte) (hch : ch ⟨0, 0, 0, 0⟩ = 0) (d : Int × Int)
    (hout : ¬ (Point.mk (x + d.1) (y + d.2)).In c.Rect) :
    channelProduct fl c x y weight ch d = fl.mul (fl.ofInt 0) (weight.Weight d.1 d.2) := by
  unfold channelProduct Canvas.stored
  rw [if_neg hout, hch]
  rfl

/-! ### The claims -/

/-- Claim C1: at a coordinate outside the bounds of any canvas, `Set` returns
the canvas unchanged (same buffer, stride and bounds) and `At` returns the zero
colour; both return a result. -/
theorem c1_outside_set_noop_at_zero (c : Canvas) (col : RGBA) (x y : Int)
    (hout : ¬ (c.Rect.Min.X ≤ x ∧ x < c.Rect.Max.X ∧ c.Rect.Min.Y ≤ y ∧ y < c.Rect.Max.Y)) :
    c.Set x y col = some c ∧ c.At x y = some ⟨0, 0, 0, 0⟩ := by
  have h : ¬ (Point.mk x y).In c.Rect := hout
  simp [Canvas.Set, Canvas.At, h]

/-- Claim C1, witness: the coordinate `(5, 0)` lies outside the blank 2×2 canvas. -/
theorem c1_outside_witness :
    ¬ (blank2x2.Rect.Min.X ≤ 5 ∧ 5 < blank2x2.Rect.Max.X ∧
        blank2x2.Rect.Min.Y ≤ 0 ∧ 0 < blank2x2.Rect.Max.Y) ∧
    blank2x2.Set 5 0 ⟨1, 2, 3, 4⟩ = some blank2x2 ∧ blank2x2.At 5 0 = some ⟨0, 0, 0, 0⟩ :=
  ⟨by decide, c1_outside_set_noop_at_zero blank2x2 ⟨1, 2, 3, 4⟩ 5 0 (by decide)⟩

/-- Claim C2: for a canvas `c` built by `NewCanvas` and the drawing operations,
held in the heap as the value `v`, `Clone` returns a value `v1` that denotes a
canvas with the bounds of `c` and a byte-identical buffer (so `At` agrees
everywhere) and leaves `c` as it was; afterwards a call of any method (such as
`Set` or a drawing operation) on the clone leaves the canvas of `v` unchanged,
a call on `v` leaves the canvas of the clone unchanged, and a `Set` on the
clone does return. -/
theorem c2_clone_identical_and_independent {F : Type} (fl : Float64Ops F) (h : Heap)
    (v : CanvasRef) (c : Canvas) (hload : h.load v = some c) (hb : Built fl c) :
    ∃ h1 v1, h.Clone v = some (h1, v1) ∧
      (∃ c1, h1.load v1 = some c1 ∧ c1.Rect = c.Rect ∧ c1.Pix = c.Pix ∧
        ∀ x y, c1.At x y = c.At x y) ∧
      h1.load v = some c ∧
      (∀ (m : Canvas → Option Canvas) (h2 : Heap),
        h1.call v1 m = some h2 → h2.load v = some c) ∧
      (∀ (m : Canvas → Option Canvas) (h2 : Heap),
        h1.call v m = some h2 → h2.load v1 = h1.load v1) ∧
      (∀ (x y : Int) (col : RGBA), ∃ h2, h1.call v1 (fun k => k.Set x y col) = some h2) := by
  have hwf := built_wellFormed hb
  obtain ⟨hcl, hv⟩ := heap_clone_spec h v c hload hwf
  have hfresh : Heap.load (h ++ [c.Pix]) ⟨h.length, c.Stride, c.Rect⟩ = some c :=
    heap_load_fresh h c.Pix c.Stride c.Rect
  have hkeep : Heap.load (h ++ [c.Pix]) v = some c := by
    rw [heap_load_append h _ v hv]; exact hload
  refine ⟨h ++ [c.Pix], ⟨h.length, c.Stride, c.Rect⟩, hcl, ⟨c, hfresh, rfl, rfl, fun _ _ => rfl⟩,
    hkeep, ?_, ?_, ?_⟩
  · intro m h2 hc
    rw [heap_call_other _ h2 v ⟨h.length, c.Stride, c.Rect⟩ m (by show h.length ≠ v.pix; omega) hc]
    exact hkeep
  · intro m h2 hc
    exact heap_call_other _ h2 ⟨h.length, c.Stride, c.Rect⟩ v m (by show v.pix ≠ h.length; omega) hc
  · intro x y col
    obtain ⟨c2, hs, -⟩ := set_shape hwf x y col
    unfold Heap.call
    rw [hfresh, Option.some_bind]
    simp only [hs, Option.map_some']
    exact ⟨_, rfl⟩

/-- Claim C2, witness: the blank 2×2 canvas returned by `NewCanvas`, held at
address 0 of a heap with one array. -/
theorem c2_clone_witness :
    Heap.load [blank2x2.Pix] ⟨0, 8, ⟨⟨0, 0⟩, ⟨2, 2⟩⟩⟩ = some blank2x2 ∧
    ∃ h1 v1, Heap.Clone [blank2x2.Pix] ⟨0, 8, ⟨⟨0, 0⟩, ⟨2, 2⟩⟩⟩ = some (h1, v1) ∧
      (∃ c1, h1.load v1 = some c1 ∧ c1.Rect = blank2x2.Rect ∧ c1.Pix = blank2x2.Pix ∧
        ∀ x y, c1.At x y = blank2x2.At x y) ∧
      h1.load ⟨0, 8, ⟨⟨0, 0⟩, ⟨2, 2⟩⟩⟩ = some blank2x2 ∧
      (∀ (m : Canvas → Option Canvas) (h2 : Heap),
        h1.call v1 m = some h2 → h2.load ⟨0, 8, ⟨⟨0, 0⟩, ⟨2, 2⟩⟩⟩ = some blank2x2) ∧
      (∀ (m : Canvas → Option Canvas) (h2 : Heap),
        h1.call ⟨0, 8, ⟨⟨0, 0⟩, ⟨2, 2⟩⟩⟩ m = some h2 → h2.load v1 = h1.load v1) ∧
      (∀ (x y : Int) (col : RGBA), ∃ h2, h1.call v1 (fun k => k.Set x y col) = some h2) :=
  ⟨by decide, c2_clone_identical_and_independent exactOps [blank2x2.Pix]
    ⟨0, 8, ⟨⟨0, 0⟩, ⟨2, 2⟩⟩⟩ blank2x2 (by decide)
    (Built.newCanvas ⟨⟨0, 0⟩, ⟨2, 2⟩⟩ blank2x2 (by decide) (by decide))⟩

/-- Claim C3, amended: for a rectangle of non-negative width `W = Dx` and height
`H = Dy` whose row of `4·W` bytes and buffer of `4·W·H` bytes are within the
allocation limit, `NewCanvas` returns a canvas with these bounds whose buffer
has length `W·H·4`, all bytes zero; and on every canvas `Clone`, `Set`,
`DrawGradient`, `DrawLine`, `DrawSpiral` and `Blur` return a canvas with the
same bounds and buffer length, as do `DrawCircle` and `DrawRect` whenever they
return, which they do unless the radius, or a coordinate of the upper corner,
is the largest `int`. -/
theorem c3_buffer_size_invariant {F : Type} (fl : Float64Ops F) (r : Rectangle)
    (hw : 0 ≤ r.Dx) (hh : 0 ≤ r.Dy) (h4 : 4 * r.Dx ≤ maxAlloc)
    (ha : 4 * r.Dx * r.Dy ≤ maxAlloc) (c : Canvas) (hwf : c.WellFormed) :
    (∃ c0, NewCanvas r = some c0 ∧ c0.Rect = r ∧ (c0.Pix.length : Int) = r.Dx * r.Dy * 4 ∧
      ∀ b ∈ c0.Pix, b = 0) ∧
    (∃ c1, c.Clone = some c1 ∧ SameShape c c1) ∧
    (∀ x y col, ∃ c1, c.Set x y col = some c1 ∧ SameShape c c1) ∧
    (∃ c1, c.DrawGradient = some c1 ∧ SameShape c c1) ∧
    (∀ col from_ to_, ∃ c1, c.DrawLine fl col from_ to_ = some c1 ∧ SameShape c c1) ∧
    (∀ col start, ∃ c1, c.DrawSpiral fl col start = some c1 ∧ SameShape c c1) ∧
    (∀ color center radius,
      (radius ≠ intMax → ∃ c1, c.DrawCircle fl color center radius = some c1) ∧
      ∀ c1, c.DrawCircle fl color center radius = some c1 → SameShape c c1) ∧
    (∀ col from_ to_,
      (fl.toInt to_.X ≠ intMax → fl.toInt to_.Y ≠ intMax →
        ∃ c1, c.DrawRect fl col from_ to_ = some c1) ∧
      ∀ c1, c.DrawRect fl col from_ to_ = some c1 → SameShape c c1) ∧
    (∀ radius weight, ∃ c1, c.Blur fl radius weight = some c1 ∧ SameShape c c1) := by
  refine ⟨?_, ⟨c, clone_of_wellFormed hwf, sameShape_refl hwf⟩,
    fun x y col => set_shape hwf x y col, drawGradient_shape hwf,
    fun col from_ to_ => drawLine_shape fl hwf col from_ to_,
    fun col start => drawSpiral_shape fl hwf col start,
    fun color center radius => drawCircle_shape fl hwf color center radius,
    fun col from_ to_ => drawRect_shape fl hwf col from_ to_, ?_⟩
  · refine ⟨_, newCanvas_spec hw hh (by unfold maxAlloc at h4; omega) ha, rfl, ?_, ?_⟩
    · show ((List.replicate (4 * r.Dx * r.Dy).toNat (0 : Byte)).length : Int) = r.Dx * r.Dy * 4
      rw [List.length_replicate]
      have h0 : 0 ≤ 4 * r.Dx * r.Dy := by positivity
      have e : 4 * r.Dx * r.Dy = r.Dx * r.Dy * 4 := by ring
      omega
    · intro b hb
      exact List.eq_of_mem_replicate hb
  · intro radius weight
    obtain ⟨c1, h1, hp⟩ := blur_painted_region fl c hwf radius weight
    exact ⟨c1, h1, sameShape_of_painted hp⟩

/-- Claim C3, witness: the rectangle from `(0,0)` to `(2,2)` and the 2×2 canvas
whose bytes are all 7. -/
theorem c3_buffer_size_witness :
    0 ≤ (Rectangle.mk ⟨0, 0⟩ ⟨2, 2⟩).Dx ∧ 0 ≤ (Rectangle.mk ⟨0, 0⟩ ⟨2, 2⟩).Dy ∧
    4 * (Rectangle.mk ⟨0, 0⟩ ⟨2, 2⟩).Dx ≤ maxAlloc ∧
    4 * (Rectangle.mk ⟨0, 0⟩ ⟨2, 2⟩).Dx * (Rectangle.mk ⟨0, 0⟩ ⟨2, 2⟩).Dy ≤ maxAlloc ∧
    sevens2x2.WellFormed ∧
    (∃ c0, NewCanvas ⟨⟨0, 0⟩, ⟨2, 2⟩⟩ = some c0 ∧ c0.Rect = ⟨⟨0, 0⟩, ⟨2, 2⟩⟩ ∧
      (c0.Pix.length : Int) =
        (Rectangle.mk ⟨0, 0⟩ ⟨2, 2⟩).Dx * (Rectangle.mk ⟨0, 0⟩ ⟨2, 2⟩).Dy * 4 ∧
      ∀ b ∈ c0.Pix, b = 0) ∧
    (∃ c1, sevens2x2.Clone = some c1 ∧ SameShape sevens2x2 c1) ∧
    (∃ c1, sevens2x2.DrawGradient = some c1 ∧ SameShape sevens2x2 c1) ∧
    (∀ radius weight, ∃ c1, sevens2x2.Blur exactOps radius weight = some c1 ∧
      SameShape sevens2x2 c1) :=
  have h := c3_buffer_size_invariant exactOps ⟨⟨0, 0⟩, ⟨2, 2⟩⟩ (by decide) (by decide)
    (by decide) (by decide) sevens2x2 (by decide)
  ⟨by decide, by decide, by decide, by decide, by decide, h.1, h.2.1, h.2.2.2.1,
    h.2.2.2.2.2.2.2.2⟩

/-- Counterexample to claim C3 as stated: the rectangle from `(0,0)` to
`(2³¹, 2³¹)` has non-negative width and height, and `NewCanvas` does not
return a canvas for it (it panics: the buffer would have `2⁶⁴` bytes). -/
theorem c3_counterexample_huge_rectangle :
    0 ≤ (Rectangle.mk ⟨0, 0⟩ ⟨2147483648, 2147483648⟩).Dx ∧
    0 ≤ (Rectangle.mk ⟨0, 0⟩ ⟨2147483648, 2147483648⟩).Dy ∧
    NewCanvas ⟨⟨0, 0⟩, ⟨2147483648, 2147483648⟩⟩ = none := by
  decide

/-- Claim C4: on a canvas of width `W > 0` and height `H > 0` with origin
`(0,0)`, whatever its contents, `DrawGradient` returns and leaves every pixel
`(x, y)` equal to `(⌊255·x/W⌋, ⌊255·y/H⌋, 155, 255)`, the quotients being stored
without wrap-around; in particular pixel `(0,0)` is `(0,0,155,255)` and pixel
`(W-1, H-1)` is `(⌊255·(W-1)/W⌋, ⌊255·(H-1)/H⌋, 155, 255)`. -/
theorem c4_gradient_pixels (c : Canvas) (W H : Int) (hwf : c.WellFormed)
    (hrect : c.Rect = ⟨⟨0, 0⟩, ⟨W, H⟩⟩) (hW : 0 < W) (hH : 0 < H) :
    ∃ c1, c.DrawGradient = some c1 ∧
      (∀ x y, 0 ≤ x → x < W → 0 ≤ y → y < H →
        ∃ col, c1.At x y = some col ∧ (col.R.val : Int) = 255 * x / W ∧
          (col.G.val : Int) = 255 * y / H ∧ col.B = 155 ∧ col.A = 255) ∧
      c1.At 0 0 = some ⟨0, 0, 155, 255⟩ ∧
      (∃ col, c1.At (W - 1) (H - 1) = some col ∧ (col.R.val : Int) = 255 * (W - 1) / W ∧
          (col.G.val : Int) = 255 * (H - 1) / H ∧ col.B = 155 ∧ col.A = 255) := by
  obtain ⟨c1, h1, hp⟩ := gradient_painted c W H hwf hrect
  obtain ⟨-, -, -, -, hset, -⟩ := hp
  have hin0 : (Point.mk 0 0).In c.Rect := by
    rw [hrect]; exact ⟨le_refl _, hW, le_refl _, hH⟩
  obtain ⟨-, -, -, -, bx, bEy⟩ := wf_dims hwf hin0
  rw [hrect] at bx bEy
  simp only [sub_zero] at bx bEy
  have key : ∀ x y, 0 ≤ x → x < W → 0 ≤ y → y < H →
      ∃ col, c1.At x y = some col ∧ (col.R.val : Int) = 255 * x / W ∧
        (col.G.val : Int) = 255 * y / H ∧ col.B = 155 ∧ col.A = 255 := by
    intro x y hx0 hx1 hy0 hy1
    have hin : (Point.mk x y).In c.Rect := by
      rw [hrect]; exact ⟨hx0, hx1, hy0, hy1⟩
    exact ⟨_, hset x y hin trivial, gradient_channel hx0 hx1 bx, gradient_channel hy0 hy1 bEy,
      rfl, rfl⟩
  refine ⟨c1, h1, key, ?_, key (W - 1) (H - 1) (by omega) (by omega) (by omega) (by omega)⟩
  rw [hset 0 0 hin0 trivial]
  have e1 : imul 255 0 = 0 := by decide
  have e2 : ∀ z : Int, idiv 0 z = 0 := by
    intro z; unfold idiv; rw [Int.zero_tdiv]; decide
  simp only [e1, e2]
  rfl

/-- Claim C4, witness: the 2×2 canvas whose bytes are all 7. -/
theorem c4_gradient_witness :
    sevens2x2.WellFormed ∧ (0 : Int) < 2 ∧
    ∃ c1, sevens2x2.DrawGradient = some c1 ∧
      (∀ x y, 0 ≤ x → x < 2 → 0 ≤ y → y < 2 →
        ∃ col, c1.At x y = some col ∧ (col.R.val : Int) = 255 * x / 2 ∧
          (col.G.val : Int) = 255 * y / 2 ∧ col.B = 155 ∧ col.A = 255) ∧
      c1.At 0 0 = some ⟨0, 0, 155, 255⟩ ∧
      (∃ col, c1.At (2 - 1) (2 - 1) = some col ∧ (col.R.val : Int) = 255 * (2 - 1) / 2 ∧
          (col.G.val : Int) = 255 * (2 - 1) / 2 ∧ col.B = 155 ∧ col.A = 255) :=
  ⟨by decide, by decide,
    c4_gradient_pixels sevens2x2 2 2 (by decide) rfl (by decide) (by decide)⟩

/-- Claim C5: on a canvas with origin `(0,0)`, for every radius and weight
function, `Blur` returns a canvas in which each in-bounds pixel `(x, y)` holds
the colour that `BlurPixel` computes at `(x, y)` on the canvas as it was before
the call. -/
theorem c5_blur_reads_snapshot {F : Type} (fl : Float64Ops F) (c : Canvas) (W H : Int)
    (hwf : c.WellFormed) (hrect : c.Rect = ⟨⟨0, 0⟩, ⟨W, H⟩⟩) (radius : Int)
    (weight : WeightFunction F) :
    ∃ c1, c.Blur fl radius weight = some c1 ∧
      ∀ x y, 0 ≤ x → x < W → 0 ≤ y → y < H →
        ∃ col, c.BlurPixel fl x y radius weight = some col ∧ c1.At x y = some col := by
  obtain ⟨c1, h1, hp⟩ := blur_painted fl c W H hwf hrect radius weight
  refine ⟨c1, h1, ?_⟩
  intro x y hx0 hx1 hy0 hy1
  obtain ⟨col, hc, -⟩ := blurPixel_total fl hwf x y radius weight
  refine ⟨col, hc, ?_⟩
  have hin : (Point.mk x y).In c.Rect := by
    rw [hrect]; exact ⟨hx0, hx1, hy0, hy1⟩
  rw [hp.2.2.2.2.1 x y hin trivial]
  show some ((c.BlurPixel fl x y radius weight).getD ⟨0, 0, 0, 0⟩) = some col
  rw [hc]
  rfl

/-- Claim C5, witness: the grey 3×3 canvas, radius 1 and the constant kernel. -/
theorem c5_blur_witness :
    grey3x3.WellFormed ∧
    ∃ c1, grey3x3.Blur exactOps 1 constantKernel = some c1 ∧
      ∀ x y, 0 ≤ x → x < 3 → 0 ≤ y → y < 3 →
        ∃ col, grey3x3.BlurPixel exactOps x y 1 constantKernel = some col ∧
          c1.At x y = some col :=
  ⟨by decide, c5_blur_reads_snapshot exactOps grey3x3 3 3 (by decide) rfl 1 constantKernel⟩

/-- Claim C6, the code at the failing input: on the 3×3 canvas whose pixels are
all `(200, 200, 200, 255)`, with radius 1 and the constant kernel, the interior
pixel `(1, 1)` is `(200, 200, 200, 255)` before `Blur` and `(201, 201, 201, 255)`
after it: each channel is `9·51400 / (9·255) = 201.57` truncated.  The sums are
integers below `2⁵³`, so `float64` computes the same values. -/
theorem c6_uniform_interior_pixel_changes :
    grey3x3.WellFormed ∧
    (∀ x ∈ [0, 1, 2], ∀ y ∈ [0, 1, 2], grey3x3.At x y = some ⟨200, 200, 200, 255⟩) ∧
    (grey3x3.Blur exactOps 1 constantKernel).bind (fun c1 => c1.At 1 1) =
      some ⟨201, 201, 201, 255⟩ := by
  decide!

/-- Claim C7, the code at the failing input: on the 1×1 white canvas, with
radius 0 and the constant kernel (weight sum 1), the quotient that `BlurPixel`
computes for the red channel is `65535 / (1 · 255) = 257`, above 255.  All the
values are integers, so `float64` computes the same ones. -/
theorem c7_white_pixel_quotient_is_257 :
    (blurSums exactOps white1x1 0 0 0 constantKernel).map
        (fun acc => (acc.outR, acc.weightSum, blurQuot exactOps acc.outR acc.weightSum)) =
      some (65535, 1, 257) ∧
    ¬ ((257 : Rat) ≤ 255) := by
  decide!

/-- Claim C8: `BlurPixel` returns a colour at every pixel of a canvas, for every
radius and weight function, and a colour it returns has alpha 255 (on any
buffer whatever); after `Blur` every in-bounds pixel of a canvas with origin
`(0,0)` has alpha 255. -/
theorem c8_blur_alpha_opaque {F : Type} (fl : Float64Ops F) (c : Canvas) (W H : Int)
    (hwf : c.WellFormed) (hrect : c.Rect = ⟨⟨0, 0⟩, ⟨W, H⟩⟩) (radius : Int)
    (weight : WeightFunction F) :
    (∀ x y, ∃ col, c.BlurPixel fl x y radius weight = some col ∧ col.A = 255) ∧
    (∀ (c0 : Canvas) (x y radius : Int) (weight : WeightFunction F) (col : RGBA),
      c0.BlurPixel fl x y radius weight = some col → col.A = 255) ∧
    ∃ c1, c.Blur fl radius weight = some c1 ∧
      ∀ x y, 0 ≤ x → x < W → 0 ≤ y → y < H → ∃ col, c1.At x y = some col ∧ col.A = 255 := by
  refine ⟨fun x y => blurPixel_total fl hwf x y radius weight,
    fun c0 x y radius weight col h => blurPixel_alpha fl c0 x y radius weight col h, ?_⟩
  obtain ⟨c1, h1, hp⟩ := blur_painted fl c W H hwf hrect radius weight
  refine ⟨c1, h1, ?_⟩
  intro x y hx0 hx1 hy0 hy1
  obtain ⟨col, hc, ha⟩ := blurPixel_total fl hwf x y radius weight
  refine ⟨col, ?_, ha⟩
  have hin : (Point.mk x y).In c.Rect := by
    rw [hrect]; exact ⟨hx0, hx1, hy0, hy1⟩
  rw [hp.2.2.2.2.1 x y hin trivial]
  show some ((c.BlurPixel fl x y radius weight).getD ⟨0, 0, 0, 0⟩) = some col
  rw [hc]
  rfl

/-- Claim C8, witness: the grey 3×3 canvas, radius 1 and the constant kernel. -/
theorem c8_blur_alpha_witness :
    grey3x3.WellFormed ∧
    (∀ x y, ∃ col, grey3x3.BlurPixel exactOps x y 1 constantKernel = some col ∧ col.A = 255) ∧
    (∀ (c0 : Canvas) (x y radius : Int) (weight : WeightFunction Rat) (col : RGBA),
      c0.BlurPixel exactOps x y radius weight = some col → col.A = 255) ∧
    ∃ c1, grey3x3.Blur exactOps 1 constantKernel = some c1 ∧
      ∀ x y, 0 ≤ x → x < 3 → 0 ≤ y → y < 3 → ∃ col, c1.At x y = some col ∧ col.A = 255 :=
  ⟨by decide, c8_blur_alpha_opaque exactOps grey3x3 3 3 (by decide) rfl 1 constantKernel⟩

/-- Claim C9, amended: when no `int` operation overflows (`2·r² ≤ 2⁶³-1` and the
truncated centre `(cx, cy)` moved by `±r` stays an `int`), `DrawCircle` with
radius `r ≥ 0` returns, sets to the colour every in-bounds pixel
`(cx+dx, cy+dy)` with `dx² + dy² ≤ r²`, and leaves every other pixel unchanged. -/
theorem c9_circle_disc {F : Type} (fl : Float64Ops F) (c : Canvas) (hwf : c.WellFormed)
    (color : RGBA) (center : Vector F) (r : Int) (hr0 : 0 ≤ r) (hr : 2 * (r * r) ≤ intMax)
    (hcx1 : intMin ≤ fl.toInt center.X - r) (hcx2 : fl.toInt center.X + r ≤ intMax)
    (hcy1 : intMin ≤ fl.toInt center.Y - r) (hcy2 : fl.toInt center.Y + r ≤ intMax) :
    ∃ c1, c.DrawCircle fl color center r = some c1 ∧ c1.Rect = c.Rect ∧
      (∀ dx dy : Int, dx * dx + dy * dy ≤ r * r →
        (Point.mk (fl.toInt center.X + dx) (fl.toInt center.Y + dy)).In c.Rect →
        c1.At (fl.toInt center.X + dx) (fl.toInt center.Y + dy) = some color) ∧
      (∀ a b : Int,
        ¬ ((Point.mk a b).In c.Rect ∧ ∃ dx dy : Int, dx * dx + dy * dy ≤ r * r ∧
            a = fl.toInt center.X + dx ∧ b = fl.toInt center.Y + dy) →
        c1.At a b = c.At a b) := by
  have hrr : r * r ≤ intMax := by
    have := mul_self_nonneg r
    omega
  have hrmax : r ≠ intMax := by
    intro h
    rw [h] at hrr
    exact absurd hrr (by decide)
  have hr1 : r < intMax := by
    have hle : r ≤ r * r := by nlinarith
    omega
  obtain ⟨c1, h1, hp⟩ := drawCircle_painted fl hwf color center r hrmax
  have hneg : ineg r = -r := by
    unfold ineg wrap; unfold intMax at hr1; omega
  have hS : ∀ a b : Int,
      (∃ x ∈ intRange (ineg r) (r + 1), ∃ y ∈ intRange (ineg r) (r + 1),
        iadd (imul x x) (imul y y) ≤ imul r r ∧
          a = iadd (fl.toInt center.X) x ∧ b = iadd (fl.toInt center.Y) y) ↔
      ∃ dx dy : Int, dx * dx + dy * dy ≤ r * r ∧
        a = fl.toInt center.X + dx ∧ b = fl.toInt center.Y + dy := by
    intro a b
    have hadd : ∀ (z d : Int), intMin ≤ z - r → z + r ≤ intMax → -r ≤ d → d ≤ r →
        iadd z d = z + d := by
      intro z d h1 h2 h3 h4
      unfold intMin at h1; unfold intMax at h2
      unfold iadd wrap; omega
    constructor
    · rintro ⟨x, hx, y, hy, ht, ha, hb⟩
      rw [hneg] at hx hy
      obtain ⟨hx1, hx2⟩ := mem_intRange.1 hx
      obtain ⟨hy1, hy2⟩ := mem_intRange.1 hy
      refine ⟨x, y, (circle_test_exact hr hx1 (by omega) hy1 (by omega)).1 ht, ?_, ?_⟩
      · rw [ha, hadd _ _ hcx1 hcx2 hx1 (by omega)]
      · rw [hb, hadd _ _ hcy1 hcy2 hy1 (by omega)]
    · rintro ⟨dx, dy, ht, ha, hb⟩
      have hxb := abs_bound_of_sq_le hr0 (by have := mul_self_nonneg dy; omega : dx * dx ≤ r * r)
      have hyb := abs_bound_of_sq_le hr0 (by have := mul_self_nonneg dx; omega : dy * dy ≤ r * r)
      refine ⟨dx, ?_, dy, ?_, ?_, ?_, ?_⟩
      · rw [hneg]; exact mem_intRange.2 ⟨hxb.1, by omega⟩
      · rw [hneg]; exact mem_intRange.2 ⟨hyb.1, by omega⟩
      · exact (circle_test_exact hr hxb.1 hxb.2 hyb.1 hyb.2).2 ht
      · rw [ha, hadd _ _ hcx1 hcx2 hxb.1 hxb.2]
      · rw [hb, hadd _ _ hcy1 hcy2 hyb.1 hyb.2]
  have hp2 := painted_congr hp (fun a b _ => hS a b)
  obtain ⟨-, hrect, -, -, hset, hkeep⟩ := hp2
  refine ⟨c1, h1, hrect, ?_, hkeep⟩
  intro dx dy ht hin
  exact hset _ _ hin ⟨dx, dy, ht, rfl, rfl⟩

/-- Claim C9, witness: the blank 2×2 canvas, centre `(1, 1)` and radius 1. -/
theorem c9_circle_witness :
    blank2x2.WellFormed ∧ (0 : Int) ≤ 1 ∧ 2 * ((1 : Int) * 1) ≤ intMax ∧
    intMin ≤ exactOps.toInt 1 - 1 ∧ exactOps.toInt 1 + 1 ≤ intMax ∧
    ∃ c1, blank2x2.DrawCircle exactOps ⟨1, 2, 3, 4⟩ ⟨1, 1⟩ 1 = some c1 ∧
      c1.Rect = blank2x2.Rect ∧
      (∀ dx dy : Int, dx * dx + dy * dy ≤ 1 * 1 →
        (Point.mk (exactOps.toInt 1 + dx) (exactOps.toInt 1 + dy)).In blank2x2.Rect →
        c1.At (exactOps.toInt 1 + dx) (exactOps.toInt 1 + dy) = some ⟨1, 2, 3, 4⟩) ∧
      (∀ a b : Int,
        ¬ ((Point.mk a b).In blank2x2.Rect ∧ ∃ dx dy : Int, dx * dx + dy * dy ≤ 1 * 1 ∧
            a = exactOps.toInt 1 + dx ∧ b = exactOps.toInt 1 + dy) →
        c1.At a b = blank2x2.At a b) :=
  ⟨by decide, by decide, by decide, by decide, by decide,
    c9_circle_disc exactOps blank2x2 (by decide) ⟨1, 2, 3, 4⟩ ⟨1, 1⟩ 1 (by decide) (by decide)
      (by decide) (by decide) (by decide) (by decide)⟩

/-- Counterexample to claim C9 as stated, in three instances.  On the 1×1 canvas
whose pixel is `(2⁶³-2, 0)`, `DrawCircle` with centre `(-2⁶³, 0)` and radius 2
sets that pixel (the sum `cx + dx` wraps around at `dx = -2`), although it is
no `(cx+dx, cy+dy)` with `dx² + dy² ≤ r²`.  On the 1×1 canvas whose pixel is
`(2³¹, 2³¹)`, `DrawCircle` with centre `(0, 0)` and radius `2³¹` sets that
pixel (the sum `x*x + y*y = 2⁶³` wraps to a negative number), although
`dx² + dy² > r²` there.  With the largest `int` as radius `DrawCircle` does not
return. -/
theorem c9_counterexample_overflow :
    (edge1x1.WellFormed ∧
      exactOps.toInt (-9223372036854775808) = -9223372036854775808 ∧
      exactOps.toInt 0 = 0 ∧
      edge1x1.At 9223372036854775806 0 = some ⟨0, 0, 0, 0⟩ ∧
      (edge1x1.DrawCircle exactOps ⟨1, 2, 3, 4⟩ ⟨-9223372036854775808, 0⟩ 2).bind
          (fun c1 => c1.At 9223372036854775806 0) = some ⟨1, 2, 3, 4⟩ ∧
      ¬ ∃ dx dy : Int, dx * dx + dy * dy ≤ 2 * 2 ∧
          9223372036854775806 = -9223372036854775808 + dx ∧ 0 = 0 + dy) ∧
    (corner1x1.WellFormed ∧
      corner1x1.At 2147483648 2147483648 = some ⟨0, 0, 0, 0⟩ ∧
      (∃ c1, corner1x1.DrawCircle exactOps ⟨1, 2, 3, 4⟩ ⟨0, 0⟩ 2147483648 = some c1 ∧
        c1.At 2147483648 2147483648 = some ⟨1, 2, 3, 4⟩) ∧
      ¬ ((2147483648 : Int) * 2147483648 + 2147483648 * 2147483648 ≤
          2147483648 * 2147483648)) ∧
    blank2x2.DrawCircle exactOps ⟨1, 2, 3, 4⟩ ⟨0, 0⟩ 9223372036854775807 = none := by
  refine ⟨⟨by decide, by decide, by decide, by decide, by decide, ?_⟩,
    ⟨by decide, by decide, ?_, by decide⟩, by decide⟩
  · rintro ⟨dx, dy, h, hx, hy⟩
    have hdx : dx = 18446744073709551614 := by omega
    have hdy : dy = 0 := by omega
    subst hdx hdy
    exact absurd h (by decide)
  · obtain ⟨c1, h1, hp⟩ := drawCircle_painted exactOps (c := corner1x1) (by decide)
      ⟨1, 2, 3, 4⟩ ⟨0, 0⟩ 2147483648 (by decide)
    refine ⟨c1, h1, hp.2.2.2.2.1 2147483648 2147483648 (by decide) ?_⟩
    exact ⟨2147483648, mem_intRange.2 (by decide), 2147483648, mem_intRange.2 (by decide),
      by decide, by decide, by decide⟩

/-- Claim C10, amended: `DrawCircle` with radius 0 is the single call
`Set(cx, cy, colour)` at the truncated centre, so it sets the centre pixel when
that is in bounds and changes no other pixel; with a negative radius other than
the least `int` the outer loop has no iteration, so no `Set` is performed and
the canvas is returned unchanged. -/
theorem c10_circle_degenerate_radius {F : Type} (fl : Float64Ops F) (c : Canvas)
    (hwf : c.WellFormed) (color : RGBA) (center : Vector F) :
    (c.DrawCircle fl color center 0 = c.Set (fl.toInt center.X) (fl.toInt center.Y) color ∧
      ∃ c1, c.DrawCircle fl color center 0 = some c1 ∧
        ((Point.mk (fl.toInt center.X) (fl.toInt center.Y)).In c.Rect →
          c1.At (fl.toInt center.X) (fl.toInt center.Y) = some color) ∧
        ∀ a b : Int, ¬ (a = fl.toInt center.X ∧ b = fl.toInt center.Y) →
          c1.At a b = c.At a b) ∧
    (∀ r : Int, intMin < r → r < 0 →
      c.DrawCircle fl color center r = some c ∧ intRange (ineg r) (r + 1) = []) := by
  refine ⟨⟨drawCircle_zero fl c color center, ?_⟩,
    fun r h1 h2 => drawCircle_negative fl c color center r h1 h2⟩
  rw [drawCircle_zero]
  obtain ⟨c1, h1, hp⟩ := set_painted hwf (fl.toInt center.X) (fl.toInt center.Y) color
    (fun _ _ => color) rfl
  obtain ⟨-, -, -, -, hset, hkeep⟩ := hp
  exact ⟨c1, h1, fun hin => hset _ _ hin ⟨rfl, rfl⟩, fun a b hn => hkeep a b (fun h => hn h.2)⟩

/-- Claim C10, witness: the amended statement at a blank 2×2 canvas with centre `(1, 1)`. -/
theorem c10_degenerate_radius_witness :
    blank2x2.WellFormed ∧
    (blank2x2.DrawCircle exactOps ⟨1, 2, 3, 4⟩ ⟨1, 1⟩ 0 =
        blank2x2.Set (exactOps.toInt 1) (exactOps.toInt 1) ⟨1, 2, 3, 4⟩ ∧
      ∃ c1, blank2x2.DrawCircle exactOps ⟨1, 2, 3, 4⟩ ⟨1, 1⟩ 0 = some c1 ∧
        ((Point.mk (exactOps.toInt 1) (exactOps.toInt 1)).In blank2x2.Rect →
          c1.At (exactOps.toInt 1) (exactOps.toInt 1) = some ⟨1, 2, 3, 4⟩) ∧
        ∀ a b : Int, ¬ (a = exactOps.toInt 1 ∧ b = exactOps.toInt 1) →
          c1.At a b = blank2x2.At a b) ∧
    (∀ r : Int, intMin < r → r < 0 →
      blank2x2.DrawCircle exactOps ⟨1, 2, 3, 4⟩ ⟨1, 1⟩ r = some blank2x2 ∧
        intRange (ineg r) (r + 1) = []) :=
  ⟨by decide, c10_circle_degenerate_radius exactOps blank2x2 (by decide) ⟨1, 2, 3, 4⟩ ⟨1, 1⟩⟩

/-- Counterexample to claim C10 as stated: on a blank 2×2 canvas, `DrawCircle`
with the negative radius `-2⁶³` and centre `(-2⁶³, -2⁶³)` performs the call
`Set(0, 0, colour)` and changes pixel `(0,0)`. -/
theorem c10_counterexample_least_radius :
    (-9223372036854775808 : Int) < 0 ∧
    blank2x2.DrawCircle exactOps ⟨1, 2, 3, 4⟩
        ⟨-9223372036854775808, -9223372036854775808⟩ (-9223372036854775808) =
      some ⟨[1, 2, 3, 4, 0, 0, 0, 0, 0, 0, 0, 0, 0, 0, 0, 0], 8, ⟨⟨0, 0⟩, ⟨2, 2⟩⟩⟩ ∧
    blank2x2.DrawCircle exactOps ⟨1, 2, 3, 4⟩
        ⟨-9223372036854775808, -9223372036854775808⟩ (-9223372036854775808) ≠ some blank2x2 := by
  decide

/-- Claim C16, amended: every canvas obtained from `NewCanvas r` by `Clone`, `Set`,
the drawing operations and `Blur` has the bounding rectangle `r` that
`NewCanvas` was given; its origin is therefore `(0,0)` when, and only when,
the minimum corner of `r` is `(0,0)`. -/
theorem c16_bounds_are_the_given_rectangle {F : Type} (fl : Float64Ops F) (r : Rectangle)
    (c : Canvas) (hr : r.Representable) (h : BuiltFrom fl r c) :
    c.Rect = r ∧ (c.Rect.Min = ⟨0, 0⟩ ↔ r.Min = ⟨0, 0⟩) := by
  have e := (builtFrom_rect hr h).2
  exact ⟨e, by rw [e]⟩

/-- Claim C16, witness: the canvas that `NewCanvas` returns for the rectangle
from `(0,0)` to `(2,2)`, after a `DrawGradient`. -/
theorem c16_bounds_witness :
    (Rectangle.mk ⟨0, 0⟩ ⟨2, 2⟩).Representable ∧
    BuiltFrom exactOps ⟨⟨0, 0⟩, ⟨2, 2⟩⟩
      ⟨[0, 0, 155, 255, 127, 0, 155, 255, 0, 127, 155, 255, 127, 127, 155, 255], 8,
        ⟨⟨0, 0⟩, ⟨2, 2⟩⟩⟩ ∧
    (Canvas.mk [0, 0, 155, 255, 127, 0, 155, 255, 0, 127, 155, 255, 127, 127, 155, 255] 8
        ⟨⟨0, 0⟩, ⟨2, 2⟩⟩).Rect = ⟨⟨0, 0⟩, ⟨2, 2⟩⟩ :=
  have hb : BuiltFrom exactOps ⟨⟨0, 0⟩, ⟨2, 2⟩⟩
      ⟨[0, 0, 155, 255, 127, 0, 155, 255, 0, 127, 155, 255, 127, 127, 155, 255], 8,
        ⟨⟨0, 0⟩, ⟨2, 2⟩⟩⟩ :=
    BuiltFrom.step blank2x2 _ (BuiltFrom.newCanvas blank2x2 (by decide))
      (Step.drawGradient blank2x2 _ (by decide))
  ⟨by decide, hb, (c16_bounds_are_the_given_rectangle exactOps _ _ (by decide) hb).1⟩

/-- Counterexample to claim C16 as stated: `NewCanvas` for the rectangle from
`(5,5)` to `(7,7)` returns a canvas whose origin is `(5,5)`. -/
theorem c16_counterexample_shifted_origin :
    (NewCanvas ⟨⟨5, 5⟩, ⟨7, 7⟩⟩).map (fun c => c.Rect.Min) = some ⟨5, 5⟩ ∧
    (Point.mk 5 5) ≠ ⟨0, 0⟩ := by
  decide

/-- Claim C11: when the truncated corners satisfy `fx ≤ tx` and `fy ≤ ty`,
`DrawRect` returns, sets to the colour every in-bounds pixel `(x, y)` with
`fx ≤ x ≤ tx` and `fy ≤ y ≤ ty`, and leaves every other pixel unchanged; the
pixels of the block are the `(tx-fx+1)·(ty-fy+1)` distinct members of
`rectBlock`, all of them set when the block lies inside the canvas.  The
conversions `int(to.X)` and `int(to.Y)` are taken not to be the largest `int`,
which no conversion of a `float64` yields: the `float64` values next to `2⁶³`
are `2⁶³ - 1024` and `2⁶³`, and a value beyond the `int` range converts to
`-2⁶³`. -/
theorem c11_rect_inclusive_block {F : Type} (fl : Float64Ops F) (c : Canvas)
    (hwf : c.WellFormed) (col : RGBA) (from_ to_ : Vector F) (fx fy tx ty : Int)
    (hfx : fl.toInt from_.X = fx) (hfy : fl.toInt from_.Y = fy)
    (htx : fl.toInt to_.X = tx) (hty : fl.toInt to_.Y = ty)
    (hx : fx ≤ tx) (hy : fy ≤ ty) (hmx : tx ≠ intMax) (hmy : ty ≠ intMax) :
    ∃ c1, c.DrawRect fl col from_ to_ = some c1 ∧ c1.Rect = c.Rect ∧
      (∀ x y, (Point.mk x y).In c.Rect → fx ≤ x → x ≤ tx → fy ≤ y → y ≤ ty →
        c1.At x y = some col) ∧
      (∀ x y, ¬ ((Point.mk x y).In c.Rect ∧ fx ≤ x ∧ x ≤ tx ∧ fy ≤ y ∧ y ≤ ty) →
        c1.At x y = c.At x y) ∧
      (rectBlock fx tx fy ty).Nodup ∧
      ((rectBlock fx tx fy ty).length : Int) = (tx - fx + 1) * (ty - fy + 1) ∧
      (∀ x y, (x, y) ∈ rectBlock fx tx fy ty ↔ fx ≤ x ∧ x ≤ tx ∧ fy ≤ y ∧ y ≤ ty) ∧
      (c.Rect.Min.X ≤ fx → tx < c.Rect.Max.X → c.Rect.Min.Y ≤ fy → ty < c.Rect.Max.Y →
        ∀ p ∈ rectBlock fx tx fy ty, c1.At p.1 p.2 = some col) := by
  subst hfx hfy htx hty
  obtain ⟨c1, h1, hp⟩ := drawRect_painted fl hwf col from_ to_ hmx hmy
  have hp2 := painted_congr hp (T := fun a b => fl.toInt from_.X ≤ a ∧ a ≤ fl.toInt to_.X ∧
      fl.toInt from_.Y ≤ b ∧ b ≤ fl.toInt to_.Y) (fun a b _ => by
    rw [mem_intRange, mem_intRange]
    constructor
    · rintro ⟨⟨h1, h2⟩, h3, h4⟩
      exact ⟨h1, by omega, h3, by omega⟩
    · rintro ⟨h1, h2, h3, h4⟩
      exact ⟨⟨h1, by omega⟩, h3, by omega⟩)
  obtain ⟨-, hrect, -, -, hset, hkeep⟩ := hp2
  refine ⟨c1, h1, hrect, fun x y hin a1 a2 a3 a4 => hset x y hin ⟨a1, a2, a3, a4⟩, hkeep,
    nodup_rectBlock _ _ _ _, length_rectBlock hx hy, fun x y => mem_rectBlock, ?_⟩
  intro b1 b2 b3 b4 p hp
  obtain ⟨a1, a2, a3, a4⟩ := mem_rectBlock.1 (show (p.1, p.2) ∈ _ from hp)
  exact hset p.1 p.2 ⟨by show c.Rect.Min.X ≤ p.1; omega, by show p.1 < c.Rect.Max.X; omega,
    by show c.Rect.Min.Y ≤ p.2; omega, by show p.2 < c.Rect.Max.Y; omega⟩ ⟨a1, a2, a3, a4⟩

/-- Claim C11, witness: on the blank 8×8 canvas, from `(2,2)` to `(5,5)`: the
block has 16 pixels. -/
theorem c11_rect_witness :
    blank8x8.WellFormed ∧ (2 : Int) ≤ 5 ∧ (5 : Int) ≠ intMax ∧
    ∃ c1, blank8x8.DrawRect exactOps ⟨1, 2, 3, 4⟩ ⟨2, 2⟩ ⟨5, 5⟩ = some c1 ∧
      (rectBlock 2 5 2 5).Nodup ∧ ((rectBlock 2 5 2 5).length : Int) = 16 ∧
      (∀ p ∈ rectBlock 2 5 2 5, c1.At p.1 p.2 = some ⟨1, 2, 3, 4⟩) ∧
      (∀ x y, ¬ ((Point.mk x y).In blank8x8.Rect ∧ 2 ≤ x ∧ x ≤ 5 ∧ 2 ≤ y ∧ y ≤ 5) →
        c1.At x y = blank8x8.At x y) :=
  have h := c11_rect_inclusive_block exactOps blank8x8 (by decide!) ⟨1, 2, 3, 4⟩ ⟨2, 2⟩ ⟨5, 5⟩
    2 2 5 5 (by decide) (by decide) (by decide) (by decide) (by decide) (by decide)
    (by decide) (by decide)
  ⟨by decide!, by decide, by decide,
    h.elim fun c1 hc => ⟨c1, hc.1, hc.2.2.2.2.1, hc.2.2.2.2.2.1,
      hc.2.2.2.2.2.2.2 (by decide) (by decide) (by decide) (by decide), hc.2.2.2.1⟩⟩

/-- Claim C12, amended: when the truncated corners satisfy `int(to.X) < int(from.X)`,
or `int(to.Y) < int(from.Y)` with `int(to.X)` not the largest `int`, `DrawRect`
returns the canvas unchanged, whatever the canvas. -/
theorem c12_rect_inverted_draws_nothing {F : Type} (fl : Float64Ops F) (c : Canvas)
    (col : RGBA) (from_ to_ : Vector F)
    (h : fl.toInt to_.X < fl.toInt from_.X ∨
      (fl.toInt to_.Y < fl.toInt from_.Y ∧ fl.toInt to_.X ≠ intMax)) :
    c.DrawRect fl col from_ to_ = some c := by
  unfold Canvas.DrawRect
  rcases h with h | ⟨h, hm⟩
  · exact forLE_empty h _ c
  · have e : (fun (x : Int) (c0 : Canvas) =>
        forLE (fl.toInt from_.Y) (fl.toInt to_.Y) (fun y c1 => c1.Set x y col) c0) =
        fun _ c0 => some c0 := by
      funext x c0
      exact forLE_empty h _ c0
    rw [e]
    unfold forLE
    rw [if_neg (fun hc => hm hc.2)]
    exact forEach_same _ c

/-- Claim C12, witness: from `(5,5)` to `(2,2)` on the 8×8 canvas. -/
theorem c12_rect_inverted_witness :
    (exactOps.toInt 2 < exactOps.toInt 5 ∨
      (exactOps.toInt 2 < exactOps.toInt 5 ∧ exactOps.toInt 2 ≠ intMax)) ∧
    blank8x8.DrawRect exactOps ⟨1, 2, 3, 4⟩ ⟨5, 5⟩ ⟨2, 2⟩ = some blank8x8 :=
  ⟨by decide, c12_rect_inverted_draws_nothing exactOps blank8x8 ⟨1, 2, 3, 4⟩ ⟨5, 5⟩ ⟨2, 2⟩
    (by decide)⟩

/-- Counterexample to claim C12 as stated: the corners `from = (1.75, 0)` and
`to = (1.25, 0)` have `from.X > to.X`, but both truncate to `x = 1`, so
`DrawRect` sets pixel `(1, 0)` of the blank 2×2 canvas. -/
theorem c12_counterexample_fractional_corners :
    (5 / 4 : Rat) < 7 / 4 ∧
    blank2x2.DrawRect exactOps ⟨1, 2, 3, 4⟩ ⟨7 / 4, 0⟩ ⟨5 / 4, 0⟩ =
      some ⟨[0, 0, 0, 0, 1, 2, 3, 4, 0, 0, 0, 0, 0, 0, 0, 0], 8, ⟨⟨0, 0⟩, ⟨2, 2⟩⟩⟩ ∧
    blank2x2.DrawRect exactOps ⟨1, 2, 3, 4⟩ ⟨7 / 4, 0⟩ ⟨5 / 4, 0⟩ ≠ some blank2x2 := by
  decide!

/-- Claim C20, amended: for radii `r1 ≤ r2` and a centre for which no `int`
operation overflows (`2·r1² ≤ 2⁶³-1`, `2·r2² ≤ 2⁶³-1`, and the truncated centre
moved by `±r2` stays an `int`), every pixel that `DrawCircle` with radius `r1`
changes has the colour after `DrawCircle` with radius `r2`; drawing the
radius-`r1` disc and then the radius-`r2` disc gives the same canvas as drawing
the radius-`r2` disc alone, and drawing the radius-`r2` disc twice the same as
drawing it once. -/
theorem c20_discs_monotone {F : Type} (fl : Float64Ops F) (c : Canvas) (hwf : c.WellFormed)
    (color : RGBA) (center : Vector F) (r1 r2 : Int) (h12 : r1 ≤ r2)
    (hr1 : 2 * (r1 * r1) ≤ intMax) (hr2 : 2 * (r2 * r2) ≤ intMax)
    (hcx1 : intMin ≤ fl.toInt center.X - r2) (hcx2 : fl.toInt center.X + r2 ≤ intMax)
    (hcy1 : intMin ≤ fl.toInt center.Y - r2) (hcy2 : fl.toInt center.Y + r2 ≤ intMax) :
    ∃ c1 c2, c.DrawCircle fl color center r1 = some c1 ∧
      c.DrawCircle fl color center r2 = some c2 ∧
      (∀ a b, c1.At a b ≠ c.At a b → c1.At a b = some color ∧ c2.At a b = some color) ∧
      c1.DrawCircle fl color center r2 = some c2 ∧
      c2.DrawCircle fl color center r2 = some c2 := by
  have hrmax : ∀ r : Int, 2 * (r * r) ≤ intMax → r ≠ intMax := by
    intro r hr h
    rw [h] at hr
    exact absurd hr (by decide)
  obtain ⟨c1, e1, p1⟩ := drawCircle_disc fl hwf color center r1 r2 h12 hr1 hcx1 hcx2 hcy1 hcy2
  obtain ⟨c2, e2, p2⟩ := drawCircle_disc fl hwf color center r2 r2 le_rfl hr2 hcx1 hcx2 hcy1 hcy2
  by_cases hemp : ∀ x y, ¬ (Point.mk x y).In c.Rect
  · have f1 := drawCircle_of_empty fl hemp color center r1 (hrmax r1 hr1)
    have f2 := drawCircle_of_empty fl hemp color center r2 (hrmax r2 hr2)
    rw [f1] at e1
    rw [f2] at e2
    cases e1
    cases e2
    exact ⟨c, c, f1, f2, fun a b h => absurd rfl h, f2, f2⟩
  · push_neg at hemp
    obtain ⟨x0, y0, hin0⟩ := hemp
    obtain ⟨c3, e3, p3⟩ := drawCircle_disc fl p1.1 color center r2 r2 le_rfl hr2 hcx1 hcx2
      hcy1 hcy2
    obtain ⟨c4, e4, p4⟩ := drawCircle_disc fl p2.1 color center r2 r2 le_rfl hr2 hcx1 hcx2
      hcy1 hcy2
    have key : ∀ {d e : Canvas} {r : Int}, r ≤ r2 →
        Painted c d (discRegion (fl.toInt center.X) (fl.toInt center.Y) r) (fun _ _ => color) →
        Painted d e (discRegion (fl.toInt center.X) (fl.toInt center.Y) r2)
          (fun _ _ => color) → e = c2 := by
      intro d e r hr pd pe
      apply canvas_ext pe.1 p2.1 (p2.2.1.trans (pe.2.1.trans pd.2.1).symm)
        (by rw [pe.2.1, pd.2.1]; exact hin0)
      intro a b
      by_cases hab : (Point.mk a b).In c.Rect ∧
          discRegion (fl.toInt center.X) (fl.toInt center.Y) r2 a b
      · rw [pe.2.2.2.2.1 a b (by rw [pd.2.1]; exact hab.1) hab.2,
          p2.2.2.2.2.1 a b hab.1 hab.2]
      · rw [pe.2.2.2.2.2 a b (fun h => hab ⟨by rw [← pd.2.1]; exact h.1, h.2⟩),
          p2.2.2.2.2.2 a b hab,
          pd.2.2.2.2.2 a b (fun h => hab ⟨h.1, discRegion_mono hr h.2⟩)]
    have e31 : c3 = c2 := key h12 p1 p3
    have e42 : c4 = c2 := key le_rfl p2 p4
    rw [e31] at e3
    rw [e42] at e4
    refine ⟨c1, c2, e1, e2, ?_, e3, e4⟩
    intro a b hne
    have hd : (Point.mk a b).In c.Rect ∧
        discRegion (fl.toInt center.X) (fl.toInt center.Y) r1 a b := by
      by_contra hn
      exact hne (p1.2.2.2.2.2 a b hn)
    exact ⟨p1.2.2.2.2.1 a b hd.1 hd.2, p2.2.2.2.2.1 a b hd.1 (discRegion_mono h12 hd.2)⟩

/-- Claim C20, witness: the blank 8×8 canvas, centre `(4, 4)`, radii 1 and 2. -/
theorem c20_discs_witness :
    blank8x8.WellFormed ∧ (1 : Int) ≤ 2 ∧ 2 * ((2 : Int) * 2) ≤ intMax ∧
    intMin ≤ exactOps.toInt 4 - 2 ∧ exactOps.toInt 4 + 2 ≤ intMax ∧
    ∃ c1 c2, blank8x8.DrawCircle exactOps ⟨1, 2, 3, 4⟩ ⟨4, 4⟩ 1 = some c1 ∧
      blank8x8.DrawCircle exactOps ⟨1, 2, 3, 4⟩ ⟨4, 4⟩ 2 = some c2 ∧
      (∀ a b, c1.At a b ≠ blank8x8.At a b →
        c1.At a b = some ⟨1, 2, 3, 4⟩ ∧ c2.At a b = some ⟨1, 2, 3, 4⟩) ∧
      c1.DrawCircle exactOps ⟨1, 2, 3, 4⟩ ⟨4, 4⟩ 2 = some c2 ∧
      c2.DrawCircle exactOps ⟨1, 2, 3, 4⟩ ⟨4, 4⟩ 2 = some c2 :=
  ⟨by decide!, by decide, by decide, by decide, by decide,
    c20_discs_monotone exactOps blank8x8 (by decide!) ⟨1, 2, 3, 4⟩ ⟨4, 4⟩ 1 2 (by decide)
      (by decide) (by decide) (by decide) (by decide) (by decide) (by decide)⟩

/-- Counterexample to claim C20 as stated: with centre `(-2⁶³, -2⁶³)` on the
blank 2×2 canvas, the radii `r1 = -2⁶³ ≤ r2 = 0`: `DrawCircle` with radius `r1`
sets pixel `(0,0)` (its negation wraps around), `DrawCircle` with radius `r2`
sets no pixel of the canvas, and drawing `r1` then `r2` differs from drawing
`r2` alone. -/
theorem c20_counterexample_least_radius :
    (-9223372036854775808 : Int) ≤ 0 ∧
    (blank2x2.DrawCircle exactOps ⟨1, 2, 3, 4⟩
        ⟨-9223372036854775808, -9223372036854775808⟩ (-9223372036854775808)).bind
      (fun c1 => c1.At 0 0) = some ⟨1, 2, 3, 4⟩ ∧
    blank2x2.DrawCircle exactOps ⟨1, 2, 3, 4⟩
        ⟨-9223372036854775808, -9223372036854775808⟩ 0 = some blank2x2 ∧
    (blank2x2.DrawCircle exactOps ⟨1, 2, 3, 4⟩
        ⟨-9223372036854775808, -9223372036854775808⟩ (-9223372036854775808)).bind
      (fun c1 => c1.DrawCircle exactOps ⟨1, 2, 3, 4⟩
        ⟨-9223372036854775808, -9223372036854775808⟩ 0) ≠
      blank2x2.DrawCircle exactOps ⟨1, 2, 3, 4⟩
        ⟨-9223372036854775808, -9223372036854775808⟩ 0 := by
  decide

/-- Claim C13, amended: with `n = int(length + 0.5)` as the conversion yields it
(the floor when `length + 0.5` is below `2⁶³`), `DrawLine` is the run of
`drawLineWith` on `Set`, the calls of `Set` that this run makes are the
`max n 0` calls recorded in order, the `i`-th at the pixel
`int(from + i·(delta/length))` with the colour; `DrawLine` returns, every pixel
it changes is one of these pixels and has the colour afterwards, and every
other pixel is unchanged. -/
theorem c13_line_set_calls {F : Type} (fl : Float64Ops F) (c : Canvas) (hwf : c.WellFormed)
    (col : RGBA) (from_ to_ : Vector F) :
    c.DrawLine fl col from_ to_ = drawLineWith fl Canvas.Set c col from_ to_ ∧
    (∃ calls, drawLineWith fl recordSet [] col from_ to_ = some calls ∧
      calls.length = (lineCount fl from_ to_).toNat ∧
      ∀ k : Nat, (k : Int) < lineCount fl from_ to_ →
        calls[k]? = some ((lineSample fl from_ to_ k).1, (lineSample fl from_ to_ k).2, col)) ∧
    ∃ c1, c.DrawLine fl col from_ to_ = some c1 ∧
      ∀ a b, c1.At a b ≠ c.At a b →
        c1.At a b = some col ∧
          ∃ i : Int, 0 ≤ i ∧ i < lineCount fl from_ to_ ∧ (a, b) = lineSample fl from_ to_ i := by
  refine ⟨rfl, ?_, ?_⟩
  · refine ⟨[] ++ (intRange 0 (lineCount fl from_ to_)).map
      (fun i => ((lineSample fl from_ to_ i).1, (lineSample fl from_ to_ i).2, col)), ?_, ?_, ?_⟩
    · rw [drawLineWith_eq, forEach_record (lineSample fl from_ to_) col]
    · have := length_intRange 0 (lineCount fl from_ to_)
      simp only [List.nil_append, List.length_map]
      omega
    · intro k hk
      simp only [List.nil_append, List.getElem?_map]
      rw [getElem?_intRange (by omega)]
      simp
  · obtain ⟨c1, h1, hp⟩ := drawLine_painted fl hwf col from_ to_
    refine ⟨c1, h1, ?_⟩
    intro a b hne
    have hd : (Point.mk a b).In c.Rect ∧
        ∃ i ∈ intRange 0 (lineCount fl from_ to_), (a, b) = lineSample fl from_ to_ i := by
      by_contra hn
      exact hne (hp.2.2.2.2.2 a b hn)
    obtain ⟨hin, i, hi, hab⟩ := hd
    obtain ⟨i0, i1⟩ := mem_intRange.1 hi
    exact ⟨hp.2.2.2.2.1 a b hin ⟨i, hi, hab⟩, i, i0, i1, hab⟩

/-- Claim C13, witness: the line from `(0,0)` to `(2,0)` on the blank 2×2 canvas. -/
theorem c13_line_witness :
    blank2x2.WellFormed ∧
    blank2x2.DrawLine exactOps ⟨1, 2, 3, 4⟩ ⟨0, 0⟩ ⟨2, 0⟩ =
      drawLineWith exactOps Canvas.Set blank2x2 ⟨1, 2, 3, 4⟩ ⟨0, 0⟩ ⟨2, 0⟩ ∧
    (∃ calls, drawLineWith exactOps recordSet [] ⟨1, 2, 3, 4⟩ ⟨0, 0⟩ ⟨2, 0⟩ = some calls ∧
      calls.length = (lineCount exactOps ⟨0, 0⟩ ⟨2, 0⟩).toNat ∧
      ∀ k : Nat, (k : Int) < lineCount exactOps ⟨0, 0⟩ ⟨2, 0⟩ →
        calls[k]? = some ((lineSample exactOps ⟨0, 0⟩ ⟨2, 0⟩ k).1,
          (lineSample exactOps ⟨0, 0⟩ ⟨2, 0⟩ k).2, ⟨1, 2, 3, 4⟩)) ∧
    ∃ c1, blank2x2.DrawLine exactOps ⟨1, 2, 3, 4⟩ ⟨0, 0⟩ ⟨2, 0⟩ = some c1 ∧
      ∀ a b, c1.At a b ≠ blank2x2.At a b →
        c1.At a b = some ⟨1, 2, 3, 4⟩ ∧
          ∃ i : Int, 0 ≤ i ∧ i < lineCount exactOps ⟨0, 0⟩ ⟨2, 0⟩ ∧
            (a, b) = lineSample exactOps ⟨0, 0⟩ ⟨2, 0⟩ i :=
  ⟨by decide, c13_line_set_calls exactOps blank2x2 (by decide) ⟨1, 2, 3, 4⟩ ⟨0, 0⟩ ⟨2, 0⟩⟩

/-- Counterexample to claim C13 as stated: for the endpoints `from = (-2⁶², 0)` and
`to = (2⁶², 0)` the length is `2⁶³` and `floor(length + 0.5) = 2⁶³`, which is no
`int`: the conversion `int(length + 0.5)` yields `-2⁶³` and `DrawLine` performs
no `Set` call. -/
theorem c13_counterexample_long_line :
    (Vector.mk (-4611686018427387904 : Rat) 0).X ≠ (Vector.mk (4611686018427387904 : Rat) 0).X ∧
    ⌊((Vector.mk (4611686018427387904 : Rat) 0).Sub exactOps ⟨-4611686018427387904, 0⟩).Length
        exactOps + 1 / 2⌋ = 9223372036854775808 ∧
    lineCount exactOps ⟨-4611686018427387904, 0⟩ ⟨4611686018427387904, 0⟩ =
      -9223372036854775808 ∧
    drawLineWith exactOps recordSet [] ⟨1, 2, 3, 4⟩ ⟨-4611686018427387904, 0⟩
      ⟨4611686018427387904, 0⟩ = some [] := by
  have hlen : ((Vector.mk (4611686018427387904 : Rat) 0).Sub exactOps
      ⟨-4611686018427387904, 0⟩).Length exactOps = 9223372036854775808 := by
    rw [exactOps_length_horizontal _ _ _ (by norm_num)]
    norm_num
  have hcount : lineCount exactOps ⟨-4611686018427387904, 0⟩ ⟨4611686018427387904, 0⟩ =
      -9223372036854775808 := by
    unfold lineCount
    rw [hlen]
    decide!
  refine ⟨by decide!, ?_, hcount, ?_⟩
  · rw [hlen]
    decide!
  · exact drawLineWith_of_count_nonpos _ _ _ _ _ _ (by rw [hcount]; decide)

/-- Claim C14: a line whose endpoints coincide.  For every implementation of the
`float64` operations in which `p - p` is the zero vector, the length of the
zero vector is `0` and `int(0 + 0.5)` is `0` (as for `float64` and a point with
finite coordinates), the step count of `DrawLine(col, p, p)` is `0` and the
call returns the canvas unchanged, whatever the canvas; the quotient `delta/0`
is computed but never converted.  In exact arithmetic this holds for every
point. -/
theorem c14_line_coincident_endpoints {F : Type} (fl : Float64Ops F) :
    (∀ (c : Canvas) (col : RGBA) (p : Vector F),
      p.Sub fl p = ⟨fl.ofInt 0, fl.ofInt 0⟩ →
      (Vector.mk (fl.ofInt 0) (fl.ofInt 0)).Length fl = fl.ofInt 0 →
      fl.toInt (fl.add (fl.ofInt 0) (fl.ofRat (1 / 2))) = 0 →
      lineCount fl p p = 0 ∧ c.DrawLine fl col p p = some c ∧
        drawLineWith fl recordSet [] col p p = some []) ∧
    (∀ (c : Canvas) (col : RGBA) (p : Vector Rat),
      lineCount exactOps p p = 0 ∧ c.DrawLine exactOps col p p = some c ∧
        drawLineWith exactOps recordSet [] col p p = some []) := by
  constructor
  · intro c col p h1 h2 h3
    have hc : lineCount fl p p = 0 := by
      unfold lineCount
      rw [h1, h2, h3]
    exact ⟨hc, drawLineWith_of_count_nonpos fl Canvas.Set c col p p hc.le,
      drawLineWith_of_count_nonpos fl recordSet [] col p p hc.le⟩
  · intro c col p
    have hc := exactOps_lineCount_same p
    exact ⟨hc, drawLineWith_of_count_nonpos exactOps Canvas.Set c col p p hc.le,
      drawLineWith_of_count_nonpos exactOps recordSet [] col p p hc.le⟩

/-- Claim C14, witness: the point `(1, 1)` on the blank 2×2 canvas in exact
arithmetic, with the three facts about the arithmetic checked. -/
theorem c14_line_coincident_witness :
    lineCount exactOps (Vector.mk (1 : Rat) 1) ⟨1, 1⟩ = 0 ∧
    blank2x2.DrawLine exactOps ⟨1, 2, 3, 4⟩ (Vector.mk (1 : Rat) 1) ⟨1, 1⟩ = some blank2x2 ∧
    drawLineWith exactOps recordSet [] ⟨1, 2, 3, 4⟩ (Vector.mk (1 : Rat) 1) ⟨1, 1⟩ = some [] :=
  (c14_line_coincident_endpoints exactOps).1 blank2x2 ⟨1, 2, 3, 4⟩ ⟨1, 1⟩
    (by simp [Vector.Sub, exactOps]) (by decide!) (by decide!)

/-- Claim C19 (amended): the end point of a line along an axis is not drawn.
For every implementation of the `float64` operations that is exact on the
integers between `-N` and `N`, all integers `a0 < a1` and `b` in that range with
`a1 - a0 ≤ N`, and every canvas, `DrawLine` from `(a0, b)` to `(a1, b)` returns
and sets exactly the in-bounds pixels `(x, b)` with `a0 ≤ x ≤ a1 - 1`, so the
pixel `(a1, b)` is left unchanged; likewise `DrawLine` from `(b, a0)` to
`(b, a1)` sets exactly the in-bounds pixels `(b, y)` with `a0 ≤ y ≤ a1 - 1` and
leaves `(b, a1)` unchanged. -/
theorem c19_line_end_point_not_drawn {F : Type} (fl : Float64Ops F) (N : Int)
    (hex : ExactOnIntegers fl N) (c : Canvas) (hwf : c.WellFormed) (col : RGBA)
    (a0 a1 b : Int) (hlt : a0 < a1) (ha0 : -N ≤ a0) (ha1 : a1 ≤ N) (hb0 : -N ≤ b) (hb1 : b ≤ N)
    (hd : a1 - a0 ≤ N) :
    (∃ c1, c.DrawLine fl col ⟨fl.ofInt a0, fl.ofInt b⟩ ⟨fl.ofInt a1, fl.ofInt b⟩ = some c1 ∧
      Painted c c1 (fun x y => a0 ≤ x ∧ x ≤ a1 - 1 ∧ y = b) (fun _ _ => col) ∧
      c1.At a1 b = c.At a1 b) ∧
    (∃ c1, c.DrawLine fl col ⟨fl.ofInt b, fl.ofInt a0⟩ ⟨fl.ofInt b, fl.ofInt a1⟩ = some c1 ∧
      Painted c c1 (fun x y => x = b ∧ a0 ≤ y ∧ y ≤ a1 - 1) (fun _ _ => col) ∧
      c1.At b a1 = c.At b a1) := by
  constructor
  · obtain ⟨hn, hg⟩ := exact_line_horizontal hex a0 a1 b hlt ha0 ha1 hb0 hb1 hd
    obtain ⟨c1, h1, hp⟩ := drawLine_of_samples fl hwf col _ _ (a1 - a0)
      (fun i => (a0 + i, b)) hn hg
    have hp2 : Painted c c1 (fun x y => a0 ≤ x ∧ x ≤ a1 - 1 ∧ y = b) (fun _ _ => col) := by
      refine painted_congr hp ?_
      intro x y _
      constructor
      · rintro ⟨i, hi0, hi1, h⟩
        have hx : x = a0 + i := congrArg Prod.fst h
        have hy : y = b := congrArg Prod.snd h
        exact ⟨by omega, by omega, hy⟩
      · rintro ⟨hx0, hx1, hy⟩
        exact ⟨x - a0, by omega, by omega, by rw [hy]; congr 1; omega⟩
    exact ⟨c1, h1, hp2, hp2.2.2.2.2.2 a1 b (fun h => by have := h.2.2.1; omega)⟩
  · obtain ⟨hn, hg⟩ := exact_line_vertical hex a0 a1 b hlt ha0 ha1 hb0 hb1 hd
    obtain ⟨c1, h1, hp⟩ := drawLine_of_samples fl hwf col _ _ (a1 - a0)
      (fun i => (b, a0 + i)) hn hg
    have hp2 : Painted c c1 (fun x y => x = b ∧ a0 ≤ y ∧ y ≤ a1 - 1) (fun _ _ => col) := by
      refine painted_congr hp ?_
      intro x y _
      constructor
      · rintro ⟨i, hi0, hi1, h⟩
        have hx : x = b := congrArg Prod.fst h
        have hy : y = a0 + i := congrArg Prod.snd h
        exact ⟨hx, by omega, by omega⟩
      · rintro ⟨hx, hy0, hy1⟩
        exact ⟨y - a0, by omega, by omega, by rw [hx]; congr 1; omega⟩
    exact ⟨c1, h1, hp2, hp2.2.2.2.2.2 b a1 (fun h => by have := h.2.2.2; omega)⟩

/-- Claim C19, witness: exact arithmetic (exact on the integers up to `2⁵² - 1`),
the blank 8×8 canvas, and the lines from `(2, 3)` to `(6, 3)` and from `(3, 2)`
to `(3, 6)`. -/
theorem c19_line_end_point_witness :
    ExactOnIntegers exactOps 4503599627370495 ∧ blank8x8.WellFormed ∧
    (∃ c1, blank8x8.DrawLine exactOps ⟨9, 9, 9, 255⟩
        ⟨exactOps.ofInt 2, exactOps.ofInt 3⟩ ⟨exactOps.ofInt 6, exactOps.ofInt 3⟩ = some c1 ∧
      Painted blank8x8 c1 (fun x y => 2 ≤ x ∧ x ≤ 6 - 1 ∧ y = 3) (fun _ _ => ⟨9, 9, 9, 255⟩) ∧
      c1.At 6 3 = blank8x8.At 6 3) ∧
    (∃ c1, blank8x8.DrawLine exactOps ⟨9, 9, 9, 255⟩
        ⟨exactOps.ofInt 3, exactOps.ofInt 2⟩ ⟨exactOps.ofInt 3, exactOps.ofInt 6⟩ = some c1 ∧
      Painted blank8x8 c1 (fun x y => x = 3 ∧ 2 ≤ y ∧ y ≤ 6 - 1) (fun _ _ => ⟨9, 9, 9, 255⟩) ∧
      c1.At 3 6 = blank8x8.At 3 6) :=
  ⟨exactOps_exactOnIntegers _ (by decide), by decide!,
    c19_line_end_point_not_drawn exactOps 4503599627370495
      (exactOps_exactOnIntegers _ (by decide)) blank8x8 (by decide!) ⟨9, 9, 9, 255⟩ 2 6 3
      (by decide) (by decide) (by decide) (by decide) (by decide) (by decide)⟩

/-- Counterexample to claim C19 as stated: for `x0 = -2⁶²`, `x1 = 2⁶²` and `y = 1`
the pixels `(0, 1)` and `(1, 1)` of the blank 2×2 canvas lie on the line, yet
`DrawLine` returns the canvas unchanged (the step count `int(2⁶³ + 0.5)` is
negative), so they are not set to the colour. -/
theorem c19_counterexample_long_line :
    (-4611686018427387904 : Int) < 4611686018427387904 ∧
    (Point.mk 0 1).In blank2x2.Rect ∧
    (-4611686018427387904 : Int) ≤ 0 ∧ (0 : Int) ≤ 4611686018427387904 - 1 ∧
    blank2x2.DrawLine exactOps ⟨9, 9, 9, 255⟩
      ⟨exactOps.ofInt (-4611686018427387904), exactOps.ofInt 1⟩
      ⟨exactOps.ofInt 4611686018427387904, exactOps.ofInt 1⟩ = some blank2x2 ∧
    blank2x2.At 0 1 ≠ some ⟨9, 9, 9, 255⟩ := by
  have hcount : lineCount exactOps
      ⟨exactOps.ofInt (-4611686018427387904), exactOps.ofInt 1⟩
      ⟨exactOps.ofInt 4611686018427387904, exactOps.ofInt 1⟩ = -9223372036854775808 := by
    unfold lineCount
    have e := exactOps_length_horizontal (exactOps.ofInt (-4611686018427387904))
      (exactOps.ofInt 4611686018427387904) (exactOps.ofInt 1) (by decide!)
    rw [e]
    decide!
  refine ⟨by decide, by decide, by decide, by decide, ?_, by decide⟩
  exact drawLineWith_of_count_nonpos _ _ _ _ _ _ (by rw [hcount]; decide)

/-- Claim C15: for every canvas, colour and starting point `DrawSpiral` returns,
and it is its own loop run with `DrawLine` as the line-draw hook; run with a
hook that records the calls, the loop issues exactly 10000 `DrawLine` calls,
all with the given colour, the first one starting at the given point and the
`k`-th one starting where the `(k-1)`-th ended. -/
theorem c15_spiral_line_calls {F : Type} (fl : Float64Ops F) (c : Canvas)
    (hwf : c.WellFormed) (col : RGBA) (start : Vector F) :
    c.DrawSpiral fl col start =
      drawSpiralWith fl (fun c0 col0 a b => c0.DrawLine fl col0 a b) c col start ∧
    (∃ c1, c.DrawSpiral fl col start = some c1) ∧
    ∃ calls, drawSpiralWith fl recordLine [] col start = some calls ∧
      calls.length = 10000 ∧
      (∃ e, calls[0]? = some (col, start, e)) ∧
      ∀ k : Nat, 0 < k → k < 10000 →
        ∃ a b e, calls[k - 1]? = some (col, a, b) ∧ calls[k]? = some (col, b, e) := by
  refine ⟨drawSpiral_eq_with fl c col start, ?_, ?_⟩
  · obtain ⟨c1, h1, -⟩ := drawSpiral_shape fl hwf col start
    exact ⟨c1, h1⟩
  · obtain ⟨calls, h1, hlen, hk⟩ := drawSpiralWith_record fl col start
    refine ⟨calls, h1, hlen, ⟨_, hk 0 (by omega)⟩, ?_⟩
    intro k hk0 hk1
    have h2 := hk (k - 1) (by omega)
    have e : k - 1 + 1 = k := by omega
    rw [e] at h2
    exact ⟨_, _, _, h2, hk k hk1⟩

/-- Claim C15, witness: the blank 2×2 canvas and the starting point `(0, 0)` in
exact arithmetic. -/
theorem c15_spiral_witness :
    blank2x2.WellFormed ∧
    blank2x2.DrawSpiral exactOps ⟨1, 2, 3, 4⟩ ⟨0, 0⟩ =
      drawSpiralWith exactOps (fun c0 col0 a b => c0.DrawLine exactOps col0 a b) blank2x2
        ⟨1, 2, 3, 4⟩ ⟨0, 0⟩ ∧
    (∃ c1, blank2x2.DrawSpiral exactOps ⟨1, 2, 3, 4⟩ ⟨0, 0⟩ = some c1) ∧
    ∃ calls, drawSpiralWith exactOps recordLine [] ⟨1, 2, 3, 4⟩ ⟨0, 0⟩ = some calls ∧
      calls.length = 10000 ∧
      (∃ e, calls[0]? = some (⟨1, 2, 3, 4⟩, ⟨0, 0⟩, e)) ∧
      ∀ k : Nat, 0 < k → k < 10000 →
        ∃ a b e, calls[k - 1]? = some (⟨1, 2, 3, 4⟩, a, b) ∧
          calls[k]? = some (⟨1, 2, 3, 4⟩, b, e) :=
  ⟨by decide, c15_spiral_line_calls exactOps blank2x2 (by decide) ⟨1, 2, 3, 4⟩ ⟨0, 0⟩⟩

/-- Counterexample to claim C18 as stated: with the radius `2⁶³ - 1` the bound
`x + radius + 1` of the loop wraps to `-2⁶³`, below the first index
`x - radius`; the loops of `BlurPixel` at `(0, 0)` run over no offset at all
and the weight sum stays `0`, although the constant kernel weighs `1` at the
offset `(0, 0)`, which lies between `-r` and `r`. -/
theorem c18_counterexample_huge_radius :
    (0 : Int) ≤ 9223372036854775807 ∧
    isub 0 9223372036854775807 = -9223372036854775807 ∧
    iadd (iadd 0 9223372036854775807) 1 = -9223372036854775808 ∧
    (blurSums exactOps blank2x2 0 0 9223372036854775807 constantKernel).map
        (fun acc => (acc.outR, acc.outG, acc.outB, acc.weightSum)) = some (0, 0, 0, 0) ∧
    (-9223372036854775807 : Int) ≤ 0 ∧ constantKernel.Weight 0 0 = 1 := by
  decide!

/-- Claim C17 fails in the code: on the 129×128 canvas in which every pixel is
`(200, 200, 200, 255)`, with radius 64 and the constant kernel, the pixel
`(64, 63)` is a bordering pixel (its neighbour at the offset `(0, -64)` is
outside the canvas), yet `BlurPixel` returns `(200, 200, 200, 255)` there and
`Blur` leaves the pixel as it was: no channel is strictly less than before. -/
theorem c17_border_pixel_not_darkened :
    grey129x128.WellFormed ∧
    (∀ a b, (Point.mk a b).In grey129x128.Rect →
      grey129x128.At a b = some ⟨200, 200, 200, 255⟩) ∧
    (Point.mk 64 63).In grey129x128.Rect ∧
    ¬ (Point.mk (64 + 0) (63 + -64)).In grey129x128.Rect ∧
    grey129x128.BlurPixel exactOps 64 63 64 constantKernel = some ⟨200, 200, 200, 255⟩ ∧
    ∃ c1, grey129x128.Blur exactOps 64 constantKernel = some c1 ∧
      c1.At 64 63 = some ⟨200, 200, 200, 255⟩ := by
  refine ⟨grey129x128_wellFormed, ?_, by decide, by decide, grey129x128_blurPixel, ?_⟩
  · intro a b h
    rw [at_stored grey129x128_wellFormed, grey129x128_stored a b h]
  · obtain ⟨c1, h1, hp⟩ := blur_painted exactOps grey129x128 129 128 grey129x128_wellFormed rfl
      64 constantKernel
    refine ⟨c1, h1, ?_⟩
    rw [hp.2.2.2.2.1 64 63 (by decide) trivial]
    show some ((grey129x128.BlurPixel exactOps 64 63 64 constantKernel).getD ⟨0, 0, 0, 0⟩) = _
    rw [grey129x128_blurPixel]
    rfl

/-- Claim C18 (amended): `BlurPixel` offset by offset.  For every canvas, pixel
`(x, y)` and radius `r ≥ 0` such that `x - r`, `x + r + 1`, `y - r` and
`y + r + 1` are `int`s, and every weight function: the offsets `(dx, dy)` with
`-r ≤ dx, dy ≤ r` are `(2r+1)²` in number, without repetition; the weight sum
of `BlurPixel` is the sum of `w(dx, dy)` over all of them and each channel sum
the sum of `channel · w(dx, dy)` over all of them, in the order of the loops,
where `channel` is `257 ×` the stored byte read by `At` at a neighbour inside
the canvas and `0` at a neighbour outside; when adding `0 · w` leaves a sum as
it is, the channel sums are the sums over the in-bounds neighbours; and each
output channel is the truncation `uint8(channel sum / (weight sum × 255))`,
with alpha 255. -/
theorem c18_blur_pixel_sums {F : Type} (fl : Float64Ops F) (c : Canvas) (hwf : c.WellFormed)
    (x y r : Int) (hr : 0 ≤ r) (hx0 : intMin ≤ x - r) (hx1 : x + r + 1 ≤ intMax)
    (hy0 : intMin ≤ y - r) (hy1 : y + r + 1 ≤ intMax) (weight : WeightFunction F) :
    ((rectBlock (-r) r (-r) r).length : Int) = (2 * r + 1) ^ 2 ∧
    (rectBlock (-r) r (-r) r).Nodup ∧
    (∀ dx dy, (dx, dy) ∈ rectBlock (-r) r (-r) r ↔ -r ≤ dx ∧ dx ≤ r ∧ -r ≤ dy ∧ dy ≤ r) ∧
    (∃ acc, blurSums fl c x y r weight = some acc ∧
      acc.weightSum = sumOver fl (rectBlock (-r) r (-r) r) (fun d => weight.Weight d.1 d.2) ∧
      acc.outR = sumOver fl (rectBlock (-r) r (-r) r) (channelProduct fl c x y weight RGBA.R) ∧
      acc.outG = sumOver fl (rectBlock (-r) r (-r) r) (channelProduct fl c x y weight RGBA.G) ∧
      acc.outB = sumOver fl (rectBlock (-r) r (-r) r) (channelProduct fl c x y weight RGBA.B) ∧
      c.BlurPixel fl x y r weight = some
        ⟨fl.toUint8 (fl.div acc.outR (fl.mul acc.weightSum (fl.ofInt 255))),
         fl.toUint8 (fl.div acc.outG (fl.mul acc.weightSum (fl.ofInt 255))),
         fl.toUint8 (fl.div acc.outB (fl.mul acc.weightSum (fl.ofInt 255))),
         255⟩) ∧
    (∀ (ch : RGBA → Byte) (d : Int × Int) (p : RGBA),
      (Point.mk (x + d.1) (y + d.2)).In c.Rect → c.At (x + d.1) (y + d.2) = some p →
      channelProduct fl c x y weight ch d =
        fl.mul (fl.ofInt (((ch p).val : Int) * 257)) (weight.Weight d.1 d.2)) ∧
    (∀ (ch : RGBA → Byte) (d : Int × Int), ch ⟨0, 0, 0, 0⟩ = 0 →
      ¬ (Point.mk (x + d.1) (y + d.2)).In c.Rect →
      c.At (x + d.1) (y + d.2) = some ⟨0, 0, 0, 0⟩ ∧
      channelProduct fl c x y weight ch d = fl.mul (fl.ofInt 0) (weight.Weight d.1 d.2)) ∧
    ((∀ (a : F) (d : Int × Int), ¬ (Point.mk (x + d.1) (y + d.2)).In c.Rect →
        fl.add a (fl.mul (fl.ofInt 0) (weight.Weight d.1 d.2)) = a) →
      ∀ ch : RGBA → Byte, ch ⟨0, 0, 0, 0⟩ = 0 →
        sumOver fl (rectBlock (-r) r (-r) r) (channelProduct fl c x y weight ch) =
          sumOver fl (inBoundsOffsets c x y r) (channelProduct fl c x y weight ch)) := by
  have h1 := blurSums_eq_byOffsets fl hwf x y r weight hr hx0 hx1 hy0 hy1
  have h2 := sumsByOffsets_eq_sumOver fl c x y r weight
  refine ⟨?_, nodup_rectBlock _ _ _ _, fun dx dy => mem_rectBlock, ?_, ?_, ?_, ?_⟩
  · rw [length_rectBlock (by omega) (by omega)]
    ring
  · refine ⟨_, h1, ?_, ?_, ?_, ?_, ?_⟩
    · rw [h2]
    · rw [h2]
    · rw [h2]
    · rw [h2]
    · unfold Canvas.BlurPixel
      rw [h1]
      rfl
  · intro ch d p hin hp
    have e : c.stored (x + d.1) (y + d.2) = p := by
      rw [at_stored hwf] at hp
      exact Option.some.inj hp
    unfold channelProduct
    rw [e]
  · intro ch d hch hout
    exact ⟨at_outside hout, channelProduct_outside fl c x y weight ch hch d hout⟩
  · intro habs ch hch
    unfold sumOver inBoundsOffsets
    apply foldl_filter_of_fixed
    intro a d _ hp
    have hout : ¬ (Point.mk (x + d.1) (y + d.2)).In c.Rect := of_decide_eq_false hp
    rw [channelProduct_outside fl c x y weight ch hch d hout]
    exact habs a d hout

/-- Claim C18, witness: the corner pixel `(0, 0)` of the grey 3×3 canvas with
radius 1 and the constant kernel, in exact arithmetic, where adding `0 · w`
leaves every sum as it is. -/
theorem c18_blur_pixel_witness :
    grey3x3.WellFormed ∧ (0 : Int) ≤ 1 ∧ intMin ≤ 0 - 1 ∧ 0 + 1 + 1 ≤ intMax ∧
    ((rectBlock (-1) 1 (-1) 1).length : Int) = (2 * 1 + 1) ^ 2 ∧
    (∃ acc, blurSums exactOps grey3x3 0 0 1 constantKernel = some acc ∧
      acc.weightSum =
        sumOver exactOps (rectBlock (-1) 1 (-1) 1) (fun d => constantKernel.Weight d.1 d.2) ∧
      acc.outR = sumOver exactOps (rectBlock (-1) 1 (-1) 1)
        (channelProduct exactOps grey3x3 0 0 constantKernel RGBA.R) ∧
      grey3x3.BlurPixel exactOps 0 0 1 constantKernel = some
        ⟨exactOps.toUint8 (exactOps.div acc.outR (exactOps.mul acc.weightSum
            (exactOps.ofInt 255))),
         exactOps.toUint8 (exactOps.div acc.outG (exactOps.mul acc.weightSum
            (exactOps.ofInt 255))),
         exactOps.toUint8 (exactOps.div acc.outB (exactOps.mul acc.weightSum
            (exactOps.ofInt 255))),
         255⟩) ∧
    sumOver exactOps (rectBlock (-1) 1 (-1) 1)
        (channelProduct exactOps grey3x3 0 0 constantKernel RGBA.R) =
      sumOver exactOps (inBoundsOffsets grey3x3 0 0 1)
        (channelProduct exactOps grey3x3 0 0 constantKernel RGBA.R) :=
  have h := c18_blur_pixel_sums exactOps grey3x3 (by decide) 0 0 1 (by decide) (by decide)
    (by decide) (by decide) (by decide) constantKernel
  ⟨by decide, by decide, by decide, by decide, h.1,
    h.2.2.2.1.elim fun acc ha => ⟨acc, ha.1, ha.2.1, ha.2.2.1, ha.2.2.2.2.2⟩,
    h.2.2.2.2.2.2 (fun a d _ => by
      show a + ((0 : Int) : Rat) * constantKernel.Weight d.1 d.2 = a
      simp) RGBA.R rfl⟩

end Canvas2D
